import Mathlib

/-!
Verification of the jj-ryu core: a shallow embedding, in Lean 4, of the
change-graph builder, the submission planner and executor, the stack-comment
construction, and the remote-URL classifier, together with theorems checking
the natural-language specification against this embedding.

Conventions of the embedding:
* Rust `HashMap` values are modelled as association lists (`List (key × value)`)
  with overwrite-on-insert semantics and first-match lookup; `HashSet` values
  are modelled as duplicate-free lists built by `setInsert`.  Iteration order is
  the (deterministic) insertion order.
* Fallible Rust functions returning `Result` are modelled with `Except Error`.
* External adapters (the jj workspace and the hosting platform) are modelled as
  oracles: records of functions supplied as parameters, so that every theorem
  quantifies over all possible adapter behaviours.
-/

set_option maxRecDepth 4000

namespace JjRyu

/-- Lookup in an association-list map (models `HashMap::get`). -/
def mapFind {α : Type} (m : List (String × α)) (k : String) : Option α :=
  match m.find? (fun p => p.1 == k) with
  | some p => some p.2
  | none => none

/-- Insert into an association-list map (models `HashMap::insert`):
overwrites an existing binding in place, otherwise appends. -/
def mapInsert {α : Type} (m : List (String × α)) (k : String) (v : α) :
    List (String × α) :=
  if m.any (fun p => p.1 == k) then
    m.map (fun p => if p.1 == k then (k, v) else p)
  else m ++ [(k, v)]

/-- Insert into a set modelled as a duplicate-free list (models `HashSet::insert`). -/
def setInsert (s : List String) (x : String) : List String :=
  if s.contains x then s else s ++ [x]

/-- The error taxonomy of the program.
Modelled from the spec: the repository's `error.rs` is not in the sources;
§7 of the spec lists the kinds `NotAVcsWorkspace`, `NoSupportedRemotes`,
`BookmarkNotFound`, `Auth`, `PlatformApi`, `VcsCommand`, `Parse`, `Internal`. -/
inductive Error where
  | NotAVcsWorkspace
  | NoSupportedRemotes
  | RemoteNotFound
  | BookmarkNotFound (name : String)
  | Auth (msg : String)
  | Platform (msg : String)
  | VcsCommand (msg : String)
  | Parse (msg : String)
  | Internal (msg : String)
deriving DecidableEq, Repr

/-- Rendering of an error as a message (models the `Display` impl used by
`format!("... {e}")`; the exact text is irrelevant to every claim). -/
def Error.message : Error → String
  | .NotAVcsWorkspace => "not a jj workspace"
  | .NoSupportedRemotes => "no supported remotes"
  | .RemoteNotFound => "remote not found"
  | .BookmarkNotFound n => "bookmark not found: " ++ n
  | .Auth m => "auth: " ++ m
  | .Platform m => "platform: " ++ m
  | .VcsCommand m => "vcs: " ++ m
  | .Parse m => "parse: " ++ m
  | .Internal m => "internal: " ++ m

/-- A jj bookmark (from `types.rs`). -/
structure Bookmark where
  name : String
  commit_id : String
  change_id : String
  has_remote : Bool
  is_synced : Bool
deriving DecidableEq, Repr

/-- A commit/change entry from the jj log (from `types.rs`).  The metadata
fields never read by the embedded core (author name/email, timestamps, remote
bookmarks, working-copy flag) are omitted from the embedding. -/
structure LogEntry where
  commit_id : String
  change_id : String
  description_first_line : String
  parents : List String
  local_bookmarks : List String
deriving DecidableEq, Repr

/-- A segment of changes belonging to one or more bookmarks (from `types.rs`). -/
structure BookmarkSegment where
  bookmarks : List Bookmark
  changes : List LogEntry
deriving DecidableEq, Repr

/-- A segment narrowed to a single bookmark (from `types.rs`). -/
structure NarrowedBookmarkSegment where
  bookmark : Bookmark
  changes : List LogEntry
deriving DecidableEq, Repr

/-- A stack of bookmarks from trunk to a leaf (from `types.rs`). -/
structure BranchStack where
  segments : List BookmarkSegment
deriving DecidableEq, Repr

/-- The complete change graph (from `types.rs`). -/
structure ChangeGraph where
  bookmarks : List (String × Bookmark)
  bookmark_to_change_id : List (String × String)
  bookmarked_change_adjacency_list : List (String × String)
  bookmarked_change_id_to_segment : List (String × List LogEntry)
  stack_leafs : List String
  stack_roots : List String
  «stacks» : List BranchStack
  excluded_bookmark_count : Nat
deriving Repr

/-- A pull request / merge request (from `types.rs`). -/
structure PullRequest where
  number : Nat
  html_url : String
  base_ref : String
  head_ref : String
  title : String
deriving DecidableEq, Repr

/-- A comment on a pull request (from `types.rs`). -/
structure PrComment where
  id : Nat
  body : String
deriving DecidableEq, Repr

/-- The hosting platform (from `types.rs`). -/
inductive Platform where
  | GitHub
  | GitLab
deriving DecidableEq, Repr

/-- Platform configuration produced by remote-URL classification (from `types.rs`). -/
structure PlatformConfig where
  platform : Platform
  owner : String
  repo : String
  host : Option String
deriving DecidableEq, Repr

/-! ## Remote-URL classification (`platform/detection.rs`) -/

/-- Split a character list at the first occurrence of the pattern `pat`,
returning the part before and the part after the pattern. -/
def breakOnSub (pat : List Char) : List Char → Option (List Char × List Char)
  | [] => if pat == [] then some ([], []) else none
  | c :: cs =>
    if pat.isPrefixOf (c :: cs) then some ([], (c :: cs).drop pat.length)
    else
      match breakOnSub pat cs with
      | some (pre, post) => some (c :: pre, post)
      | none => none

/-- The characters after the last occurrence of `ch` (the whole list when `ch`
does not occur). -/
def afterLastChar (ch : Char) (l : List Char) : List Char :=
  l.foldl (fun acc c => if c == ch then [] else acc ++ [c]) []

/-- Hostname of an HTTPS-style URL.  Models the external `url` crate's
`Url::parse(url).host_str()` for URLs of shape `scheme://[userinfo@]host[:port]/…`
(the only shapes §4.3 of the spec admits); the crate's additional
normalisation (host lowercasing, IPv6 brackets, percent decoding) is outside
the embedding, so theorems quantify over already-normalised hosts. -/
def urlCrateHost (url : String) : Option String :=
  match breakOnSub "://".toList url.toList with
  | none => none
  | some (_scheme, after) =>
    let authority := after.takeWhile (fun c => c != '/')
    let hostPort := afterLastChar '@' authority
    let host := hostPort.takeWhile (fun c => c != ':')
    if host.isEmpty then none else some (String.mk host)

/-- `extract_hostname` from `platform/detection.rs`: the `git@…` SSH branch is
translated directly; the other branch delegates to the `url` crate model. -/
def extract_hostname (url : String) : Option String :=
  if "git@".toList.isPrefixOf url.toList then
    some (String.mk ((url.toList.drop 4).takeWhile (fun c => c != ':')))
  else
    urlCrateHost url

/-- The hostname classification chain of `detect_platform`. -/
def classifyHost (gh_host gitlab_host : Option String) (hostname : String) :
    Option Platform :=
  if hostname == "github.com" || ".github.com".toList.isSuffixOf hostname.toList
      || gh_host.any (fun h => hostname == h) then
    some .GitHub
  else if hostname == "gitlab.com" || ".gitlab.com".toList.isSuffixOf hostname.toList
      || gitlab_host.any (fun h => hostname == h) then
    some .GitLab
  else
    none

/-- `detect_platform` from `platform/detection.rs`.  The two environment
variables `GH_HOST` and `GITLAB_HOST` are passed as parameters. -/
def detect_platform (gh_host gitlab_host : Option String) (url : String) :
    Option Platform :=
  match extract_hostname url with
  | none => none
  | some hostname => classifyHost gh_host gitlab_host hostname

/-- The lazy capture group `(.+?)(?:\.git)?$` applied to the text after the
host part: the shortest non-empty capture wins, so exactly one trailing
`.git` is stripped when the remainder would stay non-empty. -/
def captureLazyGit (rest : List Char) : Option (List Char) :=
  if rest.isEmpty then none
  else if ".git".toList.isSuffixOf rest && rest.length > 4 then
    some (rest.take (rest.length - 4))
  else
    some rest

/-- Drop `pat` from the front of `l`, if it is there. -/
def dropPre (pat l : List Char) : Option (List Char) :=
  if pat.isPrefixOf l then some (l.drop pat.length) else none

/-- Match of the regex `git@[^:]+:(.+?)(?:\.git)?$` anchored at the start of
`l`, returning the capture. -/
def sshMatchAt (l : List Char) : Option (List Char) :=
  match dropPre "git@".toList l with
  | none => none
  | some r1 =>
    let host := r1.takeWhile (fun c => c ≠ ':')
    if host.isEmpty then none
    else
      match r1.drop host.length with
      | ':' :: rest => captureLazyGit rest
      | _ => none

/-- Leftmost search of the regex `git@[^:]+:(.+?)(?:\.git)?$`
(models `re_ssh.captures(url)` from `parse_repo_info`). -/
def sshFind : List Char → Option (List Char)
  | [] => none
  | c :: cs =>
    match sshMatchAt (c :: cs) with
    | some cap => some cap
    | none => sshFind cs

/-- Match of the regex `https?://[^/]+/(.+?)(?:\.git)?$` anchored at the start
of `l`, returning the capture. -/
def httpsMatchAt (l : List Char) : Option (List Char) :=
  match dropPre "http".toList l with
  | none => none
  | some r0 =>
    let r1? :=
      match dropPre "s://".toList r0 with
      | some r => some r
      | none => dropPre "://".toList r0
    match r1? with
    | none => none
    | some r1 =>
      let host := r1.takeWhile (fun c => c ≠ '/')
      if host.isEmpty then none
      else
        match r1.drop host.length with
        | '/' :: rest => captureLazyGit rest
        | _ => none

/-- Leftmost search of the regex `https?://[^/]+/(.+?)(?:\.git)?$`
(models `re_https.captures(url)` from `parse_repo_info`). -/
def httpsFind : List Char → Option (List Char)
  | [] => none
  | c :: cs =>
    match httpsMatchAt (c :: cs) with
    | some cap => some cap
    | none => httpsFind cs

/-- Split a character list on a separator character (models Rust's
`str::split`, which yields one empty piece for the empty input and an empty
trailing piece after a trailing separator). -/
def splitChar (sep : Char) : List Char → List (List Char)
  | [] => [[]]
  | c :: cs =>
    let r := splitChar sep cs
    if c == sep then [] :: r
    else
      match r with
      | [] => [[c]]
      | h :: t => (c :: h) :: t

/-- Join character lists with a separator character (models `[&str]::join`). -/
def joinChar (sep : Char) : List (List Char) → List Char
  | [] => []
  | [x] => x
  | x :: y :: t => x ++ sep :: joinChar sep (y :: t)

/-- `parse_repo_info` from `platform/detection.rs`. -/
def parse_repo_info (gh_host gitlab_host : Option String) (url : String) :
    Except Error PlatformConfig :=
  match detect_platform gh_host gitlab_host url with
  | none => .error .NoSupportedRemotes
  | some platform =>
    let hostname := extract_hostname url
    let path? :=
      match sshFind url.toList with
      | some cap => some cap
      | none => httpsFind url.toList
    match path? with
    | none => .error (.Parse ("cannot parse remote URL: " ++ url))
    | some pathChars =>
      let path := String.mk pathChars
      let parts := splitChar '/' pathChars
      if parts.length < 2 then
        .error (.Parse ("invalid repo path: " ++ path))
      else
        let repo := String.mk (parts.getLastD [])
        let owner := String.mk (joinChar '/' parts.dropLast)
        let host :=
          match platform with
          | .GitHub =>
              if hostname.any (fun h => h != "github.com") then hostname else none
          | .GitLab =>
              if hostname.any (fun h => h != "gitlab.com") then hostname else none
        .ok { platform := platform, owner := owner, repo := repo, host := host }

/-! ## Graph builder (`graph/builder.rs`) -/

/-- The narrow jj-workspace interface consumed by the graph builder
(`JjWorkspace` lives in the repository's `repo` module, which is not among the
sources; the interface is the one §4.1 of the spec describes and
`graph/builder.rs` consumes).  `revset commit_id` is the ordered result of
`resolve_revset("trunk()..<commit_id>")`, newest change first; the builder
claims quantify over successful query results, so the `Result` wrapper of
`resolve_revset` is not modelled.  `git_push name remote` is the push
operation used by the executor. -/
structure JjWorkspace where
  local_bookmarks : List Bookmark
  revset : String → List LogEntry
  git_push : String → String → Except Error Unit

/-- A raw segment before full bookmark resolution (from `graph/builder.rs`). -/
structure RawSegment where
  bookmark_names : List String
  changes : List LogEntry
deriving DecidableEq, Repr

/-- Result from traversing a bookmark toward trunk (from `graph/builder.rs`). -/
structure TraversalResult where
  segments : List RawSegment
  already_seen_change_id : Option String
  excluded_bookmark_count : Nat
  newly_tainted_change_ids : List String
deriving Repr

/-- The taint pre-scan of `traverse_and_discover_segments`: walk the query
result accumulating every change id seen; at the first change with more than
one parent or an already-tainted change id, return the accumulated ids
(including the offending one). -/
def taintScan (tainted : List String) (seen : List String) :
    List LogEntry → Option (List String)
  | [] => none
  | c :: rest =>
    let seen2 := seen ++ [c.change_id]
    if 1 < c.parents.length || tainted.contains c.change_id then some seen2
    else taintScan tainted seen2 rest

/-- Append a change to the in-progress segment, if any (models the
`if let Some(seg) = current_segment.as_mut()` push of the source). -/
def extendCurrent (c : LogEntry) : Option RawSegment → Option RawSegment
  | none => none
  | some s => some { s with changes := s.changes ++ [c] }

/-- Append the in-progress segment, if any (models `current_segment.take()`
followed by `segments.push`). -/
def pushCurrent (segments : List RawSegment) : Option RawSegment → List RawSegment
  | none => segments
  | some s => segments ++ [s]

/-- The segmentation loop of `traverse_and_discover_segments`: a change
carrying local bookmarks closes the current segment and opens a new one,
unless one of its bookmarks is already fully collected, in which case the
walk stops and reports that change id as the already-seen parent. -/
def segmentLoop (fully : List String) (segments : List RawSegment)
    (current : Option RawSegment) :
    List LogEntry → List RawSegment × Option String
  | [] => (pushCurrent segments current, none)
  | c :: rest =>
    if c.local_bookmarks.isEmpty then
      segmentLoop fully segments (extendCurrent c current) rest
    else
      let segments2 := pushCurrent segments current
      if c.local_bookmarks.any fully.contains then
        (segments2, some c.change_id)
      else
        segmentLoop fully segments2
          (some { bookmark_names := c.local_bookmarks, changes := [c] }) rest

/-- `traverse_and_discover_segments` from `graph/builder.rs`. -/
def traverse_and_discover_segments (ws : JjWorkspace) (bookmark : Bookmark)
    (fully tainted : List String) : TraversalResult :=
  let changes := ws.revset bookmark.commit_id
  match taintScan tainted [] changes with
  | some seen =>
    { segments := [], already_seen_change_id := none,
      excluded_bookmark_count := 1, newly_tainted_change_ids := seen }
  | none =>
    let r := segmentLoop fully [] none changes
    { segments := r.1, already_seen_change_id := r.2,
      excluded_bookmark_count := 0, newly_tainted_change_ids := [] }

/-- The mutable accumulators of `build_change_graph`. -/
structure BuildState where
  fully_collected_bookmarks : List String
  bookmark_to_change_id : List (String × String)
  bookmarked_change_adjacency_list : List (String × String)
  bookmarked_change_id_to_segment : List (String × List LogEntry)
  stack_roots : List String
  tainted_change_ids : List String
  total_excluded_bookmark_count : Nat

/-- The initial accumulator state of `build_change_graph`. -/
def BuildState.init : BuildState :=
  { fully_collected_bookmarks := [], bookmark_to_change_id := [],
    bookmarked_change_adjacency_list := [], bookmarked_change_id_to_segment := [],
    stack_roots := [], tainted_change_ids := [],
    total_excluded_bookmark_count := 0 }

/-- The "store segment changes" loop body of `build_change_graph`: record the
segment under its head change id and mark every bookmark on the head as fully
collected. -/
def storeSegment (st : BuildState) (seg : RawSegment) : BuildState :=
  match seg.changes with
  | [] => st
  | c :: _ =>
    let firstId := c.change_id
    { st with
      bookmarked_change_id_to_segment :=
        mapInsert st.bookmarked_change_id_to_segment firstId seg.changes,
      bookmark_to_change_id :=
        seg.bookmark_names.foldl (fun m n => mapInsert m n firstId)
          st.bookmark_to_change_id,
      fully_collected_bookmarks :=
        seg.bookmark_names.foldl setInsert st.fully_collected_bookmarks }

/-- The stacking loop of `build_change_graph`: for consecutive segments
`child, parent` (child toward the leaf), insert `child.head → parent.head`
into the adjacency list, skipping pairs with an empty change list. -/
def addAdjacencies (adj : List (String × String)) :
    List RawSegment → List (String × String)
  | [] => adj
  | [_] => adj
  | s1 :: s2 :: rest =>
    let adj2 :=
      match s1.changes, s2.changes with
      | c1 :: _, c2 :: _ => mapInsert adj c1.change_id c2.change_id
      | _, _ => adj
    addAdjacencies adj2 (s2 :: rest)

/-- The per-bookmark step of `build_change_graph`'s main loop. -/
def processBookmark (ws : JjWorkspace) (st : BuildState) (bookmark : Bookmark) :
    BuildState :=
  if st.fully_collected_bookmarks.contains bookmark.name then st
  else
    let result := traverse_and_discover_segments ws bookmark
      st.fully_collected_bookmarks st.tainted_change_ids
    if 0 < result.excluded_bookmark_count then
      { st with
        tainted_change_ids :=
          result.newly_tainted_change_ids.foldl setInsert st.tainted_change_ids,
        total_excluded_bookmark_count :=
          st.total_excluded_bookmark_count + result.excluded_bookmark_count }
    else
      let st1 := result.segments.foldl storeSegment st
      let st2 := { st1 with
        bookmarked_change_adjacency_list :=
          addAdjacencies st1.bookmarked_change_adjacency_list result.segments }
      match result.already_seen_change_id with
      | some seenId =>
        match result.segments.getLast? with
        | some rootSeg =>
          match rootSeg.changes with
          | c :: _ =>
            { st2 with
              bookmarked_change_adjacency_list :=
                mapInsert st2.bookmarked_change_adjacency_list c.change_id seenId }
          | [] => st2
        | none => st2
      | none =>
        match result.segments.getLast? with
        | some rootSeg =>
          match rootSeg.changes with
          | c :: _ => { st2 with stack_roots := setInsert st2.stack_roots c.change_id }
          | [] => st2
        | none => st2

/-- The while-loop body of `build_path_to_root`, with explicit fuel standing
for the source's unbounded `while let` loop: each step follows the adjacency
list one hop toward trunk. -/
def pathToRootAux (adj : List (String × String)) : Nat → String → List String
  | 0, _ => []
  | Nat.succ fuel, current =>
    match mapFind adj current with
    | none => []
    | some parent => parent :: pathToRootAux adj fuel parent

/-- `build_path_to_root` from `graph/builder.rs`.  The source runs the loop
without fuel; the embedding takes the fuel as a parameter, and theorem `C3`
shows that fuel `adj.length` is always enough for graphs the builder
produces, which is exactly the termination content of the claim. -/
def build_path_to_root (leaf : String) (adj : List (String × String))
    (fuel : Nat) : List String :=
  (leaf :: pathToRootAux adj fuel leaf).reverse

/-- `build_segments` from `graph/builder.rs`. -/
def build_segments (stack_change_ids : List String)
    (bookmarks : List (String × Bookmark))
    (change_id_to_segment : List (String × List LogEntry)) :
    List BookmarkSegment :=
  stack_change_ids.foldl
    (fun acc cid =>
      match mapFind change_id_to_segment cid with
      | none => acc
      | some changes =>
        match changes with
        | [] => acc
        | c :: _ =>
          acc ++ [{ bookmarks := c.local_bookmarks.filterMap (mapFind bookmarks),
                    changes := changes }])
    []

/-- `group_segments_into_stacks` from `graph/builder.rs` (the path fuel is the
adjacency-list length, see `build_path_to_root`). -/
def group_segments_into_stacks (bookmarks : List (String × Bookmark))
    (stack_leafs : List String) (adjacency_list : List (String × String))
    (change_id_to_segment : List (String × List LogEntry)) : List BranchStack :=
  stack_leafs.foldl
    (fun acc leaf =>
      let ids := build_path_to_root leaf adjacency_list adjacency_list.length
      acc ++ [{ segments := build_segments ids bookmarks change_id_to_segment }])
    []

/-- `build_change_graph` from `graph/builder.rs`. -/
def build_change_graph (ws : JjWorkspace) : ChangeGraph :=
  let all_bookmarks := ws.local_bookmarks
  let bookmarks_by_name :=
    all_bookmarks.foldl (fun m b => mapInsert m b.name b) []
  let st := all_bookmarks.foldl (processBookmark ws) BuildState.init
  let change_ids_with_children :=
    st.bookmarked_change_adjacency_list.map (fun p => p.2)
  let stack_leafs :=
    (st.bookmarked_change_id_to_segment.map (fun p => p.1)).filter
      (fun id => !change_ids_with_children.contains id)
  let theStacks := group_segments_into_stacks bookmarks_by_name stack_leafs
    st.bookmarked_change_adjacency_list st.bookmarked_change_id_to_segment
  { bookmarks := bookmarks_by_name,
    bookmark_to_change_id := st.bookmark_to_change_id,
    bookmarked_change_adjacency_list := st.bookmarked_change_adjacency_list,
    bookmarked_change_id_to_segment := st.bookmarked_change_id_to_segment,
    stack_leafs := stack_leafs,
    stack_roots := st.stack_roots,
    «stacks» := theStacks,
    excluded_bookmark_count := st.total_excluded_bookmark_count }

/-! ## Submission analysis helpers (`submit/analysis.rs`, absent from the
sources) and the planner (`submit/plan.rs`) -/

/-- Modelled from the spec: `get_base_branch` from the missing
`submit/analysis.rs` — "Expected base for segment i = `narrowed[i-1].bookmark.name`
if `i > 0`, else `default_branch`" (§4.5), failing with `BookmarkNotFound`
when the name is not a segment bookmark. -/
def get_base_branch (name : String) (segments : List NarrowedBookmarkSegment)
    (default_branch : String) : Except Error String :=
  match segments.findIdx? (fun s => s.bookmark.name == name) with
  | none => .error (.BookmarkNotFound name)
  | some 0 => .ok default_branch
  | some (i + 1) =>
    match segments[i]? with
    | some prev => .ok prev.bookmark.name
    | none => .error (.BookmarkNotFound name)

/-- Modelled from the spec: `generate_pr_title` from the missing
`submit/analysis.rs` — "PR title for segment i = first non-empty change
description line of the segment's newest change; if none, the bookmark name"
(§4.5). -/
def generate_pr_title (name : String) (segments : List NarrowedBookmarkSegment) :
    Except Error String :=
  match segments.find? (fun s => s.bookmark.name == name) with
  | none => .error (.BookmarkNotFound name)
  | some seg =>
    match seg.changes.find? (fun c => !c.description_first_line.isEmpty) with
    | some c => .ok c.description_first_line
    | none => .ok name

/-- Output of the submission analyzer (`submit/analysis.rs`). -/
structure SubmissionAnalysis where
  segments : List NarrowedBookmarkSegment
deriving Repr

/-- Information about a PR that needs to be created (from `submit/plan.rs`). -/
structure PrToCreate where
  bookmark : Bookmark
  base_branch : String
  title : String
deriving DecidableEq, Repr

/-- Information about a PR that needs its base updated (from `submit/plan.rs`). -/
structure PrBaseUpdate where
  bookmark : Bookmark
  current_base : String
  expected_base : String
  pr : PullRequest
deriving DecidableEq, Repr

/-- Submission plan (from `submit/plan.rs`). -/
structure SubmissionPlan where
  segments : List NarrowedBookmarkSegment
  bookmarks_needing_push : List Bookmark
  prs_to_create : List PrToCreate
  prs_to_update_base : List PrBaseUpdate
  existing_prs : List (String × PullRequest)
  remote : String
  default_branch : String
deriving Repr

/-- The platform-service interface (`platform/mod.rs`), modelled as an oracle
over an abstract remote state `σ`: each operation consumes the state and
returns its result together with the successor state, so that theorems can
quantify over arbitrary adapter behaviour and frame properties are visible. -/
structure PlatformService (σ : Type) where
  find_existing_pr : String → σ → Except Error (Option PullRequest) × σ
  create_pr : String → String → String → σ → Except Error PullRequest × σ
  update_pr_base : Nat → String → σ → Except Error PullRequest × σ
  list_pr_comments : Nat → σ → Except Error (List PrComment) × σ
  create_pr_comment : Nat → String → σ → Except Error Unit × σ
  update_pr_comment : Nat → Nat → String → σ → Except Error Unit × σ

/-- The "check for existing PRs" loop of `create_submission_plan`: query
`find_existing_pr` for each segment bookmark in order, recording hits. -/
def findExistingPrs {σ : Type} (platform : PlatformService σ)
    (bookmarks : List Bookmark) (acc : List (String × PullRequest)) (s : σ) :
    Except Error (List (String × PullRequest)) × σ :=
  match bookmarks with
  | [] => (.ok acc, s)
  | b :: rest =>
    match platform.find_existing_pr b.name s with
    | (.error e, s2) => (.error e, s2)
    | (.ok none, s2) => findExistingPrs platform rest acc s2
    | (.ok (some pr), s2) =>
      findExistingPrs platform rest (mapInsert acc b.name pr) s2

/-- The "determine what needs to happen" loop body of `create_submission_plan`. -/
def planStep (segments : List NarrowedBookmarkSegment) (default_branch : String)
    (existing_prs : List (String × PullRequest))
    (acc : List Bookmark × List PrToCreate × List PrBaseUpdate) (b : Bookmark) :
    Except Error (List Bookmark × List PrToCreate × List PrBaseUpdate) :=
  let (push, creates, updates) := acc
  let push2 := if !b.has_remote || !b.is_synced then push ++ [b] else push
  match mapFind existing_prs b.name with
  | some pr =>
    match get_base_branch b.name segments default_branch with
    | .error e => .error e
    | .ok expected_base =>
      if pr.base_ref != expected_base then
        .ok (push2, creates,
          updates ++ [{ bookmark := b, current_base := pr.base_ref,
                        expected_base := expected_base, pr := pr }])
      else
        .ok (push2, creates, updates)
  | none =>
    match get_base_branch b.name segments default_branch with
    | .error e => .error e
    | .ok base_branch =>
      match generate_pr_title b.name segments with
      | .error e => .error e
      | .ok title =>
        .ok (push2,
          creates ++ [{ bookmark := b, base_branch := base_branch, title := title }],
          updates)

/-- Fold `planStep` over the bookmarks, propagating the first error. -/
def planLoop (segments : List NarrowedBookmarkSegment) (default_branch : String)
    (existing_prs : List (String × PullRequest))
    (acc : List Bookmark × List PrToCreate × List PrBaseUpdate) :
    List Bookmark → Except Error (List Bookmark × List PrToCreate × List PrBaseUpdate)
  | [] => .ok acc
  | b :: rest =>
    match planStep segments default_branch existing_prs acc b with
    | .error e => .error e
    | .ok acc2 => planLoop segments default_branch existing_prs acc2 rest

/-- `create_submission_plan` from `submit/plan.rs`. -/
def create_submission_plan {σ : Type} (analysis : SubmissionAnalysis)
    (platform : PlatformService σ) (remote default_branch : String) (s : σ) :
    Except Error SubmissionPlan × σ :=
  let segments := analysis.segments
  let bookmarks := segments.map (fun sg => sg.bookmark)
  match findExistingPrs platform bookmarks [] s with
  | (.error e, s2) => (.error e, s2)
  | (.ok existing_prs, s2) =>
    match planLoop segments default_branch existing_prs ([], [], []) bookmarks with
    | .error e => (.error e, s2)
    | .ok (push, creates, updates) =>
      (.ok { segments := segments, bookmarks_needing_push := push,
             prs_to_create := creates, prs_to_update_base := updates,
             existing_prs := existing_prs, remote := remote,
             default_branch := default_branch }, s2)

/-! ## Decimal rendering, UTF-8 and base64 (used by the stack comment) -/

/-- Little-endian decimal digits of `n` (the first argument is fuel, always
called with `fuel = n`, which suffices since `n / 10 < n` for `n > 0`). -/
def natDigitsAux : Nat → Nat → List Nat
  | 0, _ => []
  | fuel + 1, n => if n = 0 then [] else n % 10 :: natDigitsAux fuel (n / 10)

/-- Standard decimal rendering of a natural number (models Rust's `Display`
for integers, used by `format!("#{}", …)` and by the JSON serializer). -/
def natDecimal (n : Nat) : List Char :=
  if n = 0 then ['0']
  else ((natDigitsAux n n).reverse.map fun d => Char.ofNat (48 + d))

/-- Value of a decimal digit string (used by the spec-modelled comment decoder). -/
def parseDigits (l : List Char) : Nat :=
  l.foldl (fun acc c => acc * 10 + (c.toNat - 48)) 0

/-- UTF-8 encoding of one character (models `String::into_bytes`). -/
def utf8EncChar (c : Char) : List Nat :=
  let n := c.toNat
  if n < 0x80 then [n]
  else if n < 0x800 then [0xC0 + n / 64, 0x80 + n % 64]
  else if n < 0x10000 then
    [0xE0 + n / 4096, 0x80 + n / 64 % 64, 0x80 + n % 64]
  else
    [0xF0 + n / 262144, 0x80 + n / 4096 % 64, 0x80 + n / 64 % 64, 0x80 + n % 64]

/-- UTF-8 encoding of a character list. -/
def utf8Enc (l : List Char) : List Nat :=
  l.foldr (fun c acc => utf8EncChar c ++ acc) []

/-- Modelled from the spec: whether a byte is a UTF-8 continuation byte. -/
def utf8Cont (b : Nat) : Bool := 0x80 ≤ b && b < 0xC0

/-- Modelled from the spec: decode the continuation of a two-byte sequence. -/
def utf8Dec2 (b : Nat) (bs : List Nat) : Option (Char × List Nat) :=
  match bs with
  | b1 :: bs1 =>
    if utf8Cont b1 then
      some (Char.ofNat ((b - 0xC0) * 64 + (b1 - 0x80)), bs1)
    else none
  | _ => none

/-- Modelled from the spec: decode the continuation of a three-byte sequence. -/
def utf8Dec3 (b : Nat) (bs : List Nat) : Option (Char × List Nat) :=
  match bs with
  | b1 :: b2 :: bs2 =>
    if utf8Cont b1 && utf8Cont b2 then
      some (Char.ofNat ((b - 0xE0) * 4096 + (b1 - 0x80) * 64 + (b2 - 0x80)), bs2)
    else none
  | _ => none

/-- Modelled from the spec: decode the continuation of a four-byte sequence. -/
def utf8Dec4 (b : Nat) (bs : List Nat) : Option (Char × List Nat) :=
  match bs with
  | b1 :: b2 :: b3 :: bs3 =>
    if (utf8Cont b1 && utf8Cont b2) && utf8Cont b3 then
      some (Char.ofNat ((b - 0xF0) * 262144 + (b1 - 0x80) * 4096
        + (b2 - 0x80) * 64 + (b3 - 0x80)), bs3)
    else none
  | _ => none

/-- Modelled from the spec: one step of a UTF-8 decoder (the repository never
decodes the comment payload; §4.7 describes the payload as decodable, so the
decoder is modelled).  Returns the decoded character and the remaining bytes. -/
def utf8DecStep (l : List Nat) : Option (Char × List Nat) :=
  match l with
  | [] => none
  | b :: bs =>
    if b < 0x80 then some (Char.ofNat b, bs)
    else if b < 0xC0 then none
    else if b < 0xE0 then utf8Dec2 b bs
    else if b < 0xF0 then utf8Dec3 b bs
    else if b < 0xF8 then utf8Dec4 b bs
    else none

/-- Modelled from the spec: a full UTF-8 decoder built from `utf8DecStep`
(fuel is the byte count; every step consumes at least one byte). -/
def utf8DecAux : Nat → List Nat → Option (List Char)
  | _, [] => some []
  | 0, _ :: _ => none
  | fuel + 1, l =>
    match utf8DecStep l with
    | none => none
    | some (c, rest) =>
      match utf8DecAux fuel rest with
      | none => none
      | some cs => some (c :: cs)

/-- Modelled from the spec: UTF-8 decoding of a byte list. -/
def utf8Dec (l : List Nat) : Option (List Char) :=
  utf8DecAux l.length l

/-- The standard base64 alphabet (the `STANDARD` engine of the `base64` crate). -/
def base64Table : List Char :=
  "ABCDEFGHIJKLMNOPQRSTUVWXYZabcdefghijklmnopqrstuvwxyz0123456789+/".toList

/-- Character for a six-bit group. -/
def sextetChar (n : Nat) : Char := base64Table.getD n '?'

/-- Base64 encoding with padding of a byte list (models `BASE64.encode`). -/
def base64Encode : List Nat → List Char
  | [] => []
  | [a] => [sextetChar (a / 4), sextetChar (a % 4 * 16), '=', '=']
  | [a, b] => [sextetChar (a / 4), sextetChar (a % 4 * 16 + b / 16),
               sextetChar (b % 16 * 4), '=']
  | a :: b :: c :: rest =>
    sextetChar (a / 4) :: sextetChar (a % 4 * 16 + b / 16)
      :: sextetChar (b % 16 * 4 + c / 64) :: sextetChar (c % 64)
      :: base64Encode rest

/-- Modelled from the spec: value of a base64 character (the repository never
decodes the payload; see `utf8DecStep`). -/
def sextetVal (c : Char) : Option Nat := base64Table.indexOf? c

/-- Modelled from the spec: base64 decoding with padding. -/
def base64Decode : List Char → Option (List Nat)
  | [] => some []
  | c0 :: c1 :: c2 :: c3 :: rest =>
    match sextetVal c0, sextetVal c1 with
    | some s0, some s1 =>
      if c2 = '=' && c3 = '=' && rest.isEmpty then
        some [s0 * 4 + s1 / 16]
      else if c3 = '=' && rest.isEmpty then
        match sextetVal c2 with
        | some s2 => some [s0 * 4 + s1 / 16, s1 % 16 * 16 + s2 / 4]
        | none => none
      else
        match sextetVal c2, sextetVal c3 with
        | some s2, some s3 =>
          match base64Decode rest with
          | some bs =>
            some ((s0 * 4 + s1 / 16) :: (s1 % 16 * 16 + s2 / 4)
              :: (s2 % 4 * 64 + s3) :: bs)
          | none => none
        | _, _ => none
    | _, _ => none
  | _ => none

/-! ## Stack comment construction (`submit/execute.rs`) -/

/-- Stack comment data embedded in PR comments (from `submit/execute.rs`;
the `version: u8` field is modelled as `Nat`, the source only ever writes 0). -/
structure StackItem where
  bookmark_name : String
  pr_url : String
  pr_number : Nat
deriving DecidableEq, Repr

/-- The payload serialised into the stack navigation comment. -/
structure StackCommentData where
  version : Nat
  stack : List StackItem
deriving DecidableEq, Repr

/-- `COMMENT_DATA_PREFIX` from `submit/execute.rs` (renamed: the embedding
avoids the word the source uses as the constant suffix). -/
def COMMENT_DATA_HEAD : String := "<!--- JJ-RYU_STACK: "

/-- `COMMENT_DATA_PREFIX_OLD` from `submit/execute.rs`. -/
def COMMENT_DATA_HEAD_OLD : String := "<!--- JJ-STACK_INFO: "

/-- `COMMENT_DATA_POSTFIX` from `submit/execute.rs`. -/
def COMMENT_DATA_TAIL : String := " --->"

/-- `STACK_COMMENT_THIS_PR` from `submit/execute.rs`. -/
def STACK_COMMENT_THIS_PR : String := "👈"

/-- Lowercase hexadecimal digit. -/
def hexDigit (n : Nat) : Char :=
  if n < 10 then Char.ofNat (48 + n) else Char.ofNat (87 + n)

/-- JSON escaping of one character (models `serde_json`'s string escaping). -/
def jsonEscapeChar (c : Char) : List Char :=
  if c = '"' then ['\\', '"']
  else if c = '\\' then ['\\', '\\']
  else if c = '\x08' then ['\\', 'b']
  else if c = '\x0c' then ['\\', 'f']
  else if c = '\n' then ['\\', 'n']
  else if c = '\x0d' then ['\\', 'r']
  else if c = '\t' then ['\\', 't']
  else if c.toNat < 0x20 then
    ['\\', 'u', '0', '0', hexDigit (c.toNat / 16), hexDigit (c.toNat % 16)]
  else [c]

/-- JSON string literal for `s` (models `serde_json` serialisation of a
Rust `String` field). -/
def jsonString (s : String) : List Char :=
  '"' :: (s.toList.foldr (fun c acc => jsonEscapeChar c ++ acc) []) ++ ['"']

/-- JSON object for one `StackItem`, with `serde`'s declaration-order fields. -/
def stackItemJson (it : StackItem) : List Char :=
  "\x7b\"bookmark_name\":".toList ++ jsonString it.bookmark_name
    ++ ",\"pr_url\":".toList ++ jsonString it.pr_url
    ++ ",\"pr_number\":".toList ++ natDecimal it.pr_number
    ++ "\x7d".toList

/-- JSON object for `StackCommentData` (models `serde_json::to_string`). -/
def stackDataJson (d : StackCommentData) : List Char :=
  "\x7b\"version\":".toList ++ natDecimal d.version
    ++ ",\"stack\":[".toList ++ joinChar ',' (d.stack.map stackItemJson)
    ++ "]\x7d".toList

/-- The bullet line of the stack comment for the item at reversed position
`p.1`: the `👈`-marked bold form on the current PR's line, the link form on
every other line. -/
def stackBulletLine (reversed_idx : Nat) (p : Nat × StackItem) : List Char :=
  if p.1 = reversed_idx then
    "* **#".toList ++ natDecimal p.2.pr_number ++ " ".toList
      ++ STACK_COMMENT_THIS_PR.toList ++ "**".toList
  else
    "* [#".toList ++ natDecimal p.2.pr_number ++ "](".toList
      ++ p.2.pr_url.toList ++ ")".toList

/-- The bullet block of the stack comment: one line per stack item in reverse
(leaf-first) order. -/
def stackBullets (data : StackCommentData) (current_idx : Nat) : List Char :=
  data.stack.reverse.enum.foldr
    (fun (p : Nat × StackItem) acc =>
      stackBulletLine (data.stack.length - 1 - current_idx) p ++ '\n' :: acc)
    []

/-- The footer of the stack comment. -/
def stackFooter : List Char :=
  "\n---\nThis stack of pull requests is managed by [jj-ryu](https://github.com/dmmulroy/jj-ryu).".toList

/-- The comment body built by `create_or_update_stack_comment`: marker line
with the base64 JSON payload, then one bullet line per stack item in reverse
(leaf-first) order with the 👈 marker on the current PR's line, then the
footer. -/
def stack_comment_body (data : StackCommentData) (current_idx : Nat) : String :=
  String.mk (COMMENT_DATA_HEAD.toList
    ++ base64Encode (utf8Enc (stackDataJson data))
    ++ COMMENT_DATA_TAIL.toList
    ++ '\n' :: (stackBullets data current_idx ++ stackFooter))

/-- `build_stack_comment_data` from `submit/execute.rs`. -/
def build_stack_comment_data (plan : SubmissionPlan)
    (bookmark_to_pr : List (String × PullRequest)) : StackCommentData :=
  { version := 0,
    stack := plan.segments.filterMap fun seg =>
      (mapFind bookmark_to_pr seg.bookmark.name).map fun pr =>
        { bookmark_name := seg.bookmark.name, pr_url := pr.html_url,
          pr_number := pr.number } }

/-- Contiguous-sublist test over character lists. -/
def listInfix (pat : List Char) : List Char → Bool
  | [] => pat.isEmpty
  | c :: cs => pat.isPrefixOf (c :: cs) || listInfix pat cs

/-- Substring test (models Rust's `str::contains` with a literal pattern). -/
def containsSub (s pat : String) : Bool :=
  listInfix pat.toList s.toList

/-- `create_or_update_stack_comment` from `submit/execute.rs`: build the body,
list the PR's comments, update the first comment containing either marker, or
create a new comment. -/
def create_or_update_stack_comment {σ : Type} (platform : PlatformService σ)
    (data : StackCommentData) (current_idx : Nat) (pr_number : Nat) (s : σ) :
    Except Error Unit × σ :=
  let body := stack_comment_body data current_idx
  match platform.list_pr_comments pr_number s with
  | (.error e, s2) => (.error e, s2)
  | (.ok comments, s2) =>
    match comments.find? (fun c =>
        containsSub c.body COMMENT_DATA_HEAD
          || containsSub c.body COMMENT_DATA_HEAD_OLD) with
    | some comment => platform.update_pr_comment pr_number comment.id body s2
    | none => platform.create_pr_comment pr_number body s2

/-! ## Progress events (`submit/progress.rs`) and the executor
(`submit/execute.rs`) -/

/-- Submission phase (from `submit/progress.rs`). -/
inductive Phase where
  | Analyzing
  | Planning
  | Pushing
  | CreatingPrs
  | UpdatingPrs
  | AddingComments
  | Complete
deriving DecidableEq, Repr

/-- Push operation status (from `submit/progress.rs`). -/
inductive PushStatus where
  | Started
  | Success
  | AlreadySynced
  | Failed (msg : String)
deriving DecidableEq, Repr

/-- One progress-callback invocation (`ProgressCallback` from
`submit/progress.rs`); the executor's observable behaviour towards the sink
is modelled as the ordered list of these events. -/
inductive Event where
  | on_phase (phase : Phase)
  | on_bookmark_push (bookmark : String) (status : PushStatus)
  | on_pr_created (bookmark : String) (pr : PullRequest)
  | on_pr_updated (bookmark : String) (pr : PullRequest)
  | on_error (e : Error)
  | on_message (m : String)
deriving DecidableEq, Repr

/-- Result of submission execution (from `submit/execute.rs`). -/
structure SubmissionResult where
  success : Bool
  created_prs : List PullRequest
  updated_prs : List PullRequest
  pushed_bookmarks : List String
  errors : List String
deriving DecidableEq, Repr

/-- The state threaded through `execute_submission`: the result being built,
the running bookmark→PR map, the remote state and the emitted events. -/
structure ExecCtx (σ : Type) where
  result : SubmissionResult
  bookmark_to_pr : List (String × PullRequest)
  state : σ
  events : List Event

/-- The push phase of `execute_submission`: emit `Started`, push, emit
`Success` or `Failed`; the first failure records the error, clears `success`
and aborts (second component `true`). -/
def pushLoop (ws : JjWorkspace) (remote : String) :
    List Bookmark → ExecCtx σ → ExecCtx σ × Bool
  | [], ctx => (ctx, false)
  | b :: rest, ctx =>
    let ctx1 := { ctx with
      events := ctx.events ++ [Event.on_bookmark_push b.name .Started] }
    match ws.git_push b.name remote with
    | .ok _ =>
      pushLoop ws remote rest { ctx1 with
        events := ctx1.events ++ [Event.on_bookmark_push b.name .Success],
        result := { ctx1.result with
          pushed_bookmarks := ctx1.result.pushed_bookmarks ++ [b.name] } }
    | .error e =>
      let msg := "Failed to push " ++ b.name ++ ": " ++ e.message
      ({ ctx1 with
        events := ctx1.events ++ [Event.on_bookmark_push b.name (.Failed msg)],
        result := { ctx1.result with
          errors := ctx1.result.errors ++ [msg], success := false } }, true)

/-- The update-base phase of `execute_submission`. -/
def updateLoop (platform : PlatformService σ) :
    List PrBaseUpdate → ExecCtx σ → ExecCtx σ × Bool
  | [], ctx => (ctx, false)
  | u :: rest, ctx =>
    let ctx1 := { ctx with
      events := ctx.events ++ [Event.on_message ("Updating " ++ u.bookmark.name
        ++ " base: " ++ u.current_base ++ " → " ++ u.expected_base)] }
    match platform.update_pr_base u.pr.number u.expected_base ctx1.state with
    | (.ok updated_pr, s2) =>
      updateLoop platform rest { ctx1 with
        state := s2,
        events := ctx1.events ++ [Event.on_pr_updated u.bookmark.name updated_pr],
        result := { ctx1.result with
          updated_prs := ctx1.result.updated_prs ++ [updated_pr] },
        bookmark_to_pr := mapInsert ctx1.bookmark_to_pr u.bookmark.name updated_pr }
    | (.error e, s2) =>
      let msg := "Failed to update PR base for " ++ u.bookmark.name ++ ": "
        ++ e.message
      ({ ctx1 with
        state := s2,
        events := ctx1.events ++ [Event.on_error (.Platform msg)],
        result := { ctx1.result with
          errors := ctx1.result.errors ++ [msg], success := false } }, true)

/-- The create phase of `execute_submission`. -/
def createLoop (platform : PlatformService σ) :
    List PrToCreate → ExecCtx σ → ExecCtx σ × Bool
  | [], ctx => (ctx, false)
  | p :: rest, ctx =>
    let ctx1 := { ctx with
      events := ctx.events ++ [Event.on_message ("Creating PR for "
        ++ p.bookmark.name ++ " (base: " ++ p.base_branch ++ ")")] }
    match platform.create_pr p.bookmark.name p.base_branch p.title ctx1.state with
    | (.ok pr, s2) =>
      createLoop platform rest { ctx1 with
        state := s2,
        events := ctx1.events ++ [Event.on_pr_created p.bookmark.name pr],
        result := { ctx1.result with
          created_prs := ctx1.result.created_prs ++ [pr] },
        bookmark_to_pr := mapInsert ctx1.bookmark_to_pr p.bookmark.name pr }
    | (.error e, s2) =>
      let msg := "Failed to create PR for " ++ p.bookmark.name ++ ": "
        ++ e.message
      ({ ctx1 with
        state := s2,
        events := ctx1.events ++ [Event.on_error (.Platform msg)],
        result := { ctx1.result with
          errors := ctx1.result.errors ++ [msg], success := false } }, true)

/-- The comment phase of `execute_submission`: iterate over the enumerated
stack items; a failure is recorded as a non-fatal error and the loop goes on. -/
def commentLoop (platform : PlatformService σ) (data : StackCommentData) :
    List (Nat × StackItem) → ExecCtx σ → ExecCtx σ
  | [], ctx => ctx
  | (idx, item) :: rest, ctx =>
    match create_or_update_stack_comment platform data idx item.pr_number
        ctx.state with
    | (.ok _, s2) => commentLoop platform data rest { ctx with state := s2 }
    | (.error e, s2) =>
      let msg := "Failed to update stack comment for " ++ item.bookmark_name
        ++ ": " ++ e.message
      commentLoop platform data rest { ctx with
        state := s2,
        events := ctx.events ++ [Event.on_error (.Platform msg)],
        result := { ctx.result with errors := ctx.result.errors ++ [msg] } }

/-- `report_dry_run` from `submit/execute.rs`, as the list of messages it
sends to the progress sink. -/
def report_dry_run (plan : SubmissionPlan) : List Event :=
  (if !plan.bookmarks_needing_push.isEmpty then
    [Event.on_message "Would push:"]
      ++ plan.bookmarks_needing_push.map (fun bm =>
        .on_message ("  - " ++ bm.name ++ " to " ++ plan.remote))
  else [])
  ++ (if !plan.prs_to_update_base.isEmpty then
    [Event.on_message "Would update PR bases:"]
      ++ plan.prs_to_update_base.map (fun u =>
        .on_message ("  - " ++ u.bookmark.name ++ " (PR #"
          ++ String.mk (natDecimal u.pr.number) ++ ") " ++ u.current_base
          ++ " → " ++ u.expected_base))
  else [])
  ++ (if !plan.prs_to_create.isEmpty then
    [Event.on_message "Would create PRs:"]
      ++ plan.prs_to_create.map (fun p =>
        .on_message ("  - " ++ p.bookmark.name ++ " → " ++ p.base_branch
          ++ " (" ++ p.title ++ ")"))
  else [])
  ++ (if plan.bookmarks_needing_push.isEmpty && plan.prs_to_update_base.isEmpty
        && plan.prs_to_create.isEmpty then
    [Event.on_message "Nothing to do - already in sync"]
  else [])

/-- `execute_submission` from `submit/execute.rs`.  The source declares a
`Result` return type but returns `Ok` on every path; the embedding therefore
returns the `SubmissionResult` directly, paired with the final remote state
and the emitted progress events. -/
def execute_submission (plan : SubmissionPlan) (ws : JjWorkspace)
    (platform : PlatformService σ) (dry_run : Bool) (s : σ) :
    SubmissionResult × σ × List Event :=
  let result0 : SubmissionResult :=
    { success := true, created_prs := [], updated_prs := [],
      pushed_bookmarks := [], errors := [] }
  if dry_run then
    (result0, s,
      Event.on_message "Dry run - no changes will be made" :: report_dry_run plan)
  else
    let ctx0 : ExecCtx σ :=
      { result := result0, bookmark_to_pr := plan.existing_prs, state := s,
        events := [Event.on_phase .Pushing] }
    match pushLoop ws plan.remote plan.bookmarks_needing_push ctx0 with
    | (ctx1, true) => (ctx1.result, ctx1.state, ctx1.events)
    | (ctx1, false) =>
      let ctx1b := { ctx1 with events := ctx1.events ++ [Event.on_phase .UpdatingPrs] }
      match updateLoop platform plan.prs_to_update_base ctx1b with
      | (ctx2, true) => (ctx2.result, ctx2.state, ctx2.events)
      | (ctx2, false) =>
        let ctx2b := { ctx2 with events := ctx2.events ++ [Event.on_phase .CreatingPrs] }
        match createLoop platform plan.prs_to_create ctx2b with
        | (ctx3, true) => (ctx3.result, ctx3.state, ctx3.events)
        | (ctx3, false) =>
          let ctx3b :=
            { ctx3 with events := ctx3.events ++ [Event.on_phase .AddingComments] }
          let ctx4 :=
            if ctx3b.bookmark_to_pr.isEmpty then ctx3b
            else
              let stack_data := build_stack_comment_data plan ctx3b.bookmark_to_pr
              commentLoop platform stack_data stack_data.stack.enum ctx3b
          let ctx5 := { ctx4 with events := ctx4.events ++ [Event.on_phase .Complete] }
          (ctx5.result, ctx5.state, ctx5.events)

/-! ## Spec-modelled decoder of the stack comment and spec-side helper
functions used only to state claims -/

/-- Parse a leading decimal number (part of the spec-modelled comment decoder). -/
def parseNatPre (l : List Char) : Option (Nat × List Char) :=
  let ds := l.takeWhile Char.isDigit
  if ds.isEmpty then none
  else some (parseDigits ds, l.drop ds.length)

/-- Parse a leading JSON string literal without escape sequences (part of the
spec-modelled comment decoder; the claims admit only payload strings that
`serde_json` serialises verbatim). -/
def parseStringPre (l : List Char) : Option (String × List Char) :=
  match l with
  | '"' :: rest =>
    let cs := rest.takeWhile (fun c => c != '"')
    match rest.drop cs.length with
    | '"' :: rest2 => some (String.mk cs, rest2)
    | _ => none
  | _ => none

/-- Parse one serialised `StackItem` (part of the spec-modelled comment decoder). -/
def parseItemPre (l : List Char) : Option (StackItem × List Char) :=
  match dropPre "\x7b\"bookmark_name\":".toList l with
  | none => none
  | some l1 =>
    match parseStringPre l1 with
    | none => none
    | some (name, l2) =>
      match dropPre ",\"pr_url\":".toList l2 with
      | none => none
      | some l3 =>
        match parseStringPre l3 with
        | none => none
        | some (url, l4) =>
          match dropPre ",\"pr_number\":".toList l4 with
          | none => none
          | some l5 =>
            match parseNatPre l5 with
            | none => none
            | some (num, l6) =>
              match dropPre "\x7d".toList l6 with
              | none => none
              | some l7 =>
                some ({ bookmark_name := name, pr_url := url, pr_number := num }, l7)

/-- Parse a comma-separated list of serialised `StackItem`s, stopping before
`]` (part of the spec-modelled comment decoder; fuel decreases every item). -/
def parseItemsPre : Nat → List Char → Option (List StackItem × List Char)
  | 0, _ => none
  | fuel + 1, l =>
    if l.head? = some ']' then some ([], l)
    else
      match parseItemPre l with
      | none => none
      | some (it, rest) =>
        if rest.head? = some ',' then
          match parseItemsPre fuel rest.tail with
          | some (its, rest3) => some (it :: its, rest3)
          | none => none
        else some ([it], rest)

/-- Parse a serialised `StackCommentData` (part of the spec-modelled comment
decoder). -/
def parseStackData (l : List Char) : Option StackCommentData :=
  match dropPre "\x7b\"version\":".toList l with
  | none => none
  | some l1 =>
    match parseNatPre l1 with
    | none => none
    | some (v, l2) =>
      match dropPre ",\"stack\":[".toList l2 with
      | none => none
      | some l3 =>
        match parseItemsPre l3.length l3 with
        | none => none
        | some (its, l4) =>
          match dropPre "]\x7d".toList l4 with
          | some [] => some { version := v, stack := its }
          | _ => none

/-- Modelled from the spec: the decoder of the stack navigation comment.  The
repository never decodes the payload it writes; §4.7 and (P7) describe the
comment as carrying a base64 JSON payload between the marker and ` --->` that
decodes back to the `StackCommentData`, which is exactly this function. -/
def decode_stack_comment (body : String) : Option StackCommentData :=
  match breakOnSub COMMENT_DATA_HEAD.toList body.toList with
  | none => none
  | some (_, after) =>
    match breakOnSub COMMENT_DATA_TAIL.toList after with
    | none => none
    | some (enc, _) =>
      match base64Decode enc with
      | none => none
      | some bytes =>
        match utf8Dec bytes with
        | none => none
        | some chars => parseStackData chars

/-- The public host of each platform (§4.3: `host` is preserved exactly when
it differs from this). -/
def publicHostOf : Platform → String
  | .GitHub => "github.com"
  | .GitLab => "gitlab.com"

/-- Spec-side description (§4.3): the last path segment "minus optional
trailing `.git`". -/
def specStripDotGit (seg : List Char) : List Char :=
  if ".git".toList.isSuffixOf seg then seg.take (seg.length - 4) else seg

/-- Spec-side description (§4.5/§4.6): the expected base of segment `i` is the
previous segment's bookmark name, or the default branch for the first segment. -/
def specExpectedBase (segments : List NarrowedBookmarkSegment)
    (default_branch : String) : Nat → String
  | 0 => default_branch
  | j + 1 =>
    match segments[j]? with
    | some s => s.bookmark.name
    | none => default_branch

/-- Spec-side description (§4.5): the PR title for a segment bookmark — the
first non-empty description among the segment's changes (newest first), or
the bookmark name (the total-function form of `generate_pr_title`). -/
def specTitleOf (segments : List NarrowedBookmarkSegment) (name : String) : String :=
  match segments.find? (fun s => s.bookmark.name == name) with
  | none => name
  | some seg =>
    match seg.changes.find? (fun c => !c.description_first_line.isEmpty) with
    | some c => c.description_first_line
    | none => name

/-- The value `findExistingPrs` computes when every `find_existing_pr` call
answers from a pure oracle `f` (used to state determinism of planning). -/
def pureExisting (f : String → Except Error (Option PullRequest)) :
    List Bookmark → List (String × PullRequest) →
      Except Error (List (String × PullRequest))
  | [], acc => .ok acc
  | b :: rest, acc =>
    match f b.name with
    | .error e => .error e
    | .ok none => pureExisting f rest acc
    | .ok (some pr) => pureExisting f rest (mapInsert acc b.name pr)

/-- The map `findExistingPrs` accumulates when the oracle never fails
(used to state the planner claims). -/
def pureExistingOk (f : String → Option PullRequest) :
    List Bookmark → List (String × PullRequest) → List (String × PullRequest)
  | [], acc => acc
  | b :: rest, acc =>
    match f b.name with
    | none => pureExistingOk f rest acc
    | some pr => pureExistingOk f rest (mapInsert acc b.name pr)

/-- A platform service over the trivial remote state whose `find_existing_pr`
answers from a fixed table (used by concrete witnesses). -/
def constPlatform (f : String → Except Error (Option PullRequest)) :
    PlatformService Unit :=
  { find_existing_pr := fun n s => (f n, s),
    create_pr := fun h b t s =>
      (.ok { number := 1, html_url := "u", base_ref := b, head_ref := h, title := t }, s),
    update_pr_base := fun _ b s =>
      (.ok { number := 1, html_url := "u", base_ref := b, head_ref := "h", title := "t" }, s),
    list_pr_comments := fun _ s => (.ok [], s),
    create_pr_comment := fun _ _ s => (.ok (), s),
    update_pr_comment := fun _ _ _ s => (.ok (), s) }

/-- Whether a push of this bookmark succeeds against this workspace oracle. -/
def pushOk (ws : JjWorkspace) (remote : String) (b : Bookmark) : Bool :=
  match ws.git_push b.name remote with
  | .ok _ => true
  | .error _ => false

/-- The push status the executor reports after attempting this bookmark. -/
def pushOutcome (ws : JjWorkspace) (remote : String) (b : Bookmark) : PushStatus :=
  match ws.git_push b.name remote with
  | .ok _ => .Success
  | .error e => .Failed ("Failed to push " ++ b.name ++ ": " ++ e.message)

/-- The bookmarks the push phase actually attempts: everything up to and
including the first failing push. -/
def pushProcessed (ws : JjWorkspace) (remote : String) (l : List Bookmark) :
    List Bookmark :=
  match l.findIdx? (fun b => !pushOk ws remote b) with
  | none => l
  | some i => l.take (i + 1)

/-- The push sub-trace of an event list. -/
def pushEventsOf (events : List Event) : List (String × PushStatus) :=
  events.filterMap fun e =>
    match e with
    | .on_bookmark_push n st => some (n, st)
    | _ => none

/-- All log entries any bookmark query of this workspace can return. -/
def entriesOf (ws : JjWorkspace) : List LogEntry :=
  (ws.local_bookmarks.map (fun b => ws.revset b.commit_id)).flatten

/-- Workspace coherence: entries sharing a local bookmark name describe the
same change (a bookmark points at one commit). -/
def WfShare (ws : JjWorkspace) : Prop :=
  ∀ e1 ∈ entriesOf ws, ∀ e2 ∈ entriesOf ws,
    (∃ n, n ∈ e1.local_bookmarks ∧ n ∈ e2.local_bookmarks) →
      e1.change_id = e2.change_id

/-- Workspace coherence: entries for the same change id list the same local
bookmarks. -/
def WfEq (ws : JjWorkspace) : Prop :=
  ∀ e1 ∈ entriesOf ws, ∀ e2 ∈ entriesOf ws,
    e1.change_id = e2.change_id → e1.local_bookmarks = e2.local_bookmarks

/-- Spec invariant on `LogEntry` (§3): within a traversal, change ids are
unique. -/
def WfNodupQuery (ws : JjWorkspace) : Prop :=
  ∀ b ∈ ws.local_bookmarks,
    ((ws.revset b.commit_id).map (fun e => e.change_id)).Nodup

/-- The query for a bookmark is non-empty and its newest entry carries the
bookmark itself (§6: the revset result "must include the bookmark commit"). -/
def SelfCarrying (ws : JjWorkspace) : Prop :=
  ∀ b ∈ ws.local_bookmarks,
    ∃ e rest, ws.revset b.commit_id = e :: rest ∧ b.name ∈ e.local_bookmarks




/-! ## Concrete executor fixtures used by the executor witness -/

/-- A concrete bookmark used by executor witnesses. -/
def wB (n : String) : Bookmark :=
  { name := n, commit_id := "c", change_id := "z", has_remote := true,
    is_synced := true }

/-- A concrete workspace whose push fails exactly on the bookmark `bad`. -/
def wsPushW : JjWorkspace :=
  { local_bookmarks := [], revset := fun _ => [],
    git_push := fun n _ =>
      if n = "bad" then .error (.VcsCommand "net") else .ok () }

/-- A concrete `Unit`-state platform whose base update fails on PR 7, whose
creation fails on head `cbad` and whose comment creation fails on PR 5. -/
def platW : PlatformService Unit :=
  { find_existing_pr := fun _ s => (.ok none, s),
    create_pr := fun h b _ s =>
      ((if h = "cbad" then .error (.Platform "cfail")
        else .ok { number := 3, html_url := "u3", base_ref := b, head_ref := h,
                   title := "t3" }), s),
    update_pr_base := fun n b s =>
      ((if n = 7 then .error (.Platform "ufail")
        else .ok { number := n, html_url := "u1", base_ref := b,
                   head_ref := "h", title := "t1" }), s),
    list_pr_comments := fun _ s => (.ok [], s),
    create_pr_comment := fun n _ s =>
      ((if n = 5 then .error (.Platform "comfail") else .ok ()), s),
    update_pr_comment := fun _ _ _ s => (.ok (), s) }

/-- The pure value of `platW.update_pr_base`. -/
def updW : Nat → String → Except Error PullRequest :=
  fun n b => if n = 7 then .error (.Platform "ufail")
    else .ok { number := n, html_url := "u1", base_ref := b, head_ref := "h",
               title := "t1" }

/-- The pure value of `platW.create_pr`. -/
def crtW : String → String → String → Except Error PullRequest :=
  fun h b _ => if h = "cbad" then .error (.Platform "cfail")
    else .ok { number := 3, html_url := "u3", base_ref := b, head_ref := h,
               title := "t3" }

/-- The pure value of the comment operation against `platW`. -/
def comW : Nat → Nat → Except Error Unit :=
  fun _ n => if n = 5 then .error (.Platform "comfail") else .ok ()

/-- The PR produced by a successful `platW` base update. -/
def guW : PrBaseUpdate → PullRequest :=
  fun u => { number := u.pr.number, html_url := "u1",
             base_ref := u.expected_base, head_ref := "h", title := "t1" }

/-- The PR produced by a successful `platW` creation. -/
def gcW : PrToCreate → PullRequest :=
  fun p => { number := 3, html_url := "u3", base_ref := p.base_branch,
             head_ref := p.bookmark.name, title := "t3" }

/-- Witness plan for the failing-push scenario. -/
def planWA : SubmissionPlan :=
  { segments := [], bookmarks_needing_push := [wB "a", wB "bad"],
    prs_to_create := [], prs_to_update_base := [], existing_prs := [],
    remote := "origin", default_branch := "main" }

/-- A base update that `platW` performs (PR 2). -/
def uGoodW : PrBaseUpdate :=
  { bookmark := wB "x", current_base := "m", expected_base := "main",
    pr := { number := 2, html_url := "u", base_ref := "m", head_ref := "x",
            title := "t" } }

/-- A base update that `platW` rejects (PR 7). -/
def uBadW : PrBaseUpdate :=
  { bookmark := wB "y", current_base := "m", expected_base := "main",
    pr := { number := 7, html_url := "u", base_ref := "m", head_ref := "y",
            title := "t" } }

/-- Witness plan for the failing-base-update scenario. -/
def planWB : SubmissionPlan :=
  { segments := [], bookmarks_needing_push := [], prs_to_create := [],
    prs_to_update_base := [uGoodW, uBadW], existing_prs := [],
    remote := "origin", default_branch := "main" }

/-- A creation that `platW` performs. -/
def cGoodW : PrToCreate :=
  { bookmark := wB "w", base_branch := "main", title := "T1" }

/-- A creation that `platW` rejects. -/
def cBadW : PrToCreate :=
  { bookmark := wB "cbad", base_branch := "main", title := "T2" }

/-- Witness plan for the failing-creation scenario. -/
def planWC : SubmissionPlan :=
  { segments := [], bookmarks_needing_push := [],
    prs_to_create := [cGoodW, cBadW], prs_to_update_base := [],
    existing_prs := [], remote := "origin", default_branch := "main" }

/-- The existing PR (number 5) of the comment-failure scenario. -/
def prDW : PullRequest :=
  { number := 5, html_url := "u5", base_ref := "main", head_ref := "d",
    title := "t5" }

/-- Witness plan for the comment-failure scenario: one segment whose bookmark
already has PR 5, whose comment operation `platW` rejects. -/
def planWD : SubmissionPlan :=
  { segments := [{ bookmark := wB "d", changes := [] }],
    bookmarks_needing_push := [], prs_to_create := [], prs_to_update_base := [],
    existing_prs := [("d", prDW)], remote := "origin",
    default_branch := "main" }


/-- Whether every character of `s` serialises verbatim in a JSON string
(no quote, no backslash, no control character). -/
def safeStr (s : String) : Bool :=
  s.toList.all (fun c => c != '"' && c != '\\' && decide (0x20 ≤ c.toNat))

/-- Concrete stack data used by the comment witness. -/
def dataW7 : StackCommentData :=
  { version := 0,
    stack := [{ bookmark_name := "a", pr_url := "u", pr_number := 1 },
              { bookmark_name := "b", pr_url := "v", pr_number := 2 }] }

/-! ## Graph-builder invariants and witness fixtures -/

/-- The head invariant of every segment the segmentation loop produces. -/
def SegHead (L : List LogEntry) (fully : List String) (s : RawSegment) : Prop :=
  ∃ c cs, s.changes = c :: cs ∧ s.bookmark_names = c.local_bookmarks
    ∧ c ∈ L ∧ c.local_bookmarks.isEmpty = false
    ∧ c.local_bookmarks.any fully.contains = false

/-- A log entry used by builder witnesses. -/
def eW (id : String) (parents bms : List String) : LogEntry :=
  { commit_id := id, change_id := id, description_first_line := "",
    parents := parents, local_bookmarks := bms }

/-- The workspace of the merge-taint witness: one bookmark `m` whose query
ends in a merge change. -/
def wsC2 : JjWorkspace :=
  { local_bookmarks := [{ name := "m", commit_id := "c0",
                          change_id := "c0", has_remote := true,
                          is_synced := true }],
    revset := fun s => if s = "c0" then [eW "c0" ["p"] ["m"], eW "c1" ["a", "b"] []]
      else [],
    git_push := fun _ _ => .ok () }

/-- The bookmark of the merge-taint witness. -/
def bmC2 : Bookmark :=
  { name := "m", commit_id := "c0", change_id := "c0", has_remote := true,
    is_synced := true }

/-- The workspace of the C1 counterexample: one bookmark whose
`trunk()..commit` query is empty. -/
def wsC1 : JjWorkspace :=
  { local_bookmarks := [{ name := "e", commit_id := "c0",
                          change_id := "c0", has_remote := true,
                          is_synced := true }],
    revset := fun _ => [], git_push := fun _ _ => .ok () }

/-- The change id of a raw segment's head change (empty segments, which the
builder never stores, give the empty id). -/
def segHeadId (s : RawSegment) : String :=
  (s.changes.head?.map (fun c => c.change_id)).getD ""

/-- Order certificate for an adjacency list: a duplicate-free list of change
ids in which every edge points to a strictly earlier element. -/
def OrderCert (adj : List (String × String)) (order : List String) : Prop :=
  order.Nodup ∧ ∀ p ∈ adj, p.1 ∈ order ∧ p.2 ∈ order
    ∧ order.indexOf p.2 < order.indexOf p.1

/-- Invariant of `build_change_graph`'s main loop tying the adjacency list to
a topological order of stored segment heads: the order certifies the edges,
every fully-collected bookmark has a carrier entry whose change id is in the
order, and every order element is the change id of an entry with a
fully-collected bookmark. -/
def OrderInv (ws : JjWorkspace) (st : BuildState) (order : List String) :
    Prop :=
  OrderCert st.bookmarked_change_adjacency_list order
  ∧ (∀ n, st.fully_collected_bookmarks.contains n = true →
      ∃ x ∈ order, ∃ e ∈ entriesOf ws, e.change_id = x ∧ n ∈ e.local_bookmarks)
  ∧ (∀ x ∈ order, ∃ e ∈ entriesOf ws, e.change_id = x
      ∧ ∃ n ∈ e.local_bookmarks,
          st.fully_collected_bookmarks.contains n = true)
  ∧ (∀ x ∈ order,
      (mapFind st.bookmarked_change_id_to_segment x).isSome = true)
  ∧ (st.bookmarked_change_adjacency_list.map (fun p => p.1)).Nodup

/-! ## Auxiliary lemmas and claim C8 -/

theorem mk_toList (s : String) : String.mk s.toList = s := by cases s; rfl

theorem toList_append (a b : String) : (a ++ b).toList = a.toList ++ b.toList := by
  simp [String.toList]

theorem isPrefixOf_append_self (pat l : List Char) : pat.isPrefixOf (pat ++ l) = true := by
  induction pat with
  | nil => simp [List.isPrefixOf]
  | cons a as ih => simp [List.isPrefixOf, ih]

theorem dropPre_append (pat l : List Char) : dropPre pat (pat ++ l) = some l := by
  simp [dropPre, isPrefixOf_append_self, List.drop_left]

theorem takeWhile_append_stop (p : Char → Bool) (l : List Char) (r0 : Char) (rs : List Char)
    (hl : ∀ c ∈ l, p c = true) (hr : p r0 = false) :
    (l ++ r0 :: rs).takeWhile p = l := by
  induction l with
  | nil => simp [List.takeWhile_cons, hr]
  | cons a l ih =>
    simp only [List.cons_append, List.takeWhile_cons, hl a (by simp)]
    simp [ih fun c hc => hl c (List.mem_cons_of_mem _ hc)]

theorem breakOnSub_first (p0 : Char) (ps xs ys : List Char)
    (hxs : ∀ c ∈ xs, c ≠ p0) :
    breakOnSub (p0 :: ps) (xs ++ (p0 :: ps) ++ ys) = some (xs, ys) := by
  induction xs with
  | nil =>
    simp only [List.nil_append, List.append_assoc, List.cons_append]
    rw [breakOnSub]
    have hpre : (p0 :: ps).isPrefixOf (p0 :: (ps ++ ys)) = true := by
      have h := isPrefixOf_append_self (p0 :: ps) ys
      simp only [List.cons_append] at h
      exact h
    simp only [hpre, if_true]
    have hdrop := List.drop_left (p0 :: ps) ys
    simp only [List.cons_append] at hdrop
    simp [hdrop]
  | cons x xs ih =>
    have hx : x ≠ p0 := hxs x (by simp)
    have hrec := ih fun c hc => hxs c (List.mem_cons_of_mem _ hc)
    simp only [List.cons_append]
    rw [breakOnSub]
    have hpre : (p0 :: ps).isPrefixOf (x :: (xs ++ (p0 :: ps) ++ ys)) = false := by
      simp [List.isPrefixOf]
      intro h
      exact absurd h.symm hx
    simp only [List.cons_append] at hpre
    simp only [hpre, Bool.false_eq_true, if_false]
    simp only [List.cons_append] at hrec
    rw [hrec]

theorem afterLastChar_no (ch : Char) : ∀ (l acc : List Char), ch ∉ l →
    List.foldl (fun acc c => if c == ch then [] else acc ++ [c]) acc l = acc ++ l
  | [], acc, _ => by simp
  | x :: l, acc, hx => by
    have hxx : (x == ch) = false :=
      beq_eq_false_iff_ne.mpr (fun e => hx (by simp [e]))
    simp only [List.foldl_cons, hxx, Bool.false_eq_true, if_false]
    rw [afterLastChar_no ch l (acc ++ [x]) (fun m => hx (List.mem_cons_of_mem _ m))]
    simp

theorem sshMatchAt_eq (host path : List Char) (hh : host ≠ [])
    (hc : ∀ c ∈ host, c ≠ ':') :
    sshMatchAt ("git@".toList ++ host ++ ':' :: path) = captureLazyGit path := by
  have h1 : dropPre "git@".toList ("git@".toList ++ host ++ ':' :: path)
      = some (host ++ ':' :: path) := by
    rw [List.append_assoc]; exact dropPre_append _ _
  have ht : List.takeWhile (fun c => decide (c ≠ ':')) (host ++ ':' :: path) = host :=
    takeWhile_append_stop _ _ _ _ (fun c hc2 => by simp [hc c hc2]) (by simp)
  have hd : (host ++ ':' :: path).drop host.length = ':' :: path :=
    List.drop_left host (':' :: path)
  rw [sshMatchAt, h1]
  simp only [ht, hd, List.isEmpty_eq_true]
  rw [if_neg hh]

theorem sshFind_at_head (c : Char) (cs : List Char) (cap : List Char)
    (h : sshMatchAt (c :: cs) = some cap) : sshFind (c :: cs) = some cap := by
  simp [sshFind, h]

theorem sshMatchAt_none_of_not_pre (l : List Char)
    (h : "git@".toList.isPrefixOf l = false) : sshMatchAt l = none := by
  have hd : dropPre "git@".toList l = none := by rw [dropPre, h]; rfl
  rw [sshMatchAt, hd]

theorem sshFind_none (l : List Char) (h : listInfix "git@".toList l = false) :
    sshFind l = none := by
  induction l with
  | nil => rfl
  | cons c cs ih =>
    rw [listInfix] at h
    simp only [Bool.or_eq_false_iff] at h
    rw [sshFind, sshMatchAt_none_of_not_pre _ h.1]
    exact ih h.2

theorem httpsMatchAt_eq_https (host path : List Char) (hh : host ≠ [])
    (hc : ∀ c ∈ host, c ≠ '/') :
    httpsMatchAt ("https://".toList ++ host ++ '/' :: path) = captureLazyGit path := by
  have hsplit : "https://".toList ++ host ++ '/' :: path
      = "http".toList ++ ("s://".toList ++ (host ++ '/' :: path)) := by
    simp
  rw [hsplit]
  have h1 : dropPre "http".toList ("http".toList ++ ("s://".toList ++ (host ++ '/' :: path)))
      = some ("s://".toList ++ (host ++ '/' :: path)) := dropPre_append _ _
  have h2 : dropPre "s://".toList ("s://".toList ++ (host ++ '/' :: path))
      = some (host ++ '/' :: path) := dropPre_append _ _
  have ht : List.takeWhile (fun c => decide (c ≠ '/')) (host ++ '/' :: path) = host :=
    takeWhile_append_stop _ _ _ _ (fun c hc2 => by simp [hc c hc2]) (by simp)
  have hd : (host ++ '/' :: path).drop host.length = '/' :: path :=
    List.drop_left host ('/' :: path)
  rw [httpsMatchAt, h1]
  simp only [h2, ht, hd, List.isEmpty_eq_true]
  rw [if_neg hh]

theorem httpsMatchAt_eq_http (host path : List Char) (hh : host ≠ [])
    (hc : ∀ c ∈ host, c ≠ '/') :
    httpsMatchAt ("http://".toList ++ host ++ '/' :: path) = captureLazyGit path := by
  have hsplit : "http://".toList ++ host ++ '/' :: path
      = "http".toList ++ ("://".toList ++ (host ++ '/' :: path)) := by
    simp
  rw [hsplit]
  have h1 : dropPre "http".toList ("http".toList ++ ("://".toList ++ (host ++ '/' :: path)))
      = some ("://".toList ++ (host ++ '/' :: path)) := dropPre_append _ _
  have hp : ("s://".toList).isPrefixOf ("://".toList ++ (host ++ '/' :: path)) = false := rfl
  have h2 : dropPre "s://".toList ("://".toList ++ (host ++ '/' :: path)) = none := by
    rw [dropPre, hp]; rfl
  have h3 : dropPre "://".toList ("://".toList ++ (host ++ '/' :: path))
      = some (host ++ '/' :: path) := dropPre_append _ _
  have ht : List.takeWhile (fun c => decide (c ≠ '/')) (host ++ '/' :: path) = host :=
    takeWhile_append_stop _ _ _ _ (fun c hc2 => by simp [hc c hc2]) (by simp)
  have hd : (host ++ '/' :: path).drop host.length = '/' :: path :=
    List.drop_left host ('/' :: path)
  rw [httpsMatchAt, h1]
  simp only [h2, h3, ht, hd, List.isEmpty_eq_true]
  rw [if_neg hh]

theorem httpsFind_at_head (c : Char) (cs : List Char) (cap : List Char)
    (h : httpsMatchAt (c :: cs) = some cap) : httpsFind (c :: cs) = some cap := by
  simp [httpsFind, h]

theorem suffix_sep_iff (pat l r : List Char) (hp : '/' ∉ pat) :
    pat <:+ (l ++ '/' :: r) ↔ pat <:+ r := by
  induction l with
  | nil =>
    rw [List.nil_append, List.suffix_cons_iff]
    constructor
    · rintro (h | h)
      · exact absurd (h ▸ List.mem_cons_self '/' r) hp
      · exact h
    · exact Or.inr
  | cons x l ih =>
    rw [List.cons_append, List.suffix_cons_iff]
    constructor
    · rintro (h | h)
      · exact absurd (h ▸ (by simp : '/' ∈ x :: (l ++ '/' :: r))) hp
      · exact ih.mp h
    · intro h
      exact Or.inr (ih.mpr h)

theorem joinChar_concat (sep : Char) : ∀ (xs : List (List Char)) (y : List Char),
    xs ≠ [] → joinChar sep (xs ++ [y]) = joinChar sep xs ++ sep :: y
  | [], _, h => absurd rfl h
  | [x], y, _ => by simp [joinChar]
  | x :: x2 :: t, y, _ => by
    have h := joinChar_concat sep (x2 :: t) y (by simp)
    simp only [List.cons_append] at h ⊢
    rw [joinChar, h]
    rw [show joinChar sep (x :: x2 :: t) = x ++ sep :: joinChar sep (x2 :: t) from rfl]
    simp

theorem splitChar_ne_nil (sep : Char) : ∀ l : List Char, splitChar sep l ≠ []
  | [] => by simp [splitChar]
  | c :: cs => by
    have := splitChar_ne_nil sep cs
    rw [splitChar]
    rcases h : splitChar sep cs with _ | ⟨x, t⟩
    · exact absurd h this
    · by_cases hc : c == sep <;> simp [hc]

theorem splitChar_no_sep (sep : Char) : ∀ l : List Char, sep ∉ l →
    splitChar sep l = [l]
  | [], _ => rfl
  | c :: cs, h => by
    have hcs := splitChar_no_sep sep cs (fun m => h (List.mem_cons_of_mem _ m))
    have hc : (c == sep) = false :=
      beq_eq_false_iff_ne.mpr (fun e => h (by simp [e]))
    rw [splitChar, hcs]
    simp [hc]

theorem splitChar_sep_cons (sep : Char) : ∀ (x rest : List Char), sep ∉ x →
    splitChar sep (x ++ sep :: rest) = x :: splitChar sep rest
  | [], rest, _ => by
    rw [List.nil_append, splitChar]
    simp
  | a :: x, rest, h => by
    have hx := splitChar_sep_cons sep x rest (fun m => h (List.mem_cons_of_mem _ m))
    have ha : (a == sep) = false :=
      beq_eq_false_iff_ne.mpr (fun e => h (by simp [e]))
    rw [List.cons_append, splitChar, hx]
    simp [ha]

theorem splitChar_joinChar (sep : Char) : ∀ segs : List (List Char), segs ≠ [] →
    (∀ s ∈ segs, sep ∉ s) → splitChar sep (joinChar sep segs) = segs
  | [], h, _ => absurd rfl h
  | [x], _, hs => by
    rw [joinChar]
    exact splitChar_no_sep sep x (hs x (by simp))
  | x :: y :: t, _, hs => by
    have hrec := splitChar_joinChar sep (y :: t) (by simp)
      (fun s m => hs s (List.mem_cons_of_mem _ m))
    rw [joinChar, splitChar_sep_cons sep x _ (hs x (by simp)), hrec]

theorem capture_split (segs : List (List Char)) (h2 : 2 ≤ segs.length)
    (hsl : ∀ s ∈ segs, '/' ∉ s) :
    ∃ stripped, captureLazyGit (joinChar '/' segs) = some stripped ∧
      splitChar '/' stripped = segs.dropLast ++ [specStripDotGit (segs.getLastD [])] ∧
      (splitChar '/' stripped).length = segs.length := by
  have hne : segs ≠ [] := by intro h; rw [h] at h2; simp at h2
  obtain ⟨init, last, hseg⟩ : ∃ init last, segs = init ++ [last] :=
    ⟨segs.dropLast, segs.getLast hne, (List.dropLast_append_getLast hne).symm⟩
  subst hseg
  have hinit : init ≠ [] := by
    intro h
    rw [h] at h2
    simp at h2
  have hlast_no : '/' ∉ last := hsl last (by simp)
  have hinit_no : ∀ s ∈ init, '/' ∉ s := fun s m => hsl s (by simp [m])
  have hjoin : joinChar '/' (init ++ [last]) = joinChar '/' init ++ '/' :: last :=
    joinChar_concat '/' init last hinit
  have hgl : (init ++ [last]).getLastD [] = last := List.getLastD_concat _ _ _
  have hdl : (init ++ [last]).dropLast = init := List.dropLast_concat
  have hiff : ".git".toList <:+ (joinChar '/' init ++ '/' :: last)
      ↔ ".git".toList <:+ last := suffix_sep_iff _ _ _ (by decide)
  rw [hjoin, hgl, hdl]
  by_cases hca : ".git".toList <:+ last
  · -- the last segment ends in ".git": one copy is stripped
    have h4 : 4 ≤ last.length := by
      have := hca.length_le
      simpa using this
    have hsuf : (".git".toList.isSuffixOf (joinChar '/' init ++ '/' :: last)) = true :=
      List.isSuffixOf_iff_suffix.mpr (hiff.mpr hca)
    have hsufl : (".git".toList.isSuffixOf last) = true :=
      List.isSuffixOf_iff_suffix.mpr hca
    have hlen : (joinChar '/' init ++ '/' :: last).length
        = (joinChar '/' init).length + 1 + last.length := by
      simp [List.length_append]
      omega
    have hgt : ((joinChar '/' init ++ '/' :: last).length > 4) := by omega
    have hemp : ((joinChar '/' init ++ '/' :: last).isEmpty) = false := by
      rcases joinChar '/' init with _ | ⟨a, b⟩ <;> simp
    have hcond : (".git".toList.isSuffixOf (joinChar '/' init ++ '/' :: last)
        && decide ((joinChar '/' init ++ '/' :: last).length > 4)) = true := by
      rw [hsuf]
      simp only [Bool.true_and, decide_eq_true_eq]
      omega
    have hcap : captureLazyGit (joinChar '/' init ++ '/' :: last)
        = some ((joinChar '/' init ++ '/' :: last).take
            ((joinChar '/' init ++ '/' :: last).length - 4)) := by
      rw [captureLazyGit, if_neg (by simp [hemp]), if_pos hcond]
    have htake : (joinChar '/' init ++ '/' :: last).take
        ((joinChar '/' init ++ '/' :: last).length - 4)
        = joinChar '/' init ++ '/' :: last.take (last.length - 4) := by
      have hassoc : joinChar '/' init ++ '/' :: last
          = (joinChar '/' init ++ ['/']) ++ last := by simp
      rw [hassoc]
      have harith : ((joinChar '/' init ++ ['/']) ++ last).length - 4
          = (joinChar '/' init ++ ['/']).length + (last.length - 4) := by
        simp [List.length_append]
        omega
      rw [harith, List.take_append]
      simp
    refine ⟨joinChar '/' init ++ '/' :: last.take (last.length - 4), ?_, ?_, ?_⟩
    · rw [hcap, htake]
    · have hjc : joinChar '/' init ++ '/' :: last.take (last.length - 4)
          = joinChar '/' (init ++ [last.take (last.length - 4)]) :=
        (joinChar_concat '/' init _ hinit).symm
      rw [hjc, splitChar_joinChar '/' _ (by simp)
        (by
          intro s hs
          rcases List.mem_append.mp hs with h | h
          · exact hinit_no s h
          · simp at h
            subst h
            exact fun m => hlast_no (List.mem_of_mem_take m))]
      rw [specStripDotGit, if_pos hsufl]
    · have hjc : joinChar '/' init ++ '/' :: last.take (last.length - 4)
          = joinChar '/' (init ++ [last.take (last.length - 4)]) :=
        (joinChar_concat '/' init _ hinit).symm
      rw [hjc, splitChar_joinChar '/' _ (by simp)
        (by
          intro s hs
          rcases List.mem_append.mp hs with h | h
          · exact hinit_no s h
          · simp at h
            subst h
            exact fun m => hlast_no (List.mem_of_mem_take m))]
      simp
  · -- no ".git" suffix: the capture is the whole path
    have hsuf : (".git".toList.isSuffixOf (joinChar '/' init ++ '/' :: last)) = false := by
      rw [Bool.eq_false_iff]
      intro h
      exact hca (hiff.mp (List.isSuffixOf_iff_suffix.mp h))
    have hsufl : (".git".toList.isSuffixOf last) = false := by
      rw [Bool.eq_false_iff]
      intro h
      exact hca (List.isSuffixOf_iff_suffix.mp h)
    have hemp : ((joinChar '/' init ++ '/' :: last).isEmpty) = false := by
      rcases joinChar '/' init with _ | ⟨a, b⟩ <;> simp
    have hcond : (".git".toList.isSuffixOf (joinChar '/' init ++ '/' :: last)
        && decide ((joinChar '/' init ++ '/' :: last).length > 4)) = false := by
      rw [hsuf]
      simp
    have hcap : captureLazyGit (joinChar '/' init ++ '/' :: last)
        = some (joinChar '/' init ++ '/' :: last) := by
      rw [captureLazyGit, if_neg (by simp [hemp]), if_neg (by rw [hcond]; simp)]
    refine ⟨joinChar '/' init ++ '/' :: last, hcap, ?_, ?_⟩
    · rw [← hjoin, splitChar_joinChar '/' _ (by simp) hsl]
      rw [specStripDotGit, if_neg (by rw [hsufl]; simp)]
    · rw [← hjoin, splitChar_joinChar '/' _ (by simp) hsl]

theorem parse_repo_info_found (gh gl : Option String) (url host : String)
    (platform : Platform) (segs : List (List Char)) (stripped : List Char)
    (hhost : extract_hostname url = some host)
    (hcls : classifyHost gh gl host = some platform)
    (hpath : (match sshFind url.toList with
              | some cap => some cap
              | none => httpsFind url.toList) = some stripped)
    (hsp : splitChar '/' stripped = segs.dropLast ++ [specStripDotGit (segs.getLastD [])])
    (hlen : (splitChar '/' stripped).length = segs.length)
    (h2 : 2 ≤ segs.length) :
    parse_repo_info gh gl url =
      .ok { platform := platform,
            owner := String.mk (joinChar '/' segs.dropLast),
            repo := String.mk (specStripDotGit (segs.getLastD [])),
            host := if host = publicHostOf platform then none else some host } := by
  have hdet : detect_platform gh gl url = some platform := by
    rw [detect_platform, hhost]
    exact hcls
  rw [parse_repo_info, hdet]
  simp only [hpath, hhost]
  rw [if_neg (by omega)]
  have hgl2 : (splitChar '/' stripped).getLastD [] = specStripDotGit (segs.getLastD []) := by
    rw [hsp]; exact List.getLastD_concat _ _ _
  have hdl2 : (splitChar '/' stripped).dropLast = segs.dropLast := by
    rw [hsp]; exact List.dropLast_concat
  rw [hgl2, hdl2]
  rcases platform with _ | _
  · by_cases he : host = "github.com" <;> simp [he, publicHostOf]
  · by_cases he : host = "gitlab.com" <;> simp [he, publicHostOf]

theorem C8aux_ssh (gh gl : Option String) (host : String) (segs : List (List Char))
    (platform : Platform)
    (hh : host.toList ≠ []) (hc : ∀ c ∈ host.toList, c ≠ ':')
    (hcls : classifyHost gh gl host = some platform)
    (h2 : 2 ≤ segs.length) (hsl : ∀ s ∈ segs, '/' ∉ s) :
    parse_repo_info gh gl ("git@" ++ host ++ ":" ++ String.mk (joinChar '/' segs)) =
      .ok { platform := platform,
            owner := String.mk (joinChar '/' segs.dropLast),
            repo := String.mk (specStripDotGit (segs.getLastD [])),
            host := if host = publicHostOf platform then none else some host } := by
  set url := "git@" ++ host ++ ":" ++ String.mk (joinChar '/' segs) with hurl
  have htl : url.toList = "git@".toList ++ (host.toList ++ ':' :: joinChar '/' segs) := by
    rw [hurl]
    simp only [toList_append]
    simp [String.toList]
  have hpre : ("git@".toList).isPrefixOf url.toList = true := by
    rw [htl]; exact isPrefixOf_append_self _ _
  have hdrop : url.toList.drop 4 = host.toList ++ ':' :: joinChar '/' segs := by
    rw [htl]
    have h := List.drop_left "git@".toList (host.toList ++ ':' :: joinChar '/' segs)
    simp only [String.toList] at h ⊢
    exact h
  have htwb : List.takeWhile (fun c => c != ':')
      (host.toList ++ ':' :: joinChar '/' segs) = host.toList :=
    takeWhile_append_stop _ _ _ _ (fun c hc2 => by simp [hc c hc2]) (by simp)
  have hhost : extract_hostname url = some host := by
    rw [extract_hostname, if_pos hpre, hdrop]
    rw [htwb, mk_toList]
  obtain ⟨stripped, hcap, hsp, hlen⟩ := capture_split segs h2 hsl
  have hmatch : sshMatchAt url.toList = some stripped := by
    rw [htl]
    have h := sshMatchAt_eq host.toList (joinChar '/' segs) hh hc
    rw [List.append_assoc] at h
    rw [h, hcap]
  have hfind : sshFind url.toList = some stripped := by
    rcases e : url.toList with _ | ⟨c, cs⟩
    · rw [e] at htl; simp at htl
    · rw [e] at hmatch
      exact sshFind_at_head c cs stripped hmatch
  exact parse_repo_info_found gh gl url host platform segs stripped hhost hcls
    (by rw [hfind]) hsp hlen h2

theorem C8aux_https (gh gl : Option String) (tls : Bool) (host : String)
    (segs : List (List Char)) (platform : Platform)
    (hh : host.toList ≠ [])
    (hc : ∀ c ∈ host.toList, c ≠ '/' ∧ c ≠ ':' ∧ c ≠ '@')
    (hcls : classifyHost gh gl host = some platform)
    (h2 : 2 ≤ segs.length) (hsl : ∀ s ∈ segs, '/' ∉ s)
    (hng : listInfix "git@".toList
      ((cond tls "https://" "http://") ++ host ++ "/" ++ String.mk (joinChar '/' segs)).toList = false) :
    parse_repo_info gh gl
      ((cond tls "https://" "http://") ++ host ++ "/" ++ String.mk (joinChar '/' segs)) =
      .ok { platform := platform,
            owner := String.mk (joinChar '/' segs.dropLast),
            repo := String.mk (specStripDotGit (segs.getLastD [])),
            host := if host = publicHostOf platform then none else some host } := by
  set url := (cond tls "https://" "http://") ++ host ++ "/" ++ String.mk (joinChar '/' segs)
    with hurl
  have htl : url.toList = (cond tls "http" "http").toList
      ++ ((cond tls "s://" "://").toList ++ (host.toList ++ '/' :: joinChar '/' segs)) := by
    rw [hurl]
    cases tls <;>
      · simp only [toList_append, cond]
        simp [String.toList]
  have htl2 : url.toList = (cond tls "https://" "http://").toList
      ++ (host.toList ++ '/' :: joinChar '/' segs) := by
    rw [hurl]
    cases tls <;>
      · simp only [toList_append, cond]
        simp [String.toList]
  -- hostname via the url-crate model
  have hbreak : breakOnSub "://".toList url.toList
      = some ((cond tls "https" "http").toList, host.toList ++ '/' :: joinChar '/' segs) := by
    have hb := breakOnSub_first ':' "//".toList (cond tls "https" "http").toList
      (host.toList ++ '/' :: joinChar '/' segs)
      (by cases tls <;> · intro c hc2; fin_cases hc2 <;> decide)
    have : (cond tls "https" "http").toList ++ ':' :: "//".toList
        ++ (host.toList ++ '/' :: joinChar '/' segs) = url.toList := by
      rw [htl2]
      cases tls <;> simp [String.toList]
    rw [← this]
    have e : (':' :: "//".toList) = "://".toList := by decide
    rw [← e]
    exact hb
  have hnopre : ("git@".toList.isPrefixOf url.toList) = false := by
    rcases e : url.toList with _ | ⟨c, cs⟩
    · rfl
    · rw [e] at hng
      rw [listInfix] at hng
      simp only [Bool.or_eq_false_iff] at hng
      exact hng.1
  have hauth : (host.toList ++ '/' :: joinChar '/' segs).takeWhile (fun c => c != '/')
      = host.toList :=
    takeWhile_append_stop _ _ _ _ (fun c hc2 => by simp [(hc c hc2).1]) (by simp)
  have hat : afterLastChar '@' host.toList = host.toList :=
    afterLastChar_no '@' host.toList [] (fun m => (hc _ m).2.2 rfl)
  have htw2 : host.toList.takeWhile (fun c => c != ':') = host.toList :=
    List.takeWhile_eq_self_iff.mpr (fun c hc2 => by simp [(hc c hc2).2.1])
  have hhost : extract_hostname url = some host := by
    rw [extract_hostname,
      if_neg (by intro hcon; rw [hnopre] at hcon; exact Bool.false_ne_true hcon)]
    rw [urlCrateHost, hbreak]
    simp only [hauth, hat, htw2]
    rw [if_neg (by intro hcon; rw [List.isEmpty_eq_true] at hcon; exact hh hcon),
      mk_toList]
  obtain ⟨stripped, hcap, hsp, hlen⟩ := capture_split segs h2 hsl
  have hmatch : httpsMatchAt url.toList = some stripped := by
    cases tls
    · rw [htl2]
      have h := httpsMatchAt_eq_http host.toList (joinChar '/' segs) hh
        (fun c hc2 => (hc c hc2).1)
      rw [List.append_assoc] at h
      simp only [cond]
      rw [h, hcap]
    · rw [htl2]
      have h := httpsMatchAt_eq_https host.toList (joinChar '/' segs) hh
        (fun c hc2 => (hc c hc2).1)
      rw [List.append_assoc] at h
      simp only [cond]
      rw [h, hcap]
  have hsshn : sshFind url.toList = none := sshFind_none _ hng
  have hfind : httpsFind url.toList = some stripped := by
    rcases e : url.toList with _ | ⟨c, cs⟩
    · rw [htl2] at e
      cases tls <;> simp [String.toList] at e
    · rw [e] at hmatch
      exact httpsFind_at_head c cs stripped hmatch
  exact parse_repo_info_found gh gl url host platform segs stripped hhost hcls
    (by rw [hsshn, hfind]) hsp hlen h2

theorem parse_no_hostname (gh gl : Option String) (url : String)
    (h : extract_hostname url = none) :
    parse_repo_info gh gl url = .error .NoSupportedRemotes := by
  rw [parse_repo_info, detect_platform, h]

theorem parse_unclassified (gh gl : Option String) (url : String) (host : String)
    (h : extract_hostname url = some host)
    (hc : classifyHost gh gl host = none) :
    parse_repo_info gh gl url = .error .NoSupportedRemotes := by
  rw [parse_repo_info, detect_platform, h]
  simp only [hc]

theorem parse_regex_fail (gh gl : Option String) (url : String) (host : String)
    (platform : Platform)
    (h : extract_hostname url = some host)
    (hc : classifyHost gh gl host = some platform)
    (hs : sshFind url.toList = none) (hw : httpsFind url.toList = none) :
    parse_repo_info gh gl url = .error (.Parse ("cannot parse remote URL: " ++ url)) := by
  have hdet : detect_platform gh gl url = some platform := by
    rw [detect_platform, h]; exact hc
  rw [parse_repo_info, hdet]
  simp only [hs, hw]

theorem parse_short_path (gh gl : Option String) (url : String) (host : String)
    (platform : Platform) (pathChars : List Char)
    (h : extract_hostname url = some host)
    (hc : classifyHost gh gl host = some platform)
    (hp : (match sshFind url.toList with
           | some cap => some cap
           | none => httpsFind url.toList) = some pathChars)
    (hlt : (splitChar '/' pathChars).length < 2) :
    parse_repo_info gh gl url = .error (.Parse ("invalid repo path: " ++ String.mk pathChars)) := by
  have hdet : detect_platform gh gl url = some platform := by
    rw [detect_platform, h]; exact hc
  rw [parse_repo_info, hdet]
  simp only [hp]
  rw [if_pos hlt]

/-- C8 (as frozen) is refuted at the concrete input `"garbage"`: an
unparseable URL yields `NoSupportedRemotes`, not a `Parse` error. -/
theorem C8_counterexample :
    parse_repo_info none none "garbage" = .error .NoSupportedRemotes ∧
    ∀ msg, parse_repo_info none none "garbage" ≠ .error (.Parse msg) := by
  constructor
  · rfl
  · intro msg h
    rw [show parse_repo_info none none "garbage" = .error .NoSupportedRemotes from rfl] at h
    injection h with h2
    cases h2

/-- C8 amended: on the two accepted URL shapes, `parse_repo_info` splits the
path into owner (all leading segments joined by `/`) and repo (the last
segment minus one optional trailing `.git`), keeping `host` exactly when the
hostname is not the public host; a classifiable URL that the SSH/HTTPS
regexes cannot parse, or whose path has fewer than two segments, yields a
`Parse` error; a URL whose hostname is missing or classifiable as neither
platform yields `NoSupportedRemotes` (not a `Parse` error). -/
theorem C8_remote_url_classification :
    (∀ (gh gl : Option String) (host : String) (segs : List (List Char))
        (platform : Platform),
      host.toList ≠ [] → (∀ c ∈ host.toList, c ≠ ':') →
      classifyHost gh gl host = some platform →
      2 ≤ segs.length → (∀ s ∈ segs, '/' ∉ s) →
      parse_repo_info gh gl ("git@" ++ host ++ ":" ++ String.mk (joinChar '/' segs)) =
        .ok { platform := platform,
              owner := String.mk (joinChar '/' segs.dropLast),
              repo := String.mk (specStripDotGit (segs.getLastD [])),
              host := if host = publicHostOf platform then none else some host })
    ∧ (∀ (gh gl : Option String) (tls : Bool) (host : String)
        (segs : List (List Char)) (platform : Platform),
      host.toList ≠ [] → (∀ c ∈ host.toList, c ≠ '/' ∧ c ≠ ':' ∧ c ≠ '@') →
      classifyHost gh gl host = some platform →
      2 ≤ segs.length → (∀ s ∈ segs, '/' ∉ s) →
      listInfix "git@".toList
        ((cond tls "https://" "http://") ++ host ++ "/"
          ++ String.mk (joinChar '/' segs)).toList = false →
      parse_repo_info gh gl
        ((cond tls "https://" "http://") ++ host ++ "/" ++ String.mk (joinChar '/' segs)) =
        .ok { platform := platform,
              owner := String.mk (joinChar '/' segs.dropLast),
              repo := String.mk (specStripDotGit (segs.getLastD [])),
              host := if host = publicHostOf platform then none else some host })
    ∧ (∀ (gh gl : Option String) (url : String),
      extract_hostname url = none →
      parse_repo_info gh gl url = .error .NoSupportedRemotes)
    ∧ (∀ (gh gl : Option String) (url host : String),
      extract_hostname url = some host →
      classifyHost gh gl host = none →
      parse_repo_info gh gl url = .error .NoSupportedRemotes)
    ∧ (∀ (gh gl : Option String) (url host : String) (platform : Platform),
      extract_hostname url = some host →
      classifyHost gh gl host = some platform →
      sshFind url.toList = none → httpsFind url.toList = none →
      parse_repo_info gh gl url = .error (.Parse ("cannot parse remote URL: " ++ url)))
    ∧ (∀ (gh gl : Option String) (url host : String) (platform : Platform)
        (pathChars : List Char),
      extract_hostname url = some host →
      classifyHost gh gl host = some platform →
      (match sshFind url.toList with
       | some cap => some cap
       | none => httpsFind url.toList) = some pathChars →
      (splitChar '/' pathChars).length < 2 →
      parse_repo_info gh gl url = .error (.Parse ("invalid repo path: " ++ String.mk pathChars))) := by
  refine ⟨?_, ?_, ?_, ?_, ?_, ?_⟩
  · intro gh gl host segs platform hh hc hcls h2 hsl
    exact C8aux_ssh gh gl host segs platform hh hc hcls h2 hsl
  · intro gh gl tls host segs platform hh hc hcls h2 hsl hng
    exact C8aux_https gh gl tls host segs platform hh hc hcls h2 hsl hng
  · intro gh gl url h
    exact parse_no_hostname gh gl url h
  · intro gh gl url host h hc
    exact parse_unclassified gh gl url host h hc
  · intro gh gl url host platform h hc hs hw
    exact parse_regex_fail gh gl url host platform h hc hs hw
  · intro gh gl url host platform pathChars h hc hp hlt
    exact parse_short_path gh gl url host platform pathChars h hc hp hlt

/-- Witness for C8: the amended theorem applied at concrete URLs. -/
theorem C8_witness :
    parse_repo_info none none
        ("git@" ++ "github.com" ++ ":" ++ String.mk (joinChar '/' [['o'], ['r', '.', 'g', 'i', 't']])) =
      .ok { platform := .GitHub, owner := "o", repo := "r", host := none } ∧
    parse_repo_info none none
        ((cond true "https://" "http://") ++ "gitlab.com" ++ "/"
          ++ String.mk (joinChar '/' [['g'], ['s'], ['p']])) =
      .ok { platform := .GitLab, owner := "g/s", repo := "p", host := none } ∧
    parse_repo_info none none "ftp://github.com/a/b" =
      .error (.Parse ("cannot parse remote URL: " ++ "ftp://github.com/a/b")) := by
  refine ⟨?_, ?_, ?_⟩
  · have h := C8_remote_url_classification.1 none none "github.com"
      [['o'], ['r', '.', 'g', 'i', 't']] .GitHub (by decide) (by decide) (by decide)
      (by decide) (by decide)
    exact h
  · have h := C8_remote_url_classification.2.1 none none true "gitlab.com"
      [['g'], ['s'], ['p']] .GitLab (by decide) (by decide) (by decide) (by decide)
      (by decide) (by decide)
    exact h
  · have h := C8_remote_url_classification.2.2.2.2.1 none none "ftp://github.com/a/b"
      "github.com" .GitHub (by rfl) (by rfl) (by rfl) (by rfl)
    exact h



/-! ## Planner lemmas and claims C4, C5, C10 -/

theorem mapFind_nil {α : Type} (k : String) : mapFind ([] : List (String × α)) k = none := rfl

theorem mapFind_replace_ne {α : Type} (m : List (String × α)) (k k' : String) (v : α)
    (h : k' ≠ k) :
    mapFind (m.map (fun p => if p.1 == k then (k, v) else p)) k' = mapFind m k' := by
  have hkk : (k == k') = false := beq_eq_false_iff_ne.mpr (Ne.symm h)
  induction m with
  | nil => rfl
  | cons p t ih =>
    rw [List.map_cons]
    by_cases hp : p.1 = k
    · rw [if_pos (beq_iff_eq.mpr hp)]
      rw [mapFind, List.find?_cons_of_neg _ (by simpa using Ne.symm h),
        mapFind, List.find?_cons_of_neg _ (by rw [hp]; simpa using Ne.symm h)]
      exact ih
    · rw [if_neg (by simpa using hp)]
      by_cases hq : p.1 = k'
      · rw [mapFind, List.find?_cons_of_pos _ (by simpa using hq),
          mapFind, List.find?_cons_of_pos _ (by simpa using hq)]
      · rw [mapFind, List.find?_cons_of_neg _ (by simpa using hq),
          mapFind, List.find?_cons_of_neg _ (by simpa using hq)]
        exact ih

theorem mapFind_replace_self {α : Type} (m : List (String × α)) (k : String) (v : α)
    (h : m.any (fun p => p.1 == k) = true) :
    mapFind (m.map (fun p => if p.1 == k then (k, v) else p)) k = some v := by
  induction m with
  | nil => simp at h
  | cons p t ih =>
    rw [List.map_cons]
    by_cases hp : p.1 = k
    · rw [if_pos (beq_iff_eq.mpr hp)]
      rw [mapFind, List.find?_cons_of_pos _ (by simp)]
    · rw [if_neg (by simpa using hp)]
      rw [List.any_cons] at h
      simp only [beq_eq_false_iff_ne.mpr hp, Bool.false_or] at h
      rw [mapFind, List.find?_cons_of_neg _ (by simpa using hp)]
      exact ih h

theorem mapFind_no_key {α : Type} (m : List (String × α)) (k : String)
    (h : m.any (fun p => p.1 == k) = false) : mapFind m k = none := by
  rw [mapFind, List.find?_eq_none.mpr]
  intro p hp
  have := List.any_eq_false.mp h p hp
  simpa using this

theorem mapFind_insert_self {α : Type} (m : List (String × α)) (k : String) (v : α) :
    mapFind (mapInsert m k v) k = some v := by
  rw [mapInsert]
  by_cases h : m.any (fun p => p.1 == k) = true
  · rw [if_pos h]
    exact mapFind_replace_self m k v h
  · rw [if_neg h]
    have hn : m.find? (fun p => p.1 == k) = none := by
      have h2 := mapFind_no_key m k (by revert h; cases m.any (fun p => p.1 == k) <;> simp)
      rw [mapFind] at h2
      rcases e : m.find? (fun p => p.1 == k) with _ | p
      · exact e
      · rw [e] at h2; simp at h2
    rw [mapFind, List.find?_append, hn]
    rw [List.find?_cons_of_pos _ (by simp)]
    rfl

theorem mapFind_insert_ne {α : Type} (m : List (String × α)) (k k' : String) (v : α)
    (h : k' ≠ k) : mapFind (mapInsert m k v) k' = mapFind m k' := by
  rw [mapInsert]
  by_cases hany : m.any (fun p => p.1 == k) = true
  · rw [if_pos hany]
    exact mapFind_replace_ne m k k' v h
  · rw [if_neg hany]
    rw [mapFind, List.find?_append, mapFind]
    rcases e : m.find? (fun p => p.1 == k') with _ | p
    · rw [e, List.find?_cons_of_neg _ (by simpa using Ne.symm h)]
      rfl
    · rw [e]
      rfl

theorem findExistingPrs_pure {σ : Type} (platform : PlatformService σ)
    (f : String → Except Error (Option PullRequest)) :
    ∀ (l : List Bookmark), (∀ b ∈ l, ∀ s, platform.find_existing_pr b.name s = (f b.name, s)) →
    ∀ acc s, findExistingPrs platform l acc s = (pureExisting f l acc, s)
  | [], _, acc, s => rfl
  | b :: t, hf, acc, s => by
    rw [findExistingPrs, hf b (by simp) s, pureExisting]
    rcases e : f b.name with e' | o
    · rfl
    · rcases o with _ | pr
      · exact findExistingPrs_pure platform f t
          (fun b' hb' => hf b' (List.mem_cons_of_mem _ hb')) acc s
      · exact findExistingPrs_pure platform f t
          (fun b' hb' => hf b' (List.mem_cons_of_mem _ hb')) (mapInsert acc b.name pr) s

theorem pureExisting_eq_ok (f : String → Option PullRequest) :
    ∀ (l : List Bookmark) (acc : List (String × PullRequest)),
    pureExisting (fun n => .ok (f n)) l acc = .ok (pureExistingOk f l acc)
  | [], acc => rfl
  | b :: t, acc => by
    rw [pureExisting, pureExistingOk]
    rcases e : f b.name with _ | pr
    · exact pureExisting_eq_ok f t acc
    · exact pureExisting_eq_ok f t (mapInsert acc b.name pr)

theorem pureExistingOk_preserve (f : String → Option PullRequest) :
    ∀ (l : List Bookmark) (acc : List (String × PullRequest)) (name : String) (pr : PullRequest),
    mapFind acc name = some pr → f name = some pr →
    mapFind (pureExistingOk f l acc) name = some pr
  | [], _, _, _, hacc, _ => hacc
  | b :: t, acc, name, pr, hacc, hf => by
    rw [pureExistingOk]
    rcases e : f b.name with _ | pr2
    · exact pureExistingOk_preserve f t acc name pr hacc hf
    · refine pureExistingOk_preserve f t _ name pr ?_ hf
      by_cases hn : name = b.name
      · subst hn
        rw [mapFind_insert_self]
        rw [hf] at e
        exact e.symm
      · rw [mapFind_insert_ne _ _ _ _ hn]
        exact hacc

theorem pureExistingOk_none (f : String → Option PullRequest) :
    ∀ (l : List Bookmark) (acc : List (String × PullRequest)) (name : String),
    mapFind acc name = none → f name = none →
    mapFind (pureExistingOk f l acc) name = none
  | [], _, _, hacc, _ => hacc
  | b :: t, acc, name, hacc, hf => by
    rw [pureExistingOk]
    rcases e : f b.name with _ | pr2
    · exact pureExistingOk_none f t acc name hacc hf
    · refine pureExistingOk_none f t _ name ?_ hf
      by_cases hn : name = b.name
      · subst hn
        rw [e] at hf
        cases hf
      · rw [mapFind_insert_ne _ _ _ _ hn]
        exact hacc

theorem pureExistingOk_mem (f : String → Option PullRequest) :
    ∀ (l : List Bookmark) (acc : List (String × PullRequest)) (b : Bookmark),
    (∀ n, mapFind acc n = none ∨ mapFind acc n = f n) → b ∈ l →
    mapFind (pureExistingOk f l acc) b.name = f b.name
  | [], _, _, _, hb => by cases hb
  | x :: t, acc, b, hinv, hb => by
    rw [pureExistingOk]
    have hinv2 : ∀ n, mapFind (match f x.name with
        | none => acc
        | some pr => mapInsert acc x.name pr) n = none ∨
        mapFind (match f x.name with
        | none => acc
        | some pr => mapInsert acc x.name pr) n = f n := by
      intro n
      rcases e : f x.name with _ | pr
      · exact hinv n
      · by_cases hn : n = x.name
        · subst hn
          rw [mapFind_insert_self, e]
          exact Or.inr rfl
        · rw [mapFind_insert_ne _ _ _ _ hn]
          exact hinv n
    rcases List.mem_cons.mp hb with rfl | hbt
    · rcases e : f b.name with _ | pr
      · rcases hinv b.name with h | h
        · exact pureExistingOk_none f t acc b.name h e
        · rw [e] at h
          exact pureExistingOk_none f t acc b.name h e
      · exact pureExistingOk_preserve f t _ b.name pr (mapFind_insert_self _ _ _) e
    · rcases e : f x.name with _ | pr
      · exact pureExistingOk_mem f t acc b hinv hbt
      · refine pureExistingOk_mem f t _ b ?_ hbt
        intro n
        have h2 := hinv2 n
        rw [e] at h2
        exact h2

theorem findIdx?_nodup (segments : List NarrowedBookmarkSegment) :
    ∀ (i : Nat), (hi : i < segments.length) →
    (segments.map (fun s => s.bookmark.name)).Nodup →
    segments.findIdx? (fun s => s.bookmark.name == segments[i].bookmark.name) = some i := by
  induction segments with
  | nil => intro i hi; simp at hi
  | cons x t ih =>
    intro i hi hnd
    rcases i with _ | j
    · rw [List.findIdx?_cons]
      simp
    · rw [List.findIdx?_cons]
      have hj : j < t.length := by simpa using hi
      have hnd2 : x.bookmark.name ∉ t.map (fun s => s.bookmark.name)
          ∧ (t.map (fun s => s.bookmark.name)).Nodup := by
        rw [List.map_cons] at hnd
        exact List.nodup_cons.mp hnd
      have hne : (x.bookmark.name == (x :: t)[j + 1].bookmark.name) = false := by
        have hmem : (x :: t)[j + 1].bookmark.name ∈ t.map (fun s => s.bookmark.name) := by
          have hg0 : (x :: t)[j + 1] = t[j] := by simp
          rw [hg0]
          exact List.mem_map_of_mem _ (List.getElem_mem hj)
        exact beq_eq_false_iff_ne.mpr (fun e => hnd2.1 (e ▸ hmem))
      rw [hne]
      simp only [Bool.false_eq_true, if_false]
      have hg : (x :: t)[j + 1] = t[j] := by simp
      rw [hg, List.findIdx?_succ, ih j hj hnd2.2]
      rfl

theorem get_base_branch_at (segments : List NarrowedBookmarkSegment)
    (default_branch : String) (i : Nat) (hi : i < segments.length)
    (hnd : (segments.map (fun s => s.bookmark.name)).Nodup) :
    get_base_branch segments[i].bookmark.name segments default_branch
      = .ok (specExpectedBase segments default_branch i) := by
  rw [get_base_branch, findIdx?_nodup segments i hi hnd]
  rcases i with _ | j
  · rfl
  · have hj : j < segments.length := Nat.lt_of_succ_lt hi
    simp only [specExpectedBase, List.getElem?_eq_getElem hj]

theorem generate_pr_title_mem (segments : List NarrowedBookmarkSegment)
    (name : String) (hmem : ∃ s ∈ segments, s.bookmark.name = name) :
    generate_pr_title name segments = .ok (specTitleOf segments name) := by
  obtain ⟨s, hs, he⟩ := hmem
  have hsome : (segments.find? (fun s => s.bookmark.name == name)).isSome :=
    List.find?_isSome.mpr ⟨s, hs, by simp [he]⟩
  rcases e : segments.find? (fun s => s.bookmark.name == name) with _ | seg
  · rw [e] at hsome; cases hsome
  · rw [generate_pr_title, specTitleOf, e]
    rcases e2 : seg.changes.find? (fun c => !c.description_first_line.isEmpty) with _ | c <;>
      simp [e2]

theorem planStep_char (segments : List NarrowedBookmarkSegment) (default_branch : String)
    (E : List (String × PullRequest)) (f : String → Option PullRequest)
    (k : Nat) (hk : k < segments.length)
    (hnd : (segments.map (fun s => s.bookmark.name)).Nodup)
    (hE : mapFind E segments[k].bookmark.name = f segments[k].bookmark.name)
    (p : List Bookmark) (c : List PrToCreate) (u : List PrBaseUpdate) :
    planStep segments default_branch E (p, c, u) segments[k].bookmark =
      .ok (p ++ (if !segments[k].bookmark.has_remote || !segments[k].bookmark.is_synced
                 then [segments[k].bookmark] else []),
           c ++ (match f segments[k].bookmark.name with
                 | some _ => []
                 | none => [{ bookmark := segments[k].bookmark,
                              base_branch := specExpectedBase segments default_branch k,
                              title := specTitleOf segments segments[k].bookmark.name }]),
           u ++ (match f segments[k].bookmark.name with
                 | none => []
                 | some pr =>
                   if pr.base_ref != specExpectedBase segments default_branch k then
                     [{ bookmark := segments[k].bookmark, current_base := pr.base_ref,
                        expected_base := specExpectedBase segments default_branch k,
                        pr := pr }]
                   else [])) := by
  have hbase := get_base_branch_at segments default_branch k hk hnd
  have htitle := generate_pr_title_mem segments segments[k].bookmark.name
    ⟨segments[k], List.getElem_mem hk, rfl⟩
  rw [planStep, hE]
  rcases e : f segments[k].bookmark.name with _ | pr
  · simp only [hbase, htitle]
    by_cases hp : (!segments[k].bookmark.has_remote || !segments[k].bookmark.is_synced) = true
    · simp [hp]
    · simp [hp]
  · simp only [hbase]
    by_cases hb : (pr.base_ref != specExpectedBase segments default_branch k) = true
    · by_cases hp : (!segments[k].bookmark.has_remote || !segments[k].bookmark.is_synced) = true
      · simp [hp, hb]
      · simp [hp, hb]
    · by_cases hp : (!segments[k].bookmark.has_remote || !segments[k].bookmark.is_synced) = true
      · simp [hp, hb]
      · simp [hp, hb]

theorem planLoop_suffix (segments : List NarrowedBookmarkSegment) (default_branch : String)
    (E : List (String × PullRequest)) (f : String → Option PullRequest)
    (hnd : (segments.map (fun s => s.bookmark.name)).Nodup)
    (hE : ∀ i, (h : i < segments.length) →
      mapFind E segments[i].bookmark.name = f segments[i].bookmark.name) :
    ∀ (n k : Nat), segments.length - k = n →
    ∀ (p : List Bookmark) (c : List PrToCreate) (u : List PrBaseUpdate),
    planLoop segments default_branch E (p, c, u)
        ((segments.drop k).map (fun s => s.bookmark)) =
      .ok (p ++ ((segments.drop k).map (fun s => s.bookmark)).filter
              (fun b => !b.has_remote || !b.is_synced),
           c ++ (List.range' k (segments.length - k)).filterMap (fun i =>
              match segments[i]? with
              | none => none
              | some seg =>
                match f seg.bookmark.name with
                | some _ => none
                | none => some { bookmark := seg.bookmark,
                                 base_branch := specExpectedBase segments default_branch i,
                                 title := specTitleOf segments seg.bookmark.name }),
           u ++ (List.range' k (segments.length - k)).filterMap (fun i =>
              match segments[i]? with
              | none => none
              | some seg =>
                match f seg.bookmark.name with
                | none => none
                | some pr =>
                  if pr.base_ref != specExpectedBase segments default_branch i then
                    some { bookmark := seg.bookmark, current_base := pr.base_ref,
                           expected_base := specExpectedBase segments default_branch i,
                           pr := pr }
                  else none)) := by
  intro n
  induction n with
  | zero =>
    intro k hk p c u
    have hle : segments.length ≤ k := by omega
    rw [List.drop_eq_nil_of_le hle, hk]
    simp [planLoop]
  | succ n ih =>
    intro k hk p c u
    have hklt : k < segments.length := by omega
    rw [List.drop_eq_getElem_cons hklt, List.map_cons, planLoop]
    simp only [planStep_char segments default_branch E f k hklt hnd (hE k hklt) p c u]
    rw [ih (k + 1) (by omega)]
    rw [hk, List.range'_succ]
    have hn : segments.length - (k + 1) = n := by omega
    rw [hn]
    rw [List.filter_cons, List.filterMap_cons, List.filterMap_cons]
    rw [List.getElem?_eq_getElem hklt]
    rcases e : f segments[k].bookmark.name with _ | pr
    · by_cases hp : (!segments[k].bookmark.has_remote || !segments[k].bookmark.is_synced) = true
      · simp [hp, e]
      · simp [hp, e]
    · by_cases hb : (pr.base_ref != specExpectedBase segments default_branch k) = true
      · by_cases hp : (!segments[k].bookmark.has_remote || !segments[k].bookmark.is_synced) = true
        · simp [hp, hb, e]
        · simp [hp, hb, e]
      · by_cases hp : (!segments[k].bookmark.has_remote || !segments[k].bookmark.is_synced) = true
        · simp [hp, hb, e]
        · simp [hp, hb, e]

theorem create_submission_plan_eq {σ : Type} (analysis : SubmissionAnalysis)
    (platform : PlatformService σ) (remote default_branch : String) (s s2 : σ)
    (E : List (String × PullRequest)) (p : List Bookmark) (c : List PrToCreate)
    (u : List PrBaseUpdate)
    (hfind : findExistingPrs platform (analysis.segments.map (fun sg => sg.bookmark)) [] s
      = (.ok E, s2))
    (hloop : planLoop analysis.segments default_branch E ([], [], [])
      (analysis.segments.map (fun sg => sg.bookmark)) = .ok (p, c, u)) :
    create_submission_plan analysis platform remote default_branch s =
      (.ok { segments := analysis.segments, bookmarks_needing_push := p,
             prs_to_create := c, prs_to_update_base := u, existing_prs := E,
             remote := remote, default_branch := default_branch }, s2) := by
  rw [create_submission_plan, hfind]
  show (match planLoop analysis.segments default_branch E ([], [], [])
        (analysis.segments.map (fun sg => sg.bookmark)) with
    | .error e => ((.error e : Except Error SubmissionPlan), s2)
    | .ok (push, creates, updates) =>
      (.ok { segments := analysis.segments, bookmarks_needing_push := push,
             prs_to_create := creates, prs_to_update_base := updates,
             existing_prs := E, remote := remote,
             default_branch := default_branch }, s2)) = _
  rw [hloop]

theorem planLoop_noop (segments : List NarrowedBookmarkSegment) (default_branch : String)
    (E : List (String × PullRequest)) :
    ∀ (l : List Bookmark),
    (∀ b ∈ l, b.has_remote = true ∧ b.is_synced = true) →
    (∀ b ∈ l, ∃ pr, mapFind E b.name = some pr
      ∧ get_base_branch b.name segments default_branch = .ok pr.base_ref) →
    ∀ acc, planLoop segments default_branch E acc l = .ok acc
  | [], _, _, acc => rfl
  | b :: t, hs, hp, acc => by
    obtain ⟨pr, hE, hbase⟩ := hp b (by simp)
    obtain ⟨h1, h2⟩ := hs b (by simp)
    rw [planLoop]
    rcases acc with ⟨p, c, u⟩
    rw [planStep, hE, hbase]
    simp only [h1, h2, Bool.not_true, Bool.or_self, Bool.false_eq_true, if_false,
      bne_self_eq_false]
    exact planLoop_noop segments default_branch E t
      (fun b' hb' => hs b' (List.mem_cons_of_mem _ hb'))
      (fun b' hb' => hp b' (List.mem_cons_of_mem _ hb')) (p, c, u)

theorem findExistingPrs_frame {σ : Type} (platform : PlatformService σ)
    (hf : ∀ n s', (platform.find_existing_pr n s').2 = s') :
    ∀ (l : List Bookmark) (acc : List (String × PullRequest)) (s : σ),
    (findExistingPrs platform l acc s).2 = s
  | [], _, _ => rfl
  | b :: t, acc, s => by
    rw [findExistingPrs]
    rcases e : platform.find_existing_pr b.name s with ⟨r, s2⟩
    have hs2 : s2 = s := by
      have h := hf b.name s
      rw [e] at h
      exact h
    rcases r with e' | o
    · exact hs2
    · rcases o with _ | pr
      · rw [findExistingPrs_frame platform hf t acc s2, hs2]
      · rw [findExistingPrs_frame platform hf t (mapInsert acc b.name pr) s2, hs2]

/-- C4: against an already-submitted stack (every segment bookmark synced and
with a remote, and an open PR whose base already equals the code's expected
base for that bookmark), the planner produces a plan with no pushes, no PR
creations and no base updates. -/
theorem C4_planner_idempotence {σ : Type} (analysis : SubmissionAnalysis)
    (platform : PlatformService σ) (remote default_branch : String) (s : σ)
    (f : String → Option PullRequest)
    (hf : ∀ b ∈ analysis.segments.map (fun sg => sg.bookmark), ∀ s' : σ,
      platform.find_existing_pr b.name s' = (.ok (f b.name), s'))
    (hsync : ∀ sg ∈ analysis.segments,
      sg.bookmark.has_remote = true ∧ sg.bookmark.is_synced = true)
    (hpr : ∀ b ∈ analysis.segments.map (fun sg => sg.bookmark), ∃ pr,
      f b.name = some pr
      ∧ get_base_branch b.name analysis.segments default_branch = .ok pr.base_ref) :
    ∃ plan, create_submission_plan analysis platform remote default_branch s
        = (.ok plan, s)
      ∧ plan.bookmarks_needing_push = []
      ∧ plan.prs_to_create = []
      ∧ plan.prs_to_update_base = [] := by
  have hfind := findExistingPrs_pure platform (fun n => .ok (f n)) _ hf [] s
  rw [pureExisting_eq_ok] at hfind
  have hE : ∀ b ∈ analysis.segments.map (fun sg => sg.bookmark), ∃ pr,
      mapFind (pureExistingOk f (analysis.segments.map (fun sg => sg.bookmark)) []) b.name
        = some pr
      ∧ get_base_branch b.name analysis.segments default_branch = .ok pr.base_ref := by
    intro b hb
    obtain ⟨pr, hfb, hbase⟩ := hpr b hb
    refine ⟨pr, ?_, hbase⟩
    rw [pureExistingOk_mem f _ [] b (fun n => Or.inl rfl) hb, hfb]
  have hloop := planLoop_noop analysis.segments default_branch _ _
    (by
      intro b hb
      rw [List.mem_map] at hb
      obtain ⟨sg, hsg, rfl⟩ := hb
      exact hsync sg hsg)
    hE (([] : List Bookmark), ([] : List PrToCreate), ([] : List PrBaseUpdate))
  rw [create_submission_plan_eq analysis platform remote default_branch s s _ _ _ _
    hfind hloop]
  exact ⟨_, rfl, rfl, rfl, rfl⟩

/-- Witness for C4 at a concrete two-segment stack with matching open PRs. -/
theorem C4_witness :
    ∃ plan, create_submission_plan
        { segments := [
            { bookmark := { name := "a", commit_id := "ca", change_id := "A",
                            has_remote := true, is_synced := true }, changes := [] },
            { bookmark := { name := "b", commit_id := "cb", change_id := "B",
                            has_remote := true, is_synced := true }, changes := [] }] }
        (constPlatform (fun n =>
          if n = "a" then
            .ok (some { number := 1, html_url := "u1", base_ref := "main",
                        head_ref := "a", title := "t1" })
          else if n = "b" then
            .ok (some { number := 2, html_url := "u2", base_ref := "a",
                        head_ref := "b", title := "t2" })
          else .ok none))
        "origin" "main" ()
        = (.ok plan, ())
      ∧ plan.bookmarks_needing_push = []
      ∧ plan.prs_to_create = []
      ∧ plan.prs_to_update_base = [] := by
  refine C4_planner_idempotence _ _ "origin" "main" ()
    (fun n =>
      if n = "a" then
        some { number := 1, html_url := "u1", base_ref := "main",
               head_ref := "a", title := "t1" }
      else if n = "b" then
        some { number := 2, html_url := "u2", base_ref := "a",
               head_ref := "b", title := "t2" }
      else none)
    ?_ ?_ ?_
  · intro b hb s'
    fin_cases hb <;> rfl
  · intro sg hsg
    fin_cases hsg <;> exact ⟨rfl, rfl⟩
  · intro b hb
    fin_cases hb
    · exact ⟨_, rfl, rfl⟩
    · exact ⟨_, rfl, rfl⟩

/-- C5: with distinct segment bookmark names and a pure `find_existing_pr`
oracle `f`, the plan's three operation lists are exactly: the bookmarks that
are unpushed or unsynced; a PR creation (with the previous segment's bookmark
name as base, the default branch for the first segment) for every bookmark
without an open PR; and a base update for every bookmark whose open PR's base
differs from the expected base. -/
theorem C5_plan_membership {σ : Type} (analysis : SubmissionAnalysis)
    (platform : PlatformService σ) (remote default_branch : String) (s : σ)
    (f : String → Option PullRequest)
    (hf : ∀ b ∈ analysis.segments.map (fun sg => sg.bookmark), ∀ s' : σ,
      platform.find_existing_pr b.name s' = (.ok (f b.name), s'))
    (hnd : (analysis.segments.map (fun sg => sg.bookmark.name)).Nodup) :
    ∃ plan, create_submission_plan analysis platform remote default_branch s
        = (.ok plan, s)
      ∧ plan.bookmarks_needing_push
          = (analysis.segments.map (fun sg => sg.bookmark)).filter
              (fun b => !b.has_remote || !b.is_synced)
      ∧ plan.prs_to_create
          = (List.range analysis.segments.length).filterMap (fun i =>
              match analysis.segments[i]? with
              | none => none
              | some seg =>
                match f seg.bookmark.name with
                | some _ => none
                | none => some { bookmark := seg.bookmark,
                                 base_branch := specExpectedBase analysis.segments default_branch i,
                                 title := specTitleOf analysis.segments seg.bookmark.name })
      ∧ plan.prs_to_update_base
          = (List.range analysis.segments.length).filterMap (fun i =>
              match analysis.segments[i]? with
              | none => none
              | some seg =>
                match f seg.bookmark.name with
                | none => none
                | some pr =>
                  if pr.base_ref != specExpectedBase analysis.segments default_branch i then
                    some { bookmark := seg.bookmark, current_base := pr.base_ref,
                           expected_base := specExpectedBase analysis.segments default_branch i,
                           pr := pr }
                  else none) := by
  have hfind := findExistingPrs_pure platform (fun n => .ok (f n)) _ hf [] s
  rw [pureExisting_eq_ok] at hfind
  have hE : ∀ i, (h : i < analysis.segments.length) →
      mapFind (pureExistingOk f (analysis.segments.map (fun sg => sg.bookmark)) [])
        analysis.segments[i].bookmark.name = f analysis.segments[i].bookmark.name := by
    intro i hi
    exact pureExistingOk_mem f _ [] analysis.segments[i].bookmark
      (fun n => Or.inl rfl)
      (List.mem_map_of_mem _ (List.getElem_mem hi))
  have hloop := planLoop_suffix analysis.segments default_branch _ f hnd hE
    analysis.segments.length 0 (by omega) [] [] []
  rw [List.drop_zero, Nat.sub_zero, ← List.range_eq_range'] at hloop
  rw [create_submission_plan_eq analysis platform remote default_branch s s _ _ _ _
    hfind hloop]
  refine ⟨_, rfl, by simp, by simp, by simp⟩

/-- Witness for C5 at a concrete two-segment stack: one bookmark has an open
PR with a stale base, the other has none. -/
theorem C5_witness :
    ∃ plan, create_submission_plan
        { segments := [
            { bookmark := { name := "a", commit_id := "ca", change_id := "A",
                            has_remote := true, is_synced := true }, changes := [] },
            { bookmark := { name := "b", commit_id := "cb", change_id := "B",
                            has_remote := false, is_synced := false }, changes := [] }] }
        (constPlatform (fun n =>
          if n = "a" then
            .ok (some { number := 1, html_url := "u1", base_ref := "dev",
                        head_ref := "a", title := "t1" })
          else .ok none))
        "origin" "main" ()
        = (.ok plan, ())
      ∧ plan.bookmarks_needing_push
          = [{ name := "b", commit_id := "cb", change_id := "B",
               has_remote := false, is_synced := false }]
      ∧ plan.prs_to_create
          = [{ bookmark := { name := "b", commit_id := "cb", change_id := "B",
                             has_remote := false, is_synced := false },
               base_branch := "a", title := "b" }]
      ∧ plan.prs_to_update_base
          = [{ bookmark := { name := "a", commit_id := "ca", change_id := "A",
                             has_remote := true, is_synced := true },
               current_base := "dev", expected_base := "main",
               pr := { number := 1, html_url := "u1", base_ref := "dev",
                       head_ref := "a", title := "t1" } }] := by
  obtain ⟨plan, h1, h2, h3, h4⟩ := C5_plan_membership
    { segments := [
        { bookmark := { name := "a", commit_id := "ca", change_id := "A",
                        has_remote := true, is_synced := true }, changes := [] },
        { bookmark := { name := "b", commit_id := "cb", change_id := "B",
                        has_remote := false, is_synced := false }, changes := [] }] }
    (constPlatform (fun n =>
      if n = "a" then
        .ok (some { number := 1, html_url := "u1", base_ref := "dev",
                    head_ref := "a", title := "t1" })
      else .ok none))
    "origin" "main" ()
    (fun n =>
      if n = "a" then
        some { number := 1, html_url := "u1", base_ref := "dev",
               head_ref := "a", title := "t1" }
      else none)
    (by intro b hb s'; fin_cases hb <;> rfl)
    (by decide)
  refine ⟨plan, h1, ?_, ?_, ?_⟩
  · rw [h2]; rfl
  · rw [h3]; rfl
  · rw [h4]; rfl

/-- C10: planning is read-only — when `find_existing_pr` leaves the remote
state unchanged (it is a read), `create_submission_plan` returns the state it
was given — and deterministic: two platform services whose `find_existing_pr`
answers agree as a pure oracle produce identical plans from identical inputs,
regardless of their other operations and their states. -/
theorem C10_planning_read_only_deterministic :
    (∀ (σ : Type) (analysis : SubmissionAnalysis) (platform : PlatformService σ)
        (remote default_branch : String) (s : σ),
      (∀ n s', (platform.find_existing_pr n s').2 = s') →
      (create_submission_plan analysis platform remote default_branch s).2 = s)
    ∧ (∀ (σ1 σ2 : Type) (analysis : SubmissionAnalysis)
        (p1 : PlatformService σ1) (p2 : PlatformService σ2)
        (remote default_branch : String) (s1 : σ1) (s2 : σ2)
        (f : String → Except Error (Option PullRequest)),
      (∀ n s, p1.find_existing_pr n s = (f n, s)) →
      (∀ n s, p2.find_existing_pr n s = (f n, s)) →
      (create_submission_plan analysis p1 remote default_branch s1).1
        = (create_submission_plan analysis p2 remote default_branch s2).1) := by
  constructor
  · intro σ analysis platform remote default_branch s hf
    rw [create_submission_plan]
    generalize e : findExistingPrs platform (analysis.segments.map (fun sg => sg.bookmark)) [] s
      = res
    rcases res with ⟨r, s2⟩
    have hs2 : s2 = s := by
      have h := findExistingPrs_frame platform hf
        (analysis.segments.map (fun sg => sg.bookmark)) [] s
      rw [e] at h
      exact h
    rcases r with e' | E
    · exact hs2
    · show (match planLoop analysis.segments default_branch E ([], [], [])
            (analysis.segments.map (fun (sg : NarrowedBookmarkSegment) => sg.bookmark)) with
        | .error e => ((.error e : Except Error SubmissionPlan), s2)
        | .ok (push, creates, updates) =>
          (.ok { segments := analysis.segments, bookmarks_needing_push := push,
                 prs_to_create := creates, prs_to_update_base := updates,
                 existing_prs := E, remote := remote,
                 default_branch := default_branch }, s2)).2 = s
      rcases planLoop analysis.segments default_branch E ([], [], [])
          (analysis.segments.map (fun (sg : NarrowedBookmarkSegment) => sg.bookmark)) with e' | ⟨p, c, u⟩
      · exact hs2
      · exact hs2
  · intro σ1 σ2 analysis p1 p2 remote default_branch s1 s2 f hf1 hf2
    rw [create_submission_plan, create_submission_plan,
      findExistingPrs_pure p1 f _ (fun b _ s => hf1 b.name s) [] s1,
      findExistingPrs_pure p2 f _ (fun b _ s => hf2 b.name s) [] s2]
    generalize pureExisting f (analysis.segments.map (fun sg => sg.bookmark)) [] = pe
    rcases pe with e | E
    · rfl
    · show (match planLoop analysis.segments default_branch E ([], [], [])
            (analysis.segments.map (fun (sg : NarrowedBookmarkSegment) => sg.bookmark)) with
        | .error e => ((.error e : Except Error SubmissionPlan), s1)
        | .ok (push, creates, updates) =>
          (.ok { segments := analysis.segments, bookmarks_needing_push := push,
                 prs_to_create := creates, prs_to_update_base := updates,
                 existing_prs := E, remote := remote,
                 default_branch := default_branch }, s1)).1 =
        (match planLoop analysis.segments default_branch E ([], [], [])
            (analysis.segments.map (fun (sg : NarrowedBookmarkSegment) => sg.bookmark)) with
        | .error e => ((.error e : Except Error SubmissionPlan), s2)
        | .ok (push, creates, updates) =>
          (.ok { segments := analysis.segments, bookmarks_needing_push := push,
                 prs_to_create := creates, prs_to_update_base := updates,
                 existing_prs := E, remote := remote,
                 default_branch := default_branch }, s2)).1
      rcases planLoop analysis.segments default_branch E ([], [], [])
          (analysis.segments.map (fun (sg : NarrowedBookmarkSegment) => sg.bookmark)) with e' | ⟨p, c, u⟩
      · rfl
      · rfl

/-- Witness for C10 at a concrete analysis and two different state types. -/
theorem C10_witness :
    (create_submission_plan
        { segments := [{ bookmark := { name := "a", commit_id := "ca", change_id := "A",
                                       has_remote := true, is_synced := true },
                         changes := [] }] }
        (constPlatform (fun _ => .ok none)) "origin" "main" ()).2 = ()
    ∧ (create_submission_plan
        { segments := [{ bookmark := { name := "a", commit_id := "ca", change_id := "A",
                                       has_remote := true, is_synced := true },
                         changes := [] }] }
        (constPlatform (fun _ => .ok none)) "origin" "main" ()).1
      = (create_submission_plan
        { segments := [{ bookmark := { name := "a", commit_id := "ca", change_id := "A",
                                       has_remote := true, is_synced := true },
                         changes := [] }] }
        { find_existing_pr := fun _ s => (.ok none, s),
          create_pr := fun _ _ _ s => (.error .NoSupportedRemotes, s + 1),
          update_pr_base := fun _ _ s => (.error .NoSupportedRemotes, s + 1),
          list_pr_comments := fun _ s => (.ok [], s),
          create_pr_comment := fun _ _ s => (.ok (), s),
          update_pr_comment := fun _ _ _ s => (.ok (), s) } "origin" "main" (0 : Nat)).1 := by
  constructor
  · exact C10_planning_read_only_deterministic.1 Unit _ _ "origin" "main" ()
      (fun n s' => rfl)
  · exact C10_planning_read_only_deterministic.2 Unit Nat _ _ _ "origin" "main" () 0
      (fun _ => .ok none) (fun n s => rfl) (fun n s => rfl)

/-! ## Executor lemmas and claims C6, C9 -/

theorem pushOk_true_iff (ws : JjWorkspace) (remote : String) (b : Bookmark) :
    pushOk ws remote b = true ↔ ws.git_push b.name remote = .ok () := by
  rw [pushOk]
  rcases e : ws.git_push b.name remote with err | u
  · exact iff_of_false (fun h => Bool.noConfusion h) (fun h => Except.noConfusion h)
  · cases u
    exact iff_of_true rfl rfl

theorem pushLoop_ok {σ : Type} (ws : JjWorkspace) (remote : String) :
    ∀ (l : List Bookmark) (ctx : ExecCtx σ), (∀ b ∈ l, pushOk ws remote b = true) →
    pushLoop ws remote l ctx =
      ({ result := { ctx.result with
           pushed_bookmarks := ctx.result.pushed_bookmarks ++ l.map (fun b => b.name) },
         bookmark_to_pr := ctx.bookmark_to_pr, state := ctx.state,
         events := ctx.events ++ l.flatMap (fun b =>
           [Event.on_bookmark_push b.name .Started,
            Event.on_bookmark_push b.name .Success]) }, false)
  | [], ctx, _ => by simp [pushLoop]
  | b :: t, ctx, h => by
    have hb := (pushOk_true_iff ws remote b).mp (h b (by simp))
    rw [pushLoop, hb]
    rw [pushLoop_ok ws remote t _ (fun b' hb' => h b' (List.mem_cons_of_mem _ hb'))]
    simp

theorem pushLoop_fail {σ : Type} (ws : JjWorkspace) (remote : String)
    (e : Error) (b : Bookmark)
    (hb : ws.git_push b.name remote = .error e) :
    ∀ (l1 l2 : List Bookmark) (ctx : ExecCtx σ), (∀ b' ∈ l1, pushOk ws remote b' = true) →
    pushLoop ws remote (l1 ++ b :: l2) ctx =
      ({ result := { ctx.result with
           pushed_bookmarks := ctx.result.pushed_bookmarks ++ l1.map (fun b' => b'.name),
           errors := ctx.result.errors
             ++ ["Failed to push " ++ b.name ++ ": " ++ e.message],
           success := false },
         bookmark_to_pr := ctx.bookmark_to_pr, state := ctx.state,
         events := ctx.events
           ++ l1.flatMap (fun b' =>
             [Event.on_bookmark_push b'.name .Started,
              Event.on_bookmark_push b'.name .Success])
           ++ [Event.on_bookmark_push b.name .Started,
               Event.on_bookmark_push b.name
                 (.Failed ("Failed to push " ++ b.name ++ ": " ++ e.message))] }, true)
  | [], l2, ctx, _ => by
    rw [List.nil_append, pushLoop, hb]
    simp
  | b1 :: t1, l2, ctx, h => by
    have hb1 := (pushOk_true_iff ws remote b1).mp (h b1 (by simp))
    rw [List.cons_append, pushLoop, hb1]
    rw [pushLoop_fail ws remote e b hb t1 l2 _
      (fun b' hb' => h b' (List.mem_cons_of_mem _ hb'))]
    simp

theorem pushLoop_trace {σ : Type} (ws : JjWorkspace) (remote : String) :
    ∀ (l : List Bookmark) (ctx : ExecCtx σ),
    (pushLoop ws remote l ctx).1.events =
      ctx.events ++ (pushProcessed ws remote l).flatMap (fun b =>
        [Event.on_bookmark_push b.name .Started,
         Event.on_bookmark_push b.name (pushOutcome ws remote b)])
  | [], ctx => by simp [pushLoop, pushProcessed]
  | b :: t, ctx => by
    rw [pushLoop]
    rcases e : ws.git_push b.name remote with err | u
    case _ =>
      have hok : pushOk ws remote b = false := by
        rw [pushOk, e]
      have hout : pushOutcome ws remote b
          = .Failed ("Failed to push " ++ b.name ++ ": " ++ err.message) := by
        rw [pushOutcome, e]
      have hproc : pushProcessed ws remote (b :: t) = [b] := by
        rw [pushProcessed, List.findIdx?_cons, hok]
        simp
      rw [hproc]
      simp [hout]
    case _ =>
      cases u
      have hok : pushOk ws remote b = true := (pushOk_true_iff ws remote b).mpr e
      have hout : pushOutcome ws remote b = .Success := by rw [pushOutcome, e]
      rw [pushLoop_trace ws remote t _]
      have hproc : pushProcessed ws remote (b :: t)
          = b :: pushProcessed ws remote t := by
        rw [pushProcessed, pushProcessed, List.findIdx?_cons, hok]
        simp only [Bool.not_true, Bool.false_eq_true, if_false, List.findIdx?_succ]
        rcases t.findIdx? (fun b' => !pushOk ws remote b') with _ | i
        · rfl
        · rfl
      rw [hproc]
      simp [hout]

theorem updateLoop_ok {σ : Type} (platform : PlatformService σ)
    (upd : Nat → String → Except Error PullRequest)
    (hupd : ∀ n b s, platform.update_pr_base n b s = (upd n b, s))
    (g : PrBaseUpdate → PullRequest) :
    ∀ (l : List PrBaseUpdate) (ctx : ExecCtx σ),
    (∀ u ∈ l, upd u.pr.number u.expected_base = .ok (g u)) →
    updateLoop platform l ctx =
      ({ result := { ctx.result with
           updated_prs := ctx.result.updated_prs ++ l.map g },
         bookmark_to_pr := l.foldl (fun m u => mapInsert m u.bookmark.name (g u))
           ctx.bookmark_to_pr,
         state := ctx.state,
         events := ctx.events ++ l.flatMap (fun u =>
           [Event.on_message ("Updating " ++ u.bookmark.name ++ " base: "
              ++ u.current_base ++ " → " ++ u.expected_base),
            Event.on_pr_updated u.bookmark.name (g u)]) }, false)
  | [], ctx, _ => by simp [updateLoop]
  | u :: t, ctx, h => by
    have hu := h u (by simp)
    rw [updateLoop, hupd]
    simp only [hu]
    rw [updateLoop_ok platform upd hupd g t _
      (fun u' hu' => h u' (List.mem_cons_of_mem _ hu'))]
    simp

theorem updateLoop_fail {σ : Type} (platform : PlatformService σ)
    (upd : Nat → String → Except Error PullRequest)
    (hupd : ∀ n b s, platform.update_pr_base n b s = (upd n b, s))
    (g : PrBaseUpdate → PullRequest) (e : Error) (u : PrBaseUpdate)
    (hu : upd u.pr.number u.expected_base = .error e) :
    ∀ (l1 l2 : List PrBaseUpdate) (ctx : ExecCtx σ),
    (∀ u' ∈ l1, upd u'.pr.number u'.expected_base = .ok (g u')) →
    updateLoop platform (l1 ++ u :: l2) ctx =
      ({ result := { ctx.result with
           updated_prs := ctx.result.updated_prs ++ l1.map g,
           errors := ctx.result.errors
             ++ ["Failed to update PR base for " ++ u.bookmark.name ++ ": "
                 ++ e.message],
           success := false },
         bookmark_to_pr := l1.foldl (fun m u' => mapInsert m u'.bookmark.name (g u'))
           ctx.bookmark_to_pr,
         state := ctx.state,
         events := ctx.events
           ++ l1.flatMap (fun u' =>
             [Event.on_message ("Updating " ++ u'.bookmark.name ++ " base: "
                ++ u'.current_base ++ " → " ++ u'.expected_base),
              Event.on_pr_updated u'.bookmark.name (g u')])
           ++ [Event.on_message ("Updating " ++ u.bookmark.name ++ " base: "
                ++ u.current_base ++ " → " ++ u.expected_base),
               Event.on_error (.Platform ("Failed to update PR base for "
                 ++ u.bookmark.name ++ ": " ++ e.message))] }, true)
  | [], l2, ctx, _ => by
    rw [List.nil_append, updateLoop, hupd]
    simp [hu]
  | u1 :: t1, l2, ctx, h => by
    have h1 := h u1 (by simp)
    rw [List.cons_append, updateLoop, hupd]
    simp only [h1]
    rw [updateLoop_fail platform upd hupd g e u hu t1 l2 _
      (fun u' hu' => h u' (List.mem_cons_of_mem _ hu'))]
    simp

theorem createLoop_ok {σ : Type} (platform : PlatformService σ)
    (crt : String → String → String → Except Error PullRequest)
    (hcrt : ∀ h b t s, platform.create_pr h b t s = (crt h b t, s))
    (g : PrToCreate → PullRequest) :
    ∀ (l : List PrToCreate) (ctx : ExecCtx σ),
    (∀ p ∈ l, crt p.bookmark.name p.base_branch p.title = .ok (g p)) →
    createLoop platform l ctx =
      ({ result := { ctx.result with
           created_prs := ctx.result.created_prs ++ l.map g },
         bookmark_to_pr := l.foldl (fun m p => mapInsert m p.bookmark.name (g p))
           ctx.bookmark_to_pr,
         state := ctx.state,
         events := ctx.events ++ l.flatMap (fun p =>
           [Event.on_message ("Creating PR for " ++ p.bookmark.name
              ++ " (base: " ++ p.base_branch ++ ")"),
            Event.on_pr_created p.bookmark.name (g p)]) }, false)
  | [], ctx, _ => by simp [createLoop]
  | p :: t, ctx, h => by
    have hp := h p (by simp)
    rw [createLoop, hcrt]
    simp only [hp]
    rw [createLoop_ok platform crt hcrt g t _
      (fun p' hp' => h p' (List.mem_cons_of_mem _ hp'))]
    simp

theorem createLoop_fail {σ : Type} (platform : PlatformService σ)
    (crt : String → String → String → Except Error PullRequest)
    (hcrt : ∀ h b t s, platform.create_pr h b t s = (crt h b t, s))
    (g : PrToCreate → PullRequest) (e : Error) (p : PrToCreate)
    (hp : crt p.bookmark.name p.base_branch p.title = .error e) :
    ∀ (l1 l2 : List PrToCreate) (ctx : ExecCtx σ),
    (∀ p' ∈ l1, crt p'.bookmark.name p'.base_branch p'.title = .ok (g p')) →
    createLoop platform (l1 ++ p :: l2) ctx =
      ({ result := { ctx.result with
           created_prs := ctx.result.created_prs ++ l1.map g,
           errors := ctx.result.errors
             ++ ["Failed to create PR for " ++ p.bookmark.name ++ ": "
                 ++ e.message],
           success := false },
         bookmark_to_pr := l1.foldl (fun m p' => mapInsert m p'.bookmark.name (g p'))
           ctx.bookmark_to_pr,
         state := ctx.state,
         events := ctx.events
           ++ l1.flatMap (fun p' =>
             [Event.on_message ("Creating PR for " ++ p'.bookmark.name
                ++ " (base: " ++ p'.base_branch ++ ")"),
              Event.on_pr_created p'.bookmark.name (g p')])
           ++ [Event.on_message ("Creating PR for " ++ p.bookmark.name
                ++ " (base: " ++ p.base_branch ++ ")"),
               Event.on_error (.Platform ("Failed to create PR for "
                 ++ p.bookmark.name ++ ": " ++ e.message))] }, true)
  | [], l2, ctx, _ => by
    rw [List.nil_append, createLoop, hcrt]
    simp [hp]
  | p1 :: t1, l2, ctx, h => by
    have h1 := h p1 (by simp)
    rw [List.cons_append, createLoop, hcrt]
    simp only [h1]
    rw [createLoop_fail platform crt hcrt g e p hp t1 l2 _
      (fun p' hp' => h p' (List.mem_cons_of_mem _ hp'))]
    simp

theorem commentLoop_spec {σ : Type} (platform : PlatformService σ)
    (data : StackCommentData) (com : Nat → Nat → Except Error Unit)
    (hcom : ∀ idx n s, create_or_update_stack_comment platform data idx n s
      = (com idx n, s)) :
    ∀ (items : List (Nat × StackItem)) (ctx : ExecCtx σ),
    commentLoop platform data items ctx =
      { result := { ctx.result with
          errors := ctx.result.errors ++ items.filterMap (fun q =>
            match com q.1 q.2.pr_number with
            | .ok _ => none
            | .error e => some ("Failed to update stack comment for "
                ++ q.2.bookmark_name ++ ": " ++ e.message)) },
        bookmark_to_pr := ctx.bookmark_to_pr,
        state := ctx.state,
        events := ctx.events ++ items.filterMap (fun q =>
          match com q.1 q.2.pr_number with
          | .ok _ => none
          | .error e => some (Event.on_error (.Platform
              ("Failed to update stack comment for " ++ q.2.bookmark_name
                ++ ": " ++ e.message)))) }
  | [], ctx => by simp [commentLoop]
  | (idx, item) :: t, ctx => by
    rw [commentLoop, hcom]
    rcases e : com idx item.pr_number with err | u
    · simp only [e]
      rw [commentLoop_spec platform data com hcom t _]
      simp [e]
    · cases u
      simp only [e]
      rw [commentLoop_spec platform data com hcom t _]
      simp [e]

theorem C6A_push_fail {σ : Type} (plan : SubmissionPlan) (ws : JjWorkspace)
    (platform : PlatformService σ) (s : σ) (e : Error) (b : Bookmark)
    (l1 l2 : List Bookmark)
    (hsplit : plan.bookmarks_needing_push = l1 ++ b :: l2)
    (hok : ∀ b' ∈ l1, pushOk ws plan.remote b' = true)
    (hfail : ws.git_push b.name plan.remote = .error e) :
    (execute_submission plan ws platform false s).1 =
      { success := false, created_prs := [], updated_prs := [],
        pushed_bookmarks := l1.map (fun b' => b'.name),
        errors := ["Failed to push " ++ b.name ++ ": " ++ e.message] }
    ∧ (execute_submission plan ws platform false s).2.1 = s := by
  rw [execute_submission]
  simp only [Bool.false_eq_true, if_false, hsplit]
  rw [pushLoop_fail ws plan.remote e b hfail l1 l2 _ hok]
  exact ⟨rfl, rfl⟩

theorem C6B_update_fail {σ : Type} (plan : SubmissionPlan) (ws : JjWorkspace)
    (platform : PlatformService σ) (s : σ)
    (upd : Nat → String → Except Error PullRequest)
    (hupd : ∀ n b s', platform.update_pr_base n b s' = (upd n b, s'))
    (g : PrBaseUpdate → PullRequest) (e : Error) (u : PrBaseUpdate)
    (l1 l2 : List PrBaseUpdate)
    (hpushes : ∀ b ∈ plan.bookmarks_needing_push, pushOk ws plan.remote b = true)
    (hsplit : plan.prs_to_update_base = l1 ++ u :: l2)
    (hok : ∀ u' ∈ l1, upd u'.pr.number u'.expected_base = .ok (g u'))
    (hfail : upd u.pr.number u.expected_base = .error e) :
    (execute_submission plan ws platform false s).1 =
      { success := false, created_prs := [],
        updated_prs := l1.map g,
        pushed_bookmarks := plan.bookmarks_needing_push.map (fun b => b.name),
        errors := ["Failed to update PR base for " ++ u.bookmark.name ++ ": "
          ++ e.message] }
    ∧ (execute_submission plan ws platform false s).2.1 = s := by
  rw [execute_submission]
  simp only [Bool.false_eq_true, if_false]
  rw [pushLoop_ok ws plan.remote _ _ hpushes]
  simp only [hsplit]
  rw [updateLoop_fail platform upd hupd g e u hfail l1 l2 _ hok]
  exact ⟨rfl, rfl⟩

theorem C6C_create_fail {σ : Type} (plan : SubmissionPlan) (ws : JjWorkspace)
    (platform : PlatformService σ) (s : σ)
    (upd : Nat → String → Except Error PullRequest)
    (hupd : ∀ n b s', platform.update_pr_base n b s' = (upd n b, s'))
    (gu : PrBaseUpdate → PullRequest)
    (crt : String → String → String → Except Error PullRequest)
    (hcrt : ∀ h b t s', platform.create_pr h b t s' = (crt h b t, s'))
    (gc : PrToCreate → PullRequest) (e : Error) (p : PrToCreate)
    (l1 l2 : List PrToCreate)
    (hpushes : ∀ b ∈ plan.bookmarks_needing_push, pushOk ws plan.remote b = true)
    (hupds : ∀ u ∈ plan.prs_to_update_base,
      upd u.pr.number u.expected_base = .ok (gu u))
    (hsplit : plan.prs_to_create = l1 ++ p :: l2)
    (hok : ∀ p' ∈ l1, crt p'.bookmark.name p'.base_branch p'.title = .ok (gc p'))
    (hfail : crt p.bookmark.name p.base_branch p.title = .error e) :
    (execute_submission plan ws platform false s).1 =
      { success := false,
        created_prs := l1.map gc,
        updated_prs := plan.prs_to_update_base.map gu,
        pushed_bookmarks := plan.bookmarks_needing_push.map (fun b => b.name),
        errors := ["Failed to create PR for " ++ p.bookmark.name ++ ": "
          ++ e.message] }
    ∧ (execute_submission plan ws platform false s).2.1 = s := by
  rw [execute_submission]
  simp only [Bool.false_eq_true, if_false]
  rw [pushLoop_ok ws plan.remote _ _ hpushes]
  simp only [hsplit]
  rw [updateLoop_ok platform upd hupd gu _ _ hupds]
  simp only [List.nil_append]
  rw [createLoop_fail platform crt hcrt gc e p hfail l1 l2 _ hok]
  exact ⟨rfl, rfl⟩

theorem C6D_comment_fail_nonfatal {σ : Type} (plan : SubmissionPlan)
    (ws : JjWorkspace) (platform : PlatformService σ) (s : σ)
    (upd : Nat → String → Except Error PullRequest)
    (hupd : ∀ n b s', platform.update_pr_base n b s' = (upd n b, s'))
    (gu : PrBaseUpdate → PullRequest)
    (crt : String → String → String → Except Error PullRequest)
    (hcrt : ∀ h b t s', platform.create_pr h b t s' = (crt h b t, s'))
    (gc : PrToCreate → PullRequest)
    (com : Nat → Nat → Except Error Unit)
    (hpushes : ∀ b ∈ plan.bookmarks_needing_push, pushOk ws plan.remote b = true)
    (hupds : ∀ u ∈ plan.prs_to_update_base,
      upd u.pr.number u.expected_base = .ok (gu u))
    (hcrts : ∀ p ∈ plan.prs_to_create,
      crt p.bookmark.name p.base_branch p.title = .ok (gc p))
    (hne : (plan.prs_to_create.foldl (fun m p => mapInsert m p.bookmark.name (gc p))
      (plan.prs_to_update_base.foldl (fun m u => mapInsert m u.bookmark.name (gu u))
        plan.existing_prs)).isEmpty = false)
    (hcom : ∀ idx n s', create_or_update_stack_comment platform
      (build_stack_comment_data plan
        (plan.prs_to_create.foldl (fun m p => mapInsert m p.bookmark.name (gc p))
          (plan.prs_to_update_base.foldl
            (fun m u => mapInsert m u.bookmark.name (gu u)) plan.existing_prs)))
      idx n s' = (com idx n, s')) :
    (execute_submission plan ws platform false s).1 =
      { success := true,
        created_prs := plan.prs_to_create.map gc,
        updated_prs := plan.prs_to_update_base.map gu,
        pushed_bookmarks := plan.bookmarks_needing_push.map (fun b => b.name),
        errors := (build_stack_comment_data plan
          (plan.prs_to_create.foldl (fun m p => mapInsert m p.bookmark.name (gc p))
            (plan.prs_to_update_base.foldl
              (fun m u => mapInsert m u.bookmark.name (gu u))
              plan.existing_prs))).stack.enum.filterMap (fun q =>
          match com q.1 q.2.pr_number with
          | .ok _ => none
          | .error e => some ("Failed to update stack comment for "
              ++ q.2.bookmark_name ++ ": " ++ e.message)) }
    ∧ (execute_submission plan ws platform false s).2.1 = s := by
  rw [execute_submission]
  simp only [Bool.false_eq_true, if_false]
  rw [pushLoop_ok ws plan.remote _ _ hpushes]
  simp only [List.nil_append]
  rw [updateLoop_ok platform upd hupd gu _ _ hupds]
  simp only [List.nil_append]
  rw [createLoop_ok platform crt hcrt gc _ _ hcrts]
  simp only [List.nil_append, hne, Bool.false_eq_true, if_false]
  rw [commentLoop_spec platform _ com hcom _ _]
  exact ⟨rfl, rfl⟩

/-- Claim C6: executor partial-failure semantics.  (A) The first failing push
aborts `execute_submission` with `success = false`, the push error appended and
the bookmarks already pushed recorded; (B) the first failing base update aborts
likewise, keeping the pushed bookmarks and the updates already applied; (C) the
first failing PR creation aborts likewise, keeping pushes, updates and the PRs
already created; nothing on any abort path is rolled back, and the remote state
is the one the failing oracle left.  (D) Failing comment operations are
appended to `errors` but the run completes with `success = true`. -/
theorem C6_executor_partial_failure :
    (∀ (σ : Type) (plan : SubmissionPlan) (ws : JjWorkspace)
      (platform : PlatformService σ) (s : σ) (e : Error) (b : Bookmark)
      (l1 l2 : List Bookmark),
      plan.bookmarks_needing_push = l1 ++ b :: l2 →
      (∀ b' ∈ l1, pushOk ws plan.remote b' = true) →
      ws.git_push b.name plan.remote = .error e →
      (execute_submission plan ws platform false s).1 =
        { success := false, created_prs := [], updated_prs := [],
          pushed_bookmarks := l1.map (fun b' => b'.name),
          errors := ["Failed to push " ++ b.name ++ ": " ++ e.message] }
      ∧ (execute_submission plan ws platform false s).2.1 = s)
    ∧ (∀ (σ : Type) (plan : SubmissionPlan) (ws : JjWorkspace)
      (platform : PlatformService σ) (s : σ)
      (upd : Nat → String → Except Error PullRequest),
      (∀ n b s', platform.update_pr_base n b s' = (upd n b, s')) →
      ∀ (g : PrBaseUpdate → PullRequest) (e : Error) (u : PrBaseUpdate)
        (l1 l2 : List PrBaseUpdate),
      (∀ b ∈ plan.bookmarks_needing_push, pushOk ws plan.remote b = true) →
      plan.prs_to_update_base = l1 ++ u :: l2 →
      (∀ u' ∈ l1, upd u'.pr.number u'.expected_base = .ok (g u')) →
      upd u.pr.number u.expected_base = .error e →
      (execute_submission plan ws platform false s).1 =
        { success := false, created_prs := [],
          updated_prs := l1.map g,
          pushed_bookmarks := plan.bookmarks_needing_push.map (fun b => b.name),
          errors := ["Failed to update PR base for " ++ u.bookmark.name ++ ": "
            ++ e.message] }
      ∧ (execute_submission plan ws platform false s).2.1 = s)
    ∧ (∀ (σ : Type) (plan : SubmissionPlan) (ws : JjWorkspace)
      (platform : PlatformService σ) (s : σ)
      (upd : Nat → String → Except Error PullRequest),
      (∀ n b s', platform.update_pr_base n b s' = (upd n b, s')) →
      ∀ (gu : PrBaseUpdate → PullRequest)
        (crt : String → String → String → Except Error PullRequest),
      (∀ h b t s', platform.create_pr h b t s' = (crt h b t, s')) →
      ∀ (gc : PrToCreate → PullRequest) (e : Error) (p : PrToCreate)
        (l1 l2 : List PrToCreate),
      (∀ b ∈ plan.bookmarks_needing_push, pushOk ws plan.remote b = true) →
      (∀ u ∈ plan.prs_to_update_base,
        upd u.pr.number u.expected_base = .ok (gu u)) →
      plan.prs_to_create = l1 ++ p :: l2 →
      (∀ p' ∈ l1, crt p'.bookmark.name p'.base_branch p'.title = .ok (gc p')) →
      crt p.bookmark.name p.base_branch p.title = .error e →
      (execute_submission plan ws platform false s).1 =
        { success := false,
          created_prs := l1.map gc,
          updated_prs := plan.prs_to_update_base.map gu,
          pushed_bookmarks := plan.bookmarks_needing_push.map (fun b => b.name),
          errors := ["Failed to create PR for " ++ p.bookmark.name ++ ": "
            ++ e.message] }
      ∧ (execute_submission plan ws platform false s).2.1 = s)
    ∧ (∀ (σ : Type) (plan : SubmissionPlan) (ws : JjWorkspace)
      (platform : PlatformService σ) (s : σ)
      (upd : Nat → String → Except Error PullRequest),
      (∀ n b s', platform.update_pr_base n b s' = (upd n b, s')) →
      ∀ (gu : PrBaseUpdate → PullRequest)
        (crt : String → String → String → Except Error PullRequest),
      (∀ h b t s', platform.create_pr h b t s' = (crt h b t, s')) →
      ∀ (gc : PrToCreate → PullRequest) (com : Nat → Nat → Except Error Unit),
      (∀ b ∈ plan.bookmarks_needing_push, pushOk ws plan.remote b = true) →
      (∀ u ∈ plan.prs_to_update_base,
        upd u.pr.number u.expected_base = .ok (gu u)) →
      (∀ p ∈ plan.prs_to_create,
        crt p.bookmark.name p.base_branch p.title = .ok (gc p)) →
      (plan.prs_to_create.foldl (fun m p => mapInsert m p.bookmark.name (gc p))
        (plan.prs_to_update_base.foldl
          (fun m u => mapInsert m u.bookmark.name (gu u))
          plan.existing_prs)).isEmpty = false →
      (∀ idx n s', create_or_update_stack_comment platform
        (build_stack_comment_data plan
          (plan.prs_to_create.foldl (fun m p => mapInsert m p.bookmark.name (gc p))
            (plan.prs_to_update_base.foldl
              (fun m u => mapInsert m u.bookmark.name (gu u))
              plan.existing_prs)))
        idx n s' = (com idx n, s')) →
      (execute_submission plan ws platform false s).1 =
        { success := true,
          created_prs := plan.prs_to_create.map gc,
          updated_prs := plan.prs_to_update_base.map gu,
          pushed_bookmarks := plan.bookmarks_needing_push.map (fun b => b.name),
          errors := (build_stack_comment_data plan
            (plan.prs_to_create.foldl (fun m p => mapInsert m p.bookmark.name (gc p))
              (plan.prs_to_update_base.foldl
                (fun m u => mapInsert m u.bookmark.name (gu u))
                plan.existing_prs))).stack.enum.filterMap (fun q =>
            match com q.1 q.2.pr_number with
            | .ok _ => none
            | .error e => some ("Failed to update stack comment for "
                ++ q.2.bookmark_name ++ ": " ++ e.message)) }
      ∧ (execute_submission plan ws platform false s).2.1 = s) := by
  refine ⟨?_, ?_, ?_, ?_⟩
  · intro σ plan ws platform s e b l1 l2 hsplit hok hfail
    exact C6A_push_fail plan ws platform s e b l1 l2 hsplit hok hfail
  · intro σ plan ws platform s upd hupd g e u l1 l2 hpushes hsplit hok hfail
    exact C6B_update_fail plan ws platform s upd hupd g e u l1 l2 hpushes
      hsplit hok hfail
  · intro σ plan ws platform s upd hupd gu crt hcrt gc e p l1 l2 hpushes hupds
      hsplit hok hfail
    exact C6C_create_fail plan ws platform s upd hupd gu crt hcrt gc e p l1 l2
      hpushes hupds hsplit hok hfail
  · intro σ plan ws platform s upd hupd gu crt hcrt gc com hpushes hupds hcrts
      hne hcom
    exact C6D_comment_fail_nonfatal plan ws platform s upd hupd gu crt hcrt gc
      com hpushes hupds hcrts hne hcom

theorem C6_witness :
    ((execute_submission planWA wsPushW platW false ()).1 =
      { success := false, created_prs := [], updated_prs := [],
        pushed_bookmarks := ["a"],
        errors := ["Failed to push bad: vcs: net"] }
      ∧ (execute_submission planWA wsPushW platW false ()).2.1 = ())
    ∧ ((execute_submission planWB wsPushW platW false ()).1 =
      { success := false, created_prs := [],
        updated_prs := [{ number := 2, html_url := "u1",
                          base_ref := "main", head_ref := "h", title := "t1" }],
        pushed_bookmarks := [],
        errors := ["Failed to update PR base for y: platform: ufail"] }
      ∧ (execute_submission planWB wsPushW platW false ()).2.1 = ())
    ∧ ((execute_submission planWC wsPushW platW false ()).1 =
      { success := false,
        created_prs := [{ number := 3, html_url := "u3",
                          base_ref := "main", head_ref := "w", title := "t3" }],
        updated_prs := [], pushed_bookmarks := [],
        errors := ["Failed to create PR for cbad: platform: cfail"] }
      ∧ (execute_submission planWC wsPushW platW false ()).2.1 = ())
    ∧ ((execute_submission planWD wsPushW platW false ()).1 =
      { success := true, created_prs := [], updated_prs := [],
        pushed_bookmarks := [],
        errors := ["Failed to update stack comment for d: platform: comfail"] }
      ∧ (execute_submission planWD wsPushW platW false ()).2.1 = ()) := by
  refine ⟨?_, ?_, ?_, ?_⟩
  · exact C6_executor_partial_failure.1 Unit planWA wsPushW platW ()
      (.VcsCommand "net") (wB "bad") [wB "a"] [] rfl (by decide) rfl
  · exact C6_executor_partial_failure.2.1 Unit planWB wsPushW platW ()
      updW (fun n b s' => rfl) guW (.Platform "ufail") uBadW [uGoodW] []
      (by decide) rfl
      (by intro u' hu'; rw [List.mem_singleton] at hu'; subst hu'; rfl) rfl
  · exact C6_executor_partial_failure.2.2.1 Unit planWC wsPushW platW ()
      updW (fun n b s' => rfl) guW crtW (fun h b t s' => rfl) gcW
      (.Platform "cfail") cBadW [cGoodW] [] (by decide)
      (by intro u hu; simp [planWC] at hu) rfl
      (by intro p' hp'; rw [List.mem_singleton] at hp'; subst hp'; rfl) rfl
  · exact C6_executor_partial_failure.2.2.2 Unit planWD wsPushW platW ()
      updW (fun n b s' => rfl) guW crtW (fun h b t s' => rfl) gcW comW
      (by decide) (by intro u hu; simp [planWD] at hu)
      (by intro p hp; simp [planWD] at hp) rfl (fun idx n s' => rfl)

theorem pushEventsOf_append (a b : List Event) :
    pushEventsOf (a ++ b) = pushEventsOf a ++ pushEventsOf b := by
  simp [pushEventsOf, List.filterMap_append]

theorem updateLoop_pushEvents {σ : Type} (platform : PlatformService σ) :
    ∀ (l : List PrBaseUpdate) (ctx : ExecCtx σ),
    pushEventsOf ((updateLoop platform l ctx).1).events
      = pushEventsOf ctx.events
  | [], _ => rfl
  | u :: rest, ctx => by
    rw [updateLoop]
    split
    case _ updated_pr s2 heq =>
      rw [updateLoop_pushEvents platform rest _]
      simp [pushEventsOf, List.filterMap_append]
    case _ e s2 heq =>
      simp [pushEventsOf, List.filterMap_append]

theorem createLoop_pushEvents {σ : Type} (platform : PlatformService σ) :
    ∀ (l : List PrToCreate) (ctx : ExecCtx σ),
    pushEventsOf ((createLoop platform l ctx).1).events
      = pushEventsOf ctx.events
  | [], _ => rfl
  | p :: rest, ctx => by
    rw [createLoop]
    split
    case _ pr s2 heq =>
      rw [createLoop_pushEvents platform rest _]
      simp [pushEventsOf, List.filterMap_append]
    case _ e s2 heq =>
      simp [pushEventsOf, List.filterMap_append]

theorem commentLoop_pushEvents {σ : Type} (platform : PlatformService σ)
    (data : StackCommentData) :
    ∀ (items : List (Nat × StackItem)) (ctx : ExecCtx σ),
    pushEventsOf (commentLoop platform data items ctx).events
      = pushEventsOf ctx.events
  | [], _ => rfl
  | (idx, item) :: rest, ctx => by
    rw [commentLoop]
    split
    case _ u s2 heq =>
      rw [commentLoop_pushEvents platform data rest _]
    case _ e s2 heq =>
      rw [commentLoop_pushEvents platform data rest _]
      simp [pushEventsOf, List.filterMap_append]

theorem pushOutcome_ne_AlreadySynced (ws : JjWorkspace) (remote : String)
    (b : Bookmark) : pushOutcome ws remote b ≠ .AlreadySynced := by
  rw [pushOutcome]
  rcases ws.git_push b.name remote with e | u
  · exact fun h => PushStatus.noConfusion h
  · exact fun h => PushStatus.noConfusion h

theorem exec_pushEvents {σ : Type} (plan : SubmissionPlan) (ws : JjWorkspace)
    (platform : PlatformService σ) (s : σ) :
    pushEventsOf (execute_submission plan ws platform false s).2.2
      = (pushProcessed ws plan.remote plan.bookmarks_needing_push).flatMap
          (fun b => [(b.name, PushStatus.Started),
                     (b.name, pushOutcome ws plan.remote b)]) := by
  have htr := pushLoop_trace ws plan.remote plan.bookmarks_needing_push
    { result := { success := true, created_prs := [], updated_prs := [],
                  pushed_bookmarks := [], errors := [] },
      bookmark_to_pr := plan.existing_prs, state := s,
      events := [Event.on_phase .Pushing] }
  have hflat : ∀ l : List Bookmark,
      pushEventsOf (l.flatMap (fun b =>
        [Event.on_bookmark_push b.name .Started,
         Event.on_bookmark_push b.name (pushOutcome ws plan.remote b)]))
      = l.flatMap (fun b => [(b.name, PushStatus.Started),
          (b.name, pushOutcome ws plan.remote b)]) := by
    intro l
    induction l with
    | nil => rfl
    | cons b t ih =>
      simp only [List.flatMap_cons, pushEventsOf_append] at ih ⊢
      rw [ih]
      rfl
  rw [execute_submission]
  simp only [Bool.false_eq_true, if_false]
  split
  case _ ctx1 heq =>
    rw [heq] at htr
    simp only [] at htr
    show pushEventsOf ctx1.events = _
    rw [htr, pushEventsOf_append, hflat]
    rfl
  case _ ctx1 heq =>
    rw [heq] at htr
    simp only [] at htr
    have hev1 : pushEventsOf ctx1.events
        = (pushProcessed ws plan.remote plan.bookmarks_needing_push).flatMap
            (fun b => [(b.name, PushStatus.Started),
              (b.name, pushOutcome ws plan.remote b)]) := by
      rw [htr, pushEventsOf_append, hflat]
      rfl
    split
    case _ ctx2 heq2 =>
      have h2 := updateLoop_pushEvents platform plan.prs_to_update_base
        { ctx1 with events := ctx1.events ++ [Event.on_phase .UpdatingPrs] }
      rw [heq2] at h2
      have h2' : pushEventsOf ctx2.events = pushEventsOf ctx1.events := by
        simpa [pushEventsOf, pushEventsOf_append, List.filterMap_append] using h2
      show pushEventsOf ctx2.events = _
      rw [h2', hev1]
    case _ ctx2 heq2 =>
      have h2 := updateLoop_pushEvents platform plan.prs_to_update_base
        { ctx1 with events := ctx1.events ++ [Event.on_phase .UpdatingPrs] }
      rw [heq2] at h2
      have h2' : pushEventsOf ctx2.events = pushEventsOf ctx1.events := by
        simpa [pushEventsOf, pushEventsOf_append, List.filterMap_append] using h2
      split
      case _ ctx3 heq3 =>
        have h3 := createLoop_pushEvents platform plan.prs_to_create
          { ctx2 with events := ctx2.events ++ [Event.on_phase .CreatingPrs] }
        rw [heq3] at h3
        have h3' : pushEventsOf ctx3.events = pushEventsOf ctx2.events := by
          simpa [pushEventsOf, pushEventsOf_append, List.filterMap_append] using h3
        show pushEventsOf ctx3.events = _
        rw [h3', h2', hev1]
      case _ ctx3 heq3 =>
        have h3 := createLoop_pushEvents platform plan.prs_to_create
          { ctx2 with events := ctx2.events ++ [Event.on_phase .CreatingPrs] }
        rw [heq3] at h3
        have h3' : pushEventsOf ctx3.events = pushEventsOf ctx2.events := by
          simpa [pushEventsOf, pushEventsOf_append, List.filterMap_append] using h3
        by_cases hemp : ({ ctx3 with events := ctx3.events
            ++ [Event.on_phase .AddingComments] } : ExecCtx σ).bookmark_to_pr.isEmpty
        · simp only [hemp, if_true]
          show pushEventsOf (ctx3.events ++ [Event.on_phase .AddingComments]
            ++ [Event.on_phase .Complete]) = _
          rw [pushEventsOf_append, pushEventsOf_append, h3', h2', hev1]
          simp [pushEventsOf]
        · simp only [hemp, Bool.false_eq_true, if_false]
          have h4 := commentLoop_pushEvents platform
            (build_stack_comment_data plan
              ({ ctx3 with events := ctx3.events
                  ++ [Event.on_phase .AddingComments] } : ExecCtx σ).bookmark_to_pr)
            (build_stack_comment_data plan
              ({ ctx3 with events := ctx3.events
                  ++ [Event.on_phase .AddingComments] } : ExecCtx σ).bookmark_to_pr).stack.enum
            { ctx3 with events := ctx3.events ++ [Event.on_phase .AddingComments] }
          show pushEventsOf ((commentLoop platform _ _ _).events
            ++ [Event.on_phase .Complete]) = _
          rw [pushEventsOf_append, h4]
          have : pushEventsOf ({ ctx3 with events := ctx3.events
              ++ [Event.on_phase .AddingComments] } : ExecCtx σ).events
              = pushEventsOf ctx3.events := by
            simp [pushEventsOf, pushEventsOf_append, List.filterMap_append]
          rw [this, h3', h2', hev1]
          simp [pushEventsOf]

/-- Claim C9: during every non-dry-run execution the push events are exactly,
for each bookmark processed by the push phase in order, `Started` followed by
`Success` or `Failed`; `AlreadySynced` is never emitted. -/
theorem C9_push_event_protocol {σ : Type} (plan : SubmissionPlan)
    (ws : JjWorkspace) (platform : PlatformService σ) (s : σ) :
    pushEventsOf (execute_submission plan ws platform false s).2.2
      = (pushProcessed ws plan.remote plan.bookmarks_needing_push).flatMap
          (fun b => [(b.name, PushStatus.Started),
                     (b.name, pushOutcome ws plan.remote b)])
    ∧ ∀ n, (n, PushStatus.AlreadySynced)
        ∉ pushEventsOf (execute_submission plan ws platform false s).2.2 := by
  refine ⟨exec_pushEvents plan ws platform s, ?_⟩
  intro n hmem
  rw [exec_pushEvents plan ws platform s] at hmem
  rw [List.mem_flatMap] at hmem
  obtain ⟨b, _, hpair⟩ := hmem
  simp only [List.mem_cons, List.mem_singleton, List.not_mem_nil,
    or_false] at hpair
  rcases hpair with h | h
  · exact PushStatus.noConfusion (congrArg Prod.snd h)
  · exact pushOutcome_ne_AlreadySynced ws plan.remote b
      (congrArg Prod.snd h).symm

/-! ## Encoding, decoding and stack-comment lemmas; claim C7 -/

theorem sextetVal_sextetChar : ∀ n < 64, sextetVal (sextetChar n) = some n := by
  decide

theorem sextetChar_ne_eq (n : Nat) : sextetChar n ≠ '=' := by
  by_cases h : n < 64
  · revert n h
    decide
  · rw [sextetChar, List.getD_eq_default]
    · decide
    · rw [show base64Table.length = 64 from rfl]
      omega

theorem sextetChar_ne_space (n : Nat) : sextetChar n ≠ ' ' := by
  by_cases h : n < 64
  · revert n h
    decide
  · rw [sextetChar, List.getD_eq_default]
    · decide
    · rw [show base64Table.length = 64 from rfl]
      omega

theorem base64Encode_chars : ∀ (bs : List Nat), ∀ c ∈ base64Encode bs, c ≠ ' '
  | [], c, hc => by cases hc
  | [a], c, hc => by
    simp only [base64Encode, List.mem_cons, List.not_mem_nil, or_false] at hc
    rcases hc with h | h | h | h
    · exact h ▸ sextetChar_ne_space _
    · exact h ▸ sextetChar_ne_space _
    · exact h ▸ (by decide)
    · exact h ▸ (by decide)
  | [a, b], c, hc => by
    simp only [base64Encode, List.mem_cons, List.not_mem_nil, or_false] at hc
    rcases hc with h | h | h | h
    · exact h ▸ sextetChar_ne_space _
    · exact h ▸ sextetChar_ne_space _
    · exact h ▸ sextetChar_ne_space _
    · exact h ▸ (by decide)
  | a :: b :: d :: rest, c, hc => by
    simp only [base64Encode, List.mem_cons] at hc
    rcases hc with h | h | h | h | h
    · exact h ▸ sextetChar_ne_space _
    · exact h ▸ sextetChar_ne_space _
    · exact h ▸ sextetChar_ne_space _
    · exact h ▸ sextetChar_ne_space _
    · exact base64Encode_chars rest c h

theorem base64_roundtrip : ∀ (bs : List Nat), (∀ b ∈ bs, b < 256) →
    base64Decode (base64Encode bs) = some bs
  | [], _ => rfl
  | [a], h => by
    have ha : a < 256 := h a (by simp)
    rw [base64Encode, base64Decode]
    rw [sextetVal_sextetChar (a / 4) (by omega),
        sextetVal_sextetChar (a % 4 * 16) (by omega)]
    simp only [List.isEmpty_nil, Bool.and_true, decide_True, Bool.and_self,
      if_true]
    have : a / 4 * 4 + a % 4 * 16 / 16 = a := by omega
    rw [this]
  | [a, b], h => by
    have ha : a < 256 := h a (by simp)
    have hb : b < 256 := h b (by simp)
    rw [base64Encode, base64Decode]
    rw [sextetVal_sextetChar (a / 4) (by omega),
        sextetVal_sextetChar (a % 4 * 16 + b / 16) (by omega)]
    have h2 : (sextetChar (b % 16 * 4) = '=') = False :=
      eq_false (sextetChar_ne_eq _)
    simp only [h2, decide_False, Bool.false_and, Bool.and_false,
      Bool.false_eq_true, if_false, List.isEmpty_nil, Bool.and_true,
      decide_True, Bool.true_and, if_true]
    have e1 : a / 4 * 4 + (a % 4 * 16 + b / 16) / 16 = a := by omega
    have e2 : (a % 4 * 16 + b / 16) % 16 * 16 + b % 16 * 4 / 4 = b := by omega
    simp only [sextetVal_sextetChar (b % 16 * 4) (by omega)]
    rw [e1, e2]
  | a :: b :: d :: rest, h => by
    have ha : a < 256 := h a (by simp)
    have hb : b < 256 := h b (by simp)
    have hd : d < 256 := h d (by simp)
    rw [base64Encode, base64Decode]
    rw [sextetVal_sextetChar (a / 4) (by omega),
        sextetVal_sextetChar (a % 4 * 16 + b / 16) (by omega)]
    have h2 : (sextetChar (b % 16 * 4 + d / 64) = '=') = False :=
      eq_false (sextetChar_ne_eq _)
    have h3 : (sextetChar (d % 64) = '=') = False :=
      eq_false (sextetChar_ne_eq _)
    simp only [h2, h3, decide_False, Bool.false_and, Bool.and_false,
      Bool.false_eq_true, if_false]
    have e1 : a / 4 * 4 + (a % 4 * 16 + b / 16) / 16 = a := by omega
    have e2 : (a % 4 * 16 + b / 16) % 16 * 16 + (b % 16 * 4 + d / 64) / 4 = b := by
      omega
    have e3 : (b % 16 * 4 + d / 64) % 4 * 64 + d % 64 = d := by omega
    simp only [sextetVal_sextetChar (b % 16 * 4 + d / 64) (by omega),
      sextetVal_sextetChar (d % 64) (by omega),
      base64_roundtrip rest (fun x hx => h x (by simp [hx]))]
    rw [e1, e2, e3]

theorem char_toNat_lt (c : Char) : c.toNat < 0x110000 := by
  rcases c.valid with h | ⟨h1, h2⟩
  · exact lt_trans h (by norm_num)
  · exact h2

theorem utf8Cont_true (b : Nat) (h1 : 0x80 ≤ b) (h2 : b < 0xC0) :
    utf8Cont b = true := by
  rw [utf8Cont]
  simp only [Bool.and_eq_true, decide_eq_true_eq]
  exact ⟨h1, h2⟩

theorem utf8DecStep_enc (c : Char) (tail : List Nat) :
    utf8DecStep (utf8EncChar c ++ tail) = some (c, tail) := by
  have hval : c.toNat < 0x110000 := char_toNat_lt c
  by_cases h1 : c.toNat < 0x80
  · simp only [utf8EncChar, if_pos h1, List.cons_append, List.nil_append]
    rw [utf8DecStep]
    rw [if_pos h1, Char.ofNat_toNat]
  · by_cases h2 : c.toNat < 0x800
    · simp only [utf8EncChar, if_neg h1, if_pos h2, List.cons_append,
        List.nil_append]
      rw [utf8DecStep]
      rw [if_neg (by omega), if_neg (by omega), if_pos (by omega)]
      rw [utf8Dec2]
      rw [utf8Cont_true _ (by omega) (by omega)]
      simp only [if_true]
      rw [show (0xC0 + c.toNat / 64 - 0xC0) * 64 + (0x80 + c.toNat % 64 - 0x80)
        = c.toNat from by omega, Char.ofNat_toNat]
    · by_cases h3 : c.toNat < 0x10000
      · simp only [utf8EncChar, if_neg h1, if_neg h2, if_pos h3,
          List.cons_append, List.nil_append]
        rw [utf8DecStep]
        rw [if_neg (by omega), if_neg (by omega), if_neg (by omega),
          if_pos (by omega)]
        rw [utf8Dec3]
        rw [utf8Cont_true (0x80 + c.toNat / 64 % 64) (by omega) (by omega),
          utf8Cont_true (0x80 + c.toNat % 64) (by omega) (by omega)]
        simp only [Bool.and_self, if_true]
        rw [show (0xE0 + c.toNat / 4096 - 0xE0) * 4096
            + (0x80 + c.toNat / 64 % 64 - 0x80) * 64
            + (0x80 + c.toNat % 64 - 0x80) = c.toNat from by omega,
          Char.ofNat_toNat]
      · simp only [utf8EncChar, if_neg h1, if_neg h2, if_neg h3,
          List.cons_append, List.nil_append]
        rw [utf8DecStep]
        rw [if_neg (by omega), if_neg (by omega), if_neg (by omega),
          if_neg (by omega), if_pos (by omega)]
        rw [utf8Dec4]
        rw [utf8Cont_true (0x80 + c.toNat / 4096 % 64) (by omega) (by omega),
          utf8Cont_true (0x80 + c.toNat / 64 % 64) (by omega) (by omega),
          utf8Cont_true (0x80 + c.toNat % 64) (by omega) (by omega)]
        simp only [Bool.and_self, if_true]
        rw [show (0xF0 + c.toNat / 262144 - 0xF0) * 262144
            + (0x80 + c.toNat / 4096 % 64 - 0x80) * 4096
            + (0x80 + c.toNat / 64 % 64 - 0x80) * 64
            + (0x80 + c.toNat % 64 - 0x80) = c.toNat from by omega,
          Char.ofNat_toNat]

theorem utf8EncChar_ne_nil (c : Char) : utf8EncChar c ≠ [] := by
  rw [utf8EncChar]
  by_cases h1 : c.toNat < 0x80
  · rw [if_pos h1]
    exact fun h => List.noConfusion h
  · rw [if_neg h1]
    by_cases h2 : c.toNat < 0x800
    · rw [if_pos h2]
      exact fun h => List.noConfusion h
    · rw [if_neg h2]
      by_cases h3 : c.toNat < 0x10000
      · rw [if_pos h3]
        exact fun h => List.noConfusion h
      · rw [if_neg h3]
        exact fun h => List.noConfusion h

theorem utf8DecAux_enc : ∀ (l : List Char) (fuel : Nat), l.length ≤ fuel →
    utf8DecAux fuel (utf8Enc l) = some l
  | [], fuel, _ => by
    rw [show utf8Enc [] = [] from rfl]
    cases fuel <;> rfl
  | c :: rest, fuel, h => by
    have hlen : rest.length + 1 ≤ fuel := by simpa using h
    obtain ⟨fuel2, rfl⟩ : ∃ f2, fuel = f2 + 1 :=
      ⟨fuel - 1, by omega⟩
    rw [show utf8Enc (c :: rest) = utf8EncChar c ++ utf8Enc rest from rfl]
    rcases hE : utf8EncChar c with _ | ⟨b, bs⟩
    · exact absurd hE (utf8EncChar_ne_nil c)
    · rw [List.cons_append, utf8DecAux]
      rw [show b :: (bs ++ utf8Enc rest) = utf8EncChar c ++ utf8Enc rest from
        by rw [hE, List.cons_append]]
      rw [utf8DecStep_enc c (utf8Enc rest)]
      simp only [utf8DecAux_enc rest fuel2 (by omega)]
      exact fun h => List.noConfusion h

theorem utf8_roundtrip (l : List Char) : utf8Dec (utf8Enc l) = some l := by
  rw [utf8Dec]
  apply utf8DecAux_enc
  induction l with
  | nil => simp [utf8Enc]
  | cons c rest ih =>
    rw [show utf8Enc (c :: rest) = utf8EncChar c ++ utf8Enc rest from rfl]
    rcases hE : utf8EncChar c with _ | ⟨b, bs⟩
    · exact absurd hE (utf8EncChar_ne_nil c)
    · simp only [List.length_cons, List.length_append]
      omega

theorem natDigitsAux_lt10 : ∀ (fuel n : Nat), ∀ d ∈ natDigitsAux fuel n, d < 10
  | 0, n => by intro d hd; cases hd
  | fuel + 1, n => by
    intro d hd
    rw [natDigitsAux] at hd
    by_cases h : n = 0
    · rw [if_pos h] at hd; cases hd
    · rw [if_neg h] at hd
      rcases List.mem_cons.mp hd with h1 | h1
      · subst h1; exact Nat.mod_lt _ (by omega)
      · exact natDigitsAux_lt10 fuel (n / 10) d h1

theorem digitChar_isDigit : ∀ d < 10, (Char.ofNat (48 + d)).isDigit = true := by
  decide

theorem digitChar_toNat : ∀ d < 10, (Char.ofNat (48 + d)).toNat = 48 + d := by
  decide

theorem natDecimal_digits (n : Nat) : ∀ c ∈ natDecimal n, c.isDigit = true := by
  intro c hc
  rw [natDecimal] at hc
  by_cases h : n = 0
  · rw [if_pos h] at hc
    rcases List.mem_singleton.mp hc with rfl
    decide
  · rw [if_neg h] at hc
    rcases List.mem_map.mp hc with ⟨d, hd, rfl⟩
    exact digitChar_isDigit d
      (natDigitsAux_lt10 n n d (List.mem_reverse.mp hd))

theorem natDecimal_ne_nil (n : Nat) : natDecimal n ≠ [] := by
  rw [natDecimal]
  by_cases h : n = 0
  · rw [if_pos h]
    exact fun hh => List.noConfusion hh
  · rw [if_neg h]
    obtain ⟨f, rfl⟩ : ∃ f, n = f + 1 := ⟨n - 1, by omega⟩
    rw [natDigitsAux, if_neg h]
    simp

theorem parseDigits_rev : ∀ (fuel n acc : Nat), n ≤ fuel →
    List.foldl (fun a c => a * 10 + (c.toNat - 48)) acc
      ((natDigitsAux fuel n).reverse.map (fun d => Char.ofNat (48 + d)))
    = acc * 10 ^ (natDigitsAux fuel n).length + n
  | 0, n, acc, h => by
    have : n = 0 := by omega
    subst this
    simp [natDigitsAux]
  | fuel + 1, n, acc, h => by
    by_cases h0 : n = 0
    · subst h0
      simp [natDigitsAux]
    · rw [natDigitsAux, if_neg h0]
      have ih := parseDigits_rev fuel (n / 10) acc (by omega)
      simp only [List.reverse_cons, List.map_append, List.foldl_append, ih,
        List.map_cons, List.map_nil, List.foldl_cons, List.foldl_nil,
        List.length_cons]
      rw [digitChar_toNat (n % 10) (Nat.mod_lt _ (by omega))]
      have hq : (acc * 10 ^ (natDigitsAux fuel (n / 10)).length + n / 10) * 10
          + (48 + n % 10 - 48)
          = acc * (10 ^ (natDigitsAux fuel (n / 10)).length * 10)
            + (n / 10 * 10 + n % 10) := by
        have : 48 + n % 10 - 48 = n % 10 := by omega
        rw [this]
        ring
      rw [hq, ← pow_succ]
      have : n / 10 * 10 + n % 10 = n := by omega
      rw [this]

theorem parseDigits_natDecimal (n : Nat) : parseDigits (natDecimal n) = n := by
  rw [parseDigits, natDecimal]
  by_cases h : n = 0
  · rw [if_pos h]
    subst h
    decide
  · rw [if_neg h]
    have := parseDigits_rev n n 0 (le_refl n)
    simpa using this

theorem parseNatPre_natDecimal (n : Nat) (t0 : Char) (ts : List Char)
    (ht : t0.isDigit = false) :
    parseNatPre (natDecimal n ++ t0 :: ts) = some (n, t0 :: ts) := by
  simp only [parseNatPre]
  rw [takeWhile_append_stop Char.isDigit (natDecimal n) t0 ts
    (natDecimal_digits n) ht]
  have hne : (natDecimal n).isEmpty = false := by
    rcases hE : natDecimal n with _ | ⟨c, cs⟩
    · exact absurd hE (natDecimal_ne_nil n)
    · rfl
  simp only [hne, Bool.false_eq_true, if_false]
  rw [List.drop_left, parseDigits_natDecimal]

theorem safeStr_spec (s : String) (h : safeStr s = true) :
    ∀ c ∈ s.toList, c ≠ '"' ∧ c ≠ '\\' ∧ 0x20 ≤ c.toNat := by
  intro c hc
  rw [safeStr, List.all_eq_true] at h
  have hx := h c hc
  simp only [Bool.and_eq_true, bne_iff_ne, decide_eq_true_eq] at hx
  exact ⟨hx.1.1, hx.1.2, hx.2⟩

theorem jsonEscapeChar_safe (c : Char) (h1 : c ≠ '"') (h2 : c ≠ '\\')
    (h3 : 0x20 ≤ c.toNat) : jsonEscapeChar c = [c] := by
  rw [jsonEscapeChar]
  rw [if_neg h1, if_neg h2,
    if_neg (by intro he; subst he; exact absurd h3 (by decide)),
    if_neg (by intro he; subst he; exact absurd h3 (by decide)),
    if_neg (by intro he; subst he; exact absurd h3 (by decide)),
    if_neg (by intro he; subst he; exact absurd h3 (by decide)),
    if_neg (by intro he; subst he; exact absurd h3 (by decide)),
    if_neg (by omega)]

theorem foldr_escape_safe : ∀ l : List Char,
    (∀ c ∈ l, c ≠ '"' ∧ c ≠ '\\' ∧ 0x20 ≤ c.toNat) →
    l.foldr (fun c acc => jsonEscapeChar c ++ acc) [] = l
  | [], _ => rfl
  | c :: cs, hs => by
    rw [List.foldr_cons]
    rw [foldr_escape_safe cs (fun c' hc' => hs c' (List.mem_cons_of_mem _ hc'))]
    obtain ⟨hc1, hc2, hc3⟩ := hs c (by simp)
    rw [jsonEscapeChar_safe c hc1 hc2 hc3]
    rfl

theorem jsonString_safe (s : String) (h : safeStr s = true) :
    jsonString s = '"' :: (s.toList ++ ['"']) := by
  rw [jsonString]
  rw [foldr_escape_safe s.toList (safeStr_spec s h)]
  rw [List.cons_append]

theorem parseStringPre_safe (s : String) (tail : List Char)
    (h : safeStr s = true) :
    parseStringPre ('"' :: (s.toList ++ '"' :: tail)) = some (s, tail) := by
  rw [parseStringPre]
  have htw : (s.toList ++ '"' :: tail).takeWhile (fun c => c != '"')
      = s.toList := by
    apply takeWhile_append_stop
    · intro c hc
      have := (safeStr_spec s h c hc).1
      simp [this]
    · simp
  rw [htw, List.drop_left]
  show some (String.mk s.toList, tail) = some (s, tail)
  rw [mk_toList]

theorem stackItemJson_cons (it : StackItem) : stackItemJson it
    = '\x7b' :: ("\"bookmark_name\":".toList ++ jsonString it.bookmark_name
        ++ ",\"pr_url\":".toList ++ jsonString it.pr_url
        ++ ",\"pr_number\":".toList ++ natDecimal it.pr_number
        ++ "\x7d".toList) := by
  rw [stackItemJson]
  rw [show ("\x7b\"bookmark_name\":".toList : List Char)
    = '\x7b' :: "\"bookmark_name\":".toList from rfl]
  simp [List.append_assoc]

theorem parseItemPre_json (it : StackItem) (tail : List Char)
    (hbn : safeStr it.bookmark_name = true) (hurl : safeStr it.pr_url = true) :
    parseItemPre (stackItemJson it ++ tail) = some (it, tail) := by
  simp only [parseItemPre, stackItemJson, List.append_assoc]
  simp only [dropPre_append, jsonString_safe _ hbn, jsonString_safe _ hurl,
    List.cons_append, List.append_assoc, List.singleton_append,
    List.nil_append, parseStringPre_safe _ _ hbn, parseStringPre_safe _ _ hurl]
  rw [show ("\x7d".toList : List Char) ++ tail = '\x7d' :: tail from rfl]
  have hdrop : dropPre "\x7d".toList ('\x7d' :: tail) = some tail := by
    rw [show ('\x7d' : Char) :: tail = "\x7d".toList ++ tail from rfl,
      dropPre_append]
  simp only [parseNatPre_natDecimal it.pr_number '\x7d' tail (by decide), hdrop]

theorem stackItemJson_head (it : StackItem) :
    (stackItemJson it ++ tail).head? = some '\x7b' := by
  rw [stackItemJson_cons]
  rfl

theorem parseItemsPre_json :
    ∀ (items : List StackItem) (fuel : Nat) (ts : List Char),
    (∀ i ∈ items, safeStr i.bookmark_name = true ∧ safeStr i.pr_url = true) →
    items.length < fuel + 1 →
    parseItemsPre (fuel + 1)
      (joinChar ',' (items.map stackItemJson) ++ ']' :: ts)
    = some (items, ']' :: ts)
  | [], fuel, ts, _, _ => by
    rw [show joinChar ',' (List.map stackItemJson []) = [] from rfl,
      List.nil_append, parseItemsPre]
    rw [if_pos (show ((']' : Char) :: ts).head? = some ']' from rfl)]
  | [it], fuel, ts, hsafe, _ => by
    rw [show joinChar ',' (List.map stackItemJson [it]) = stackItemJson it
      from rfl]
    rw [parseItemsPre]
    rw [if_neg (by rw [stackItemJson_head]; decide)]
    obtain ⟨h1, h2⟩ := hsafe it (by simp)
    simp only [parseItemPre_json it (']' :: ts) h1 h2]
    rw [if_neg (by simp)]
  | it :: it2 :: more, fuel, ts, hsafe, hfuel => by
    rw [show joinChar ',' (List.map stackItemJson (it :: it2 :: more))
      = stackItemJson it
        ++ ',' :: joinChar ',' (List.map stackItemJson (it2 :: more))
      from rfl]
    rw [parseItemsPre]
    rw [if_neg (by rw [List.append_assoc, stackItemJson_head]; decide)]
    obtain ⟨h1, h2⟩ := hsafe it (by simp)
    rw [List.append_assoc]
    simp only [List.cons_append] at *
    simp only [parseItemPre_json it _ h1 h2]
    rw [if_pos (show (',' :: (joinChar ',' (List.map stackItemJson
      (it2 :: more)) ++ ']' :: ts)).head? = some ',' from rfl)]
    have hf : more.length + 1 < fuel := by simpa using hfuel
    obtain ⟨f2, rfl⟩ : ∃ f2, fuel = f2 + 1 := ⟨fuel - 1, by omega⟩
    rw [show (',' :: (joinChar ',' (List.map stackItemJson (it2 :: more))
        ++ ']' :: ts)).tail
      = joinChar ',' (List.map stackItemJson (it2 :: more)) ++ ']' :: ts
      from rfl]
    rw [parseItemsPre_json (it2 :: more) f2 ts
      (fun i hi => hsafe i (List.mem_cons_of_mem _ hi))
      (by simp; omega)]

theorem utf8EncChar_lt256 (c : Char) : ∀ b ∈ utf8EncChar c, b < 256 := by
  have hval : c.toNat < 0x110000 := char_toNat_lt c
  intro b hb
  rw [utf8EncChar] at hb
  by_cases h1 : c.toNat < 0x80
  · rw [if_pos h1] at hb
    rcases List.mem_singleton.mp hb with rfl
    omega
  · rw [if_neg h1] at hb
    by_cases h2 : c.toNat < 0x800
    · rw [if_pos h2] at hb
      simp only [List.mem_cons, List.not_mem_nil, or_false] at hb
      rcases hb with rfl | rfl <;> omega
    · rw [if_neg h2] at hb
      by_cases h3 : c.toNat < 0x10000
      · rw [if_pos h3] at hb
        simp only [List.mem_cons, List.not_mem_nil, or_false] at hb
        rcases hb with rfl | rfl | rfl <;> omega
      · rw [if_neg h3] at hb
        simp only [List.mem_cons, List.not_mem_nil, or_false] at hb
        rcases hb with rfl | rfl | rfl | rfl <;> omega

theorem utf8Enc_lt256 : ∀ (l : List Char), ∀ b ∈ utf8Enc l, b < 256
  | [], b, hb => by cases hb
  | c :: rest, b, hb => by
    rw [show utf8Enc (c :: rest) = utf8EncChar c ++ utf8Enc rest from rfl] at hb
    rcases List.mem_append.mp hb with h | h
    · exact utf8EncChar_lt256 c b h
    · exact utf8Enc_lt256 rest b h

theorem stackItemJson_length_pos (it : StackItem) :
    0 < (stackItemJson it).length := by
  rw [stackItemJson_cons]
  simp

theorem joinChar_length_ge : ∀ (xs : List (List Char)),
    (∀ x ∈ xs, 0 < x.length) → xs.length ≤ (joinChar ',' xs).length + 1
  | [], _ => by simp [joinChar]
  | [x], h => by
    rw [show joinChar ',' [x] = x from rfl]
    have := h x (by simp)
    simp
  | x :: y :: t, h => by
    rw [show joinChar ',' (x :: y :: t) = x ++ ',' :: joinChar ',' (y :: t)
      from rfl]
    have hrec := joinChar_length_ge (y :: t)
      (fun z hz => h z (List.mem_cons_of_mem _ hz))
    have hx := h x (by simp)
    simp only [List.length_cons, List.length_append] at hrec ⊢
    omega

theorem parseStackData_json (d : StackCommentData)
    (hsafe : ∀ i ∈ d.stack, safeStr i.bookmark_name = true
      ∧ safeStr i.pr_url = true) :
    parseStackData (stackDataJson d) = some d := by
  rw [parseStackData]
  simp only [stackDataJson, List.append_assoc]
  simp only [dropPre_append]
  rw [show (",\"stack\":[".toList : List Char)
      ++ (joinChar ',' (d.stack.map stackItemJson) ++ "]\x7d".toList)
    = ',' :: ("\"stack\":[".toList
      ++ (joinChar ',' (d.stack.map stackItemJson) ++ "]\x7d".toList))
    from rfl]
  simp only [parseNatPre_natDecimal d.version ',' _ (by decide)]
  have hdrop : dropPre ",\"stack\":[".toList
      (',' :: ("\"stack\":[".toList
        ++ (joinChar ',' (d.stack.map stackItemJson) ++ "]\x7d".toList)))
      = some (joinChar ',' (d.stack.map stackItemJson) ++ "]\x7d".toList) := by
    rw [show ',' :: ("\"stack\":[".toList
        ++ (joinChar ',' (d.stack.map stackItemJson) ++ "]\x7d".toList))
      = ",\"stack\":[".toList
        ++ (joinChar ',' (d.stack.map stackItemJson) ++ "]\x7d".toList)
      from rfl, dropPre_append]
  simp only [hdrop]
  rw [show ("]\x7d".toList : List Char) = ']' :: ['\x7d'] from rfl]
  have hlen : ∃ f, (joinChar ',' (d.stack.map stackItemJson)
      ++ ']' :: ['\x7d']).length = f + 1 ∧ d.stack.length < f + 1 := by
    have hj := joinChar_length_ge (d.stack.map stackItemJson)
      (by intro x hx
          rcases List.mem_map.mp hx with ⟨i, _, rfl⟩
          exact stackItemJson_length_pos i)
    simp only [List.length_map] at hj
    refine ⟨(joinChar ',' (d.stack.map stackItemJson)).length + 1, ?_, ?_⟩
    · simp
    · omega
  obtain ⟨f, hf1, hf2⟩ := hlen
  rw [hf1]
  rw [parseItemsPre_json d.stack f ['\x7d']
    (fun i hi => hsafe i hi) (by omega)]
  rfl

theorem toList_mk (l : List Char) : (String.mk l).toList = l := rfl

theorem decode_stack_comment_marker (data : StackCommentData)
    (restL : List Char)
    (hsafe : ∀ i ∈ data.stack, safeStr i.bookmark_name = true
      ∧ safeStr i.pr_url = true) :
    decode_stack_comment (String.mk (COMMENT_DATA_HEAD.toList
      ++ (base64Encode (utf8Enc (stackDataJson data))
        ++ (COMMENT_DATA_TAIL.toList ++ restL)))) = some data := by
  rw [decode_stack_comment]
  simp only [toList_mk]
  rw [show (COMMENT_DATA_HEAD.toList : List Char)
    = '<' :: "!--- JJ-RYU_STACK: ".toList from rfl]
  have hb1 := breakOnSub_first '<' "!--- JJ-RYU_STACK: ".toList []
    (base64Encode (utf8Enc (stackDataJson data))
      ++ (COMMENT_DATA_TAIL.toList ++ restL))
    (by intro c hc; cases hc)
  rw [List.nil_append] at hb1
  simp only [hb1]
  rw [show (COMMENT_DATA_TAIL.toList : List Char)
    = ' ' :: "--->".toList from rfl]
  have hb2 := breakOnSub_first ' ' "--->".toList
    (base64Encode (utf8Enc (stackDataJson data))) restL
    (fun c hc => base64Encode_chars _ c hc)
  rw [List.append_assoc] at hb2
  simp only [hb2]
  simp only [base64_roundtrip (utf8Enc (stackDataJson data))
    (utf8Enc_lt256 (stackDataJson data)), utf8_roundtrip (stackDataJson data)]
  exact parseStackData_json data hsafe

theorem decode_stack_comment_roundtrip (data : StackCommentData) (idx : Nat)
    (hsafe : ∀ i ∈ data.stack, safeStr i.bookmark_name = true
      ∧ safeStr i.pr_url = true) :
    decode_stack_comment (stack_comment_body data idx) = some data := by
  rw [stack_comment_body]
  rw [show (COMMENT_DATA_HEAD.toList : List Char)
      ++ base64Encode (utf8Enc (stackDataJson data))
      ++ COMMENT_DATA_TAIL.toList
      ++ '\n' :: (stackBullets data idx ++ stackFooter)
    = COMMENT_DATA_HEAD.toList
      ++ (base64Encode (utf8Enc (stackDataJson data))
        ++ (COMMENT_DATA_TAIL.toList
          ++ ('\n' :: (stackBullets data idx ++ stackFooter))))
    from by simp [List.append_assoc]]
  exact decode_stack_comment_marker data _ hsafe

theorem foldr_lines {α : Type} (f : α → List Char) :
    ∀ l : List α, l.foldr (fun p acc => f p ++ '\n' :: acc) []
      = l.flatMap (fun p => f p ++ ['\n'])
  | [] => rfl
  | x :: t => by
    rw [List.foldr_cons, foldr_lines f t, List.flatMap_cons]
    simp

theorem stackBullets_flatMap (data : StackCommentData) (idx : Nat) :
    stackBullets data idx = data.stack.reverse.enum.flatMap
      (fun p => stackBulletLine (data.stack.length - 1 - idx) p ++ ['\n']) := by
  rw [stackBullets]
  exact foldr_lines _ _

theorem enumFrom_filter_idx {α : Type} :
    ∀ (l : List α) (n k : Nat),
    ((List.enumFrom n l).filter (fun p => p.1 = k)).length
      = if n ≤ k ∧ k < n + l.length then 1 else 0
  | [], n, k => by
    simp only [List.enumFrom_nil, List.filter_nil, List.length_nil]
    rw [if_neg (by omega)]
  | a :: t, n, k => by
    rw [List.enumFrom_cons, List.filter_cons]
    by_cases h : n = k
    · subst h
      simp only [decide_True, if_true]
      rw [List.length_cons, enumFrom_filter_idx t (n + 1) n]
      rw [if_neg (by omega), if_pos (by simp only [List.length_cons]; omega)]
    · simp only [decide_eq_true_eq, h, if_false]
      rw [enumFrom_filter_idx t (n + 1) k]
      by_cases h2 : n + 1 ≤ k ∧ k < n + 1 + t.length
      · rw [if_pos h2, if_pos (by simp only [List.length_cons]; omega)]
      · rw [if_neg h2, if_neg (by simp only [List.length_cons]; omega)]

theorem enum_filter_idx {α : Type} (l : List α) (k : Nat) :
    (l.enum.filter (fun p => p.1 = k)).length
      = if k < l.length then 1 else 0 := by
  rw [List.enum, enumFrom_filter_idx l 0 k]
  by_cases h : k < l.length
  · rw [if_pos (by omega), if_pos h]
  · rw [if_neg (by omega), if_neg h]

theorem listInfix_self_append (c : Char) (cs r : List Char) :
    listInfix (c :: cs) ((c :: cs) ++ r) = true := by
  rw [List.cons_append, listInfix]
  rw [show c :: (cs ++ r) = (c :: cs) ++ r from rfl,
    isPrefixOf_append_self]
  rfl

theorem body_contains_marker (data : StackCommentData) (idx : Nat) :
    containsSub (stack_comment_body data idx) COMMENT_DATA_HEAD = true := by
  rw [containsSub, stack_comment_body]
  simp only [toList_mk]
  rw [show (COMMENT_DATA_HEAD.toList : List Char)
    = '<' :: "!--- JJ-RYU_STACK: ".toList from rfl]
  rw [show ('<' :: "!--- JJ-RYU_STACK: ".toList)
      ++ base64Encode (utf8Enc (stackDataJson data))
      ++ COMMENT_DATA_TAIL.toList
      ++ '\n' :: (stackBullets data idx ++ stackFooter)
    = ('<' :: "!--- JJ-RYU_STACK: ".toList)
      ++ (base64Encode (utf8Enc (stackDataJson data))
        ++ (COMMENT_DATA_TAIL.toList
          ++ '\n' :: (stackBullets data idx ++ stackFooter)))
    from by simp [List.append_assoc]]
  exact listInfix_self_append _ _ _

theorem create_or_update_spec {σ : Type} (platform : PlatformService σ)
    (data : StackCommentData) (idx n : Nat) (s : σ)
    (comments : List PrComment)
    (hlist : platform.list_pr_comments n s = (.ok comments, s)) :
    (comments.find? (fun c => containsSub c.body COMMENT_DATA_HEAD
        || containsSub c.body COMMENT_DATA_HEAD_OLD) = none →
      create_or_update_stack_comment platform data idx n s
        = platform.create_pr_comment n (stack_comment_body data idx) s)
    ∧ (∀ cm, comments.find? (fun c => containsSub c.body COMMENT_DATA_HEAD
        || containsSub c.body COMMENT_DATA_HEAD_OLD) = some cm →
      create_or_update_stack_comment platform data idx n s
        = platform.update_pr_comment n cm.id (stack_comment_body data idx) s) := by
  constructor
  · intro hnone
    rw [create_or_update_stack_comment]
    simp only [hlist, hnone]
  · intro cm hsome
    rw [create_or_update_stack_comment]
    simp only [hlist, hsome]

/-- Claim C7: the stack navigation comment.  (1) For payload strings that
serialise verbatim (no quote, backslash or control characters), the base64
JSON marker of the body built for position `idx` decodes back to exactly the
`StackCommentData` (stack in plan root→leaf order).  (2) The body is the
marker line followed by one bullet line per stack item in reverse (leaf-first)
order, the line at reversed position `|stack|-1-idx` carrying the 👈 marker
and every other line the plain link form, then the footer.  (3) For
`idx < |stack|` exactly one reversed position carries the marker.  (4)}  The
body always contains the current marker (so a created comment is found and
updated next time).  (5) With the PR's comments listed, the first comment
containing either the current or the old marker is updated in place;
when none contains either, a new comment is created. -/
theorem C7_stack_comment :
    (∀ (data : StackCommentData) (idx : Nat),
      (∀ i ∈ data.stack, safeStr i.bookmark_name = true
        ∧ safeStr i.pr_url = true) →
      decode_stack_comment (stack_comment_body data idx) = some data)
    ∧ (∀ (data : StackCommentData) (idx : Nat),
      stack_comment_body data idx = String.mk (COMMENT_DATA_HEAD.toList
        ++ base64Encode (utf8Enc (stackDataJson data))
        ++ COMMENT_DATA_TAIL.toList
        ++ '\n' :: (data.stack.reverse.enum.flatMap
            (fun p => stackBulletLine (data.stack.length - 1 - idx) p ++ ['\n'])
          ++ stackFooter)))
    ∧ (∀ (data : StackCommentData) (idx : Nat), idx < data.stack.length →
      (data.stack.reverse.enum.filter
        (fun p => p.1 = data.stack.length - 1 - idx)).length = 1)
    ∧ (∀ (data : StackCommentData) (idx : Nat),
      containsSub (stack_comment_body data idx) COMMENT_DATA_HEAD = true)
    ∧ (∀ (σ : Type) (platform : PlatformService σ) (data : StackCommentData)
        (idx n : Nat) (s : σ) (comments : List PrComment),
      platform.list_pr_comments n s = (.ok comments, s) →
      (comments.find? (fun c => containsSub c.body COMMENT_DATA_HEAD
          || containsSub c.body COMMENT_DATA_HEAD_OLD) = none →
        create_or_update_stack_comment platform data idx n s
          = platform.create_pr_comment n (stack_comment_body data idx) s)
      ∧ (∀ cm, comments.find? (fun c => containsSub c.body COMMENT_DATA_HEAD
          || containsSub c.body COMMENT_DATA_HEAD_OLD) = some cm →
        create_or_update_stack_comment platform data idx n s
          = platform.update_pr_comment n cm.id
              (stack_comment_body data idx) s)) := by
  refine ⟨?_, ?_, ?_, ?_, ?_⟩
  · intro data idx hsafe
    exact decode_stack_comment_roundtrip data idx hsafe
  · intro data idx
    rw [stack_comment_body, stackBullets_flatMap]
  · intro data idx h
    rw [enum_filter_idx data.stack.reverse (data.stack.length - 1 - idx)]
    rw [List.length_reverse, if_pos (by omega)]
  · intro data idx
    exact body_contains_marker data idx
  · intro σ platform data idx n s comments hlist
    exact create_or_update_spec platform data idx n s comments hlist

theorem C7_witness :
    decode_stack_comment (stack_comment_body dataW7 1) = some dataW7
    ∧ (dataW7.stack.reverse.enum.filter
        (fun p => p.1 = dataW7.stack.length - 1 - 1)).length = 1
    ∧ create_or_update_stack_comment (constPlatform (fun _ => .ok none))
        dataW7 1 5 ()
      = (constPlatform (fun _ => .ok none)).create_pr_comment 5
          (stack_comment_body dataW7 1) () :=
  ⟨C7_stack_comment.1 dataW7 1 (by decide),
   C7_stack_comment.2.2.1 dataW7 1 (by decide),
   (C7_stack_comment.2.2.2.2 Unit (constPlatform (fun _ => .ok none))
     dataW7 1 5 () [] rfl).1 rfl⟩

/-! ## Graph-builder lemmas and claims C1, C2, C3 -/

theorem contains_iff_mem (s : List String) (x : String) :
    s.contains x = true ↔ x ∈ s := by
  simp [List.contains_iff_exists_mem_beq, beq_iff_eq, eq_comm]

theorem mem_setInsert_iff (s : List String) (x y : String) :
    y ∈ setInsert s x ↔ y = x ∨ y ∈ s := by
  rw [setInsert]
  by_cases h : s.contains x
  · rw [if_pos h]
    constructor
    · exact fun hy => Or.inr hy
    · rintro (rfl | hy)
      · exact (contains_iff_mem s y).mp h
      · exact hy
  · rw [if_neg h]
    simp [or_comm]

theorem foldl_setInsert_mem_iff : ∀ (l : List String) (acc : List String)
    (x : String), x ∈ l.foldl setInsert acc ↔ x ∈ acc ∨ x ∈ l
  | [], acc, x => by simp
  | a :: t, acc, x => by
    rw [List.foldl_cons, foldl_setInsert_mem_iff t _ x, mem_setInsert_iff]
    simp [or_comm, or_assoc]
    tauto

theorem mapFind_mem {α : Type} (m : List (String × α)) (k : String) (v : α)
    (h : mapFind m k = some v) : (k, v) ∈ m := by
  rw [mapFind] at h
  rcases hf : m.find? (fun p => p.1 == k) with _ | p
  · rw [hf] at h
    cases h
  · rw [hf] at h
    have hm := List.mem_of_find?_eq_some hf
    have hp := List.find?_some hf
    simp only [beq_iff_eq] at hp
    cases h
    rcases p with ⟨k', v'⟩
    simp only at hp
    subst hp
    exact hm

theorem mapFind_isSome_insert {α : Type} (m : List (String × α))
    (k k' : String) (v : α) (h : (mapFind m k').isSome = true) :
    (mapFind (mapInsert m k v) k').isSome = true := by
  by_cases he : k' = k
  · subst he
    rw [mapFind_insert_self]
    rfl
  · rw [mapFind_insert_ne m k k' v he]
    exact h

theorem mapFind_foldl_insert_isSome {α β : Type} (f : β → String)
    (g : β → α) :
    ∀ (names : List β) (m : List (String × α)) (n : String),
    (mapFind (names.foldl (fun m' b => mapInsert m' (f b) (g b)) m) n).isSome
      = true ↔ (mapFind m n).isSome = true ∨ n ∈ names.map f
  | [], m, n => by simp
  | b :: t, m, n => by
    rw [List.foldl_cons, mapFind_foldl_insert_isSome f g t _ n]
    constructor
    · rintro (h | h)
      · by_cases he : n = f b
        · exact Or.inr (by simp [he])
        · rw [mapFind_insert_ne m (f b) n (g b) he] at h
          exact Or.inl h
      · exact Or.inr (by simp only [List.map_cons, List.mem_cons]; tauto)
    · rintro (h | h)
      · exact Or.inl (mapFind_isSome_insert m (f b) n (g b) h)
      · rcases List.mem_map.mp h with ⟨b', hb', rfl⟩
        rcases List.mem_cons.mp hb' with rfl | hb'
        · by_cases ht : f b' ∈ t.map f
          · exact Or.inr ht
          · left
            rw [mapFind_insert_self]
            rfl
        · exact Or.inr (List.mem_map.mpr ⟨b', hb', rfl⟩)

theorem taintScan_none : ∀ (tainted seen : List String) (l : List LogEntry),
    taintScan tainted seen l = none →
    ∀ c ∈ l, (1 < c.parents.length || tainted.contains c.change_id) = false
  | tainted, seen, [], _, c, hc => by cases hc
  | tainted, seen, c0 :: rest, h, c, hc => by
    rw [taintScan] at h
    by_cases hoff : (1 < c0.parents.length || tainted.contains c0.change_id)
      = true
    · rw [if_pos hoff] at h
      cases h
    · rw [if_neg hoff] at h
      rcases List.mem_cons.mp hc with rfl | hc
      · exact Bool.not_eq_true _ ▸ (Bool.eq_false_iff.mpr hoff)
      · exact taintScan_none tainted _ rest h c hc

theorem taintScan_some_spec (tainted : List String) (c : LogEntry)
    (hoff : (1 < c.parents.length || tainted.contains c.change_id) = true) :
    ∀ (pre : List LogEntry) (seen : List String) (post : List LogEntry),
    (∀ x ∈ pre, (1 < x.parents.length || tainted.contains x.change_id) = false) →
    taintScan tainted seen (pre ++ c :: post)
      = some (seen ++ (pre ++ [c]).map (fun e => e.change_id))
  | [], seen, post, _ => by
    rw [List.nil_append, taintScan, if_pos hoff]
    rfl
  | p :: pre, seen, post, hpre => by
    rw [List.cons_append, taintScan,
      if_neg (by rw [hpre p (by simp)]; exact fun h => Bool.noConfusion h)]
    rw [taintScan_some_spec tainted c hoff pre _ post
      (fun x hx => hpre x (List.mem_cons_of_mem _ hx))]
    simp

theorem exists_first_split {α : Type} (p : α → Bool) :
    ∀ (l : List α), (∃ x ∈ l, p x = true) →
    ∃ pre c post, l = pre ++ c :: post ∧ (∀ x ∈ pre, p x = false)
      ∧ p c = true
  | [], h => by
    rcases h with ⟨x, hx, _⟩
    cases hx
  | a :: t, h => by
    by_cases ha : p a = true
    · exact ⟨[], a, t, rfl, by simp, ha⟩
    · have : ∃ x ∈ t, p x = true := by
        rcases h with ⟨x, hx, hpx⟩
        rcases List.mem_cons.mp hx with rfl | hx
        · exact absurd hpx ha
        · exact ⟨x, hx, hpx⟩
      rcases exists_first_split p t this with ⟨pre, c, post, rfl, hpre, hc⟩
      exact ⟨a :: pre, c, post, rfl, by
        intro x hx
        rcases List.mem_cons.mp hx with rfl | hx
        · exact Bool.eq_false_iff.mpr ha
        · exact hpre x hx, hc⟩

theorem mem_entriesOf (ws : JjWorkspace) (b : Bookmark) (c : LogEntry)
    (hb : b ∈ ws.local_bookmarks) (hc : c ∈ ws.revset b.commit_id) :
    c ∈ entriesOf ws := by
  rw [entriesOf]
  rw [List.mem_flatten]
  exact ⟨ws.revset b.commit_id, List.mem_map.mpr ⟨b, hb, rfl⟩, hc⟩

theorem storeSegment_nil (st : BuildState) (seg : RawSegment)
    (h : seg.changes = []) : storeSegment st seg = st := by
  rw [storeSegment, h]

theorem storeSegment_cons (st : BuildState) (seg : RawSegment) (c : LogEntry)
    (cs : List LogEntry) (h : seg.changes = c :: cs) :
    storeSegment st seg = { st with
      bookmarked_change_id_to_segment :=
        mapInsert st.bookmarked_change_id_to_segment c.change_id seg.changes,
      bookmark_to_change_id :=
        seg.bookmark_names.foldl (fun m n => mapInsert m n c.change_id)
          st.bookmark_to_change_id,
      fully_collected_bookmarks :=
        seg.bookmark_names.foldl setInsert st.fully_collected_bookmarks } := by
  rw [storeSegment, h]

theorem storeSegment_frame (st : BuildState) (seg : RawSegment) :
    (storeSegment st seg).tainted_change_ids = st.tainted_change_ids
    ∧ (storeSegment st seg).total_excluded_bookmark_count
        = st.total_excluded_bookmark_count
    ∧ (storeSegment st seg).bookmarked_change_adjacency_list
        = st.bookmarked_change_adjacency_list
    ∧ (storeSegment st seg).stack_roots = st.stack_roots := by
  rcases h : seg.changes with _ | ⟨c, cs⟩
  · rw [storeSegment_nil st seg h]
    exact ⟨rfl, rfl, rfl, rfl⟩
  · rw [storeSegment_cons st seg c cs h]
    exact ⟨rfl, rfl, rfl, rfl⟩

theorem foldlStore_frame : ∀ (segs : List RawSegment) (st : BuildState),
    (segs.foldl storeSegment st).tainted_change_ids = st.tainted_change_ids
    ∧ (segs.foldl storeSegment st).total_excluded_bookmark_count
        = st.total_excluded_bookmark_count
    ∧ (segs.foldl storeSegment st).bookmarked_change_adjacency_list
        = st.bookmarked_change_adjacency_list
    ∧ (segs.foldl storeSegment st).stack_roots = st.stack_roots
  | [], st => ⟨rfl, rfl, rfl, rfl⟩
  | s :: t, st => by
    rw [List.foldl_cons]
    obtain ⟨h1, h2, h3, h4⟩ := foldlStore_frame t (storeSegment st s)
    obtain ⟨g1, g2, g3, g4⟩ := storeSegment_frame st s
    exact ⟨h1.trans g1, h2.trans g2, h3.trans g3, h4.trans g4⟩

theorem pushCurrent_append (a b : List RawSegment) (cur : Option RawSegment) :
    pushCurrent (a ++ b) cur = a ++ pushCurrent b cur := by
  cases cur <;> simp [pushCurrent]

theorem segmentLoop_frame : ∀ (l : List LogEntry) (fully : List String)
    (segments : List RawSegment) (current : Option RawSegment),
    segmentLoop fully segments current l
      = (segments ++ (segmentLoop fully [] current l).1,
         (segmentLoop fully [] current l).2)
  | [], fully, segments, current => by
    rw [segmentLoop, segmentLoop]
    rw [show pushCurrent segments current
      = segments ++ pushCurrent [] current from by
        cases current <;> simp [pushCurrent]]
  | c :: rest, fully, segments, current => by
    rw [segmentLoop, segmentLoop]
    by_cases hemp : c.local_bookmarks.isEmpty = true
    · rw [if_pos hemp, if_pos hemp]
      rw [segmentLoop_frame rest fully segments _]
    · rw [if_neg hemp, if_neg hemp]
      by_cases hany : c.local_bookmarks.any fully.contains = true
      · rw [if_pos hany, if_pos hany]
        rw [show pushCurrent segments current
          = segments ++ pushCurrent [] current from by
            cases current <;> simp [pushCurrent]]
      · rw [if_neg hany, if_neg hany]
        rw [segmentLoop_frame rest fully (pushCurrent segments current) _,
          segmentLoop_frame rest fully (pushCurrent [] current) _]
        rw [show pushCurrent segments current
          = segments ++ pushCurrent [] current from by
            cases current <;> simp [pushCurrent]]
        rw [List.append_assoc]

theorem segmentLoop_heads (L : List LogEntry) (fully : List String) :
    ∀ (l : List LogEntry) (segments : List RawSegment)
      (current : Option RawSegment),
    (∀ x ∈ l, x ∈ L) →
    (∀ s ∈ segments, SegHead L fully s) →
    (∀ cur, current = some cur → SegHead L fully cur) →
    ∀ s ∈ (segmentLoop fully segments current l).1, SegHead L fully s
  | [], segments, current, _, hsegs, hcur => by
    rw [segmentLoop]
    intro s hs
    rcases current with _ | cur
    · exact hsegs s hs
    · rw [show pushCurrent segments (some cur) = segments ++ [cur] from rfl]
      at hs
      rcases List.mem_append.mp hs with h | h
      · exact hsegs s h
      · rcases List.mem_singleton.mp h with rfl
        exact hcur s rfl
  | c :: rest, segments, current, hl, hsegs, hcur => by
    rw [segmentLoop]
    by_cases hemp : c.local_bookmarks.isEmpty = true
    · rw [if_pos hemp]
      refine segmentLoop_heads L fully rest segments _
        (fun x hx => hl x (List.mem_cons_of_mem _ hx)) hsegs ?_
      intro cur2 hcur2
      rcases current with _ | cur
      · cases hcur2
      · cases hcur2
        obtain ⟨c0, cs0, he, hn, hm, hne, hany⟩ := hcur cur rfl
        exact ⟨c0, cs0 ++ [c], by simp [he], hn, hm, hne, hany⟩
    · rw [if_neg hemp]
      have hsegs2 : ∀ s ∈ pushCurrent segments current, SegHead L fully s := by
        intro s hs
        rcases current with _ | cur
        · exact hsegs s hs
        · rw [show pushCurrent segments (some cur) = segments ++ [cur] from rfl]
            at hs
          rcases List.mem_append.mp hs with h | h
          · exact hsegs s h
          · rcases List.mem_singleton.mp h with rfl
            exact hcur s rfl
      by_cases hany : c.local_bookmarks.any fully.contains = true
      · rw [if_pos hany]
        exact hsegs2
      · rw [if_neg hany]
        refine segmentLoop_heads L fully rest _ _
          (fun x hx => hl x (List.mem_cons_of_mem _ hx)) hsegs2 ?_
        intro cur2 hcur2
        cases hcur2
        exact ⟨c, [], rfl, rfl, hl c (by simp),
          Bool.eq_false_iff.mpr hemp, Bool.eq_false_iff.mpr hany⟩

theorem segmentLoop_first (fully : List String) :
    ∀ (l : List LogEntry) (cur : RawSegment),
    ∃ ext rest2, (segmentLoop fully [] (some cur) l).1
      = { cur with changes := cur.changes ++ ext } :: rest2
  | [], cur => ⟨[], [], by
      rw [segmentLoop]
      rw [show pushCurrent [] (some cur) = [cur] from rfl]
      rw [show ({ cur with changes := cur.changes ++ [] } : RawSegment)
        = cur from by cases cur; simp]⟩
  | c :: rest, cur => by
    rw [segmentLoop]
    by_cases hemp : c.local_bookmarks.isEmpty = true
    · rw [if_pos hemp]
      obtain ⟨ext, rest2, hex⟩ := segmentLoop_first fully rest
        { cur with changes := cur.changes ++ [c] }
      refine ⟨[c] ++ ext, rest2, ?_⟩
      rw [show extendCurrent c (some cur)
        = some ({ cur with changes := cur.changes ++ [c] } : RawSegment)
        from rfl]
      rw [hex]
      simp
    · rw [if_neg hemp]
      by_cases hany : c.local_bookmarks.any fully.contains = true
      · rw [if_pos hany]
        exact ⟨[], [], by
          rw [show pushCurrent [] (some cur) = [cur] from rfl]
          rw [show ({ cur with changes := cur.changes ++ [] } : RawSegment)
            = cur from by cases cur; simp]⟩
      · rw [if_neg hany]
        rw [show pushCurrent [] (some cur) = [cur] from rfl]
        rw [segmentLoop_frame rest fully [cur] _]
        exact ⟨[], _, by
          rw [show ({ cur with changes := cur.changes ++ [] } : RawSegment)
            = cur from by cases cur; simp]
          rfl⟩

theorem traverse_excluded (ws : JjWorkspace) (b : Bookmark)
    (fully tainted : List String) (seen : List String)
    (hscan : taintScan tainted [] (ws.revset b.commit_id) = some seen) :
    traverse_and_discover_segments ws b fully tainted
      = { segments := [], already_seen_change_id := none,
          excluded_bookmark_count := 1, newly_tainted_change_ids := seen } := by
  rw [traverse_and_discover_segments]
  simp only [hscan]

theorem traverse_clean (ws : JjWorkspace) (b : Bookmark)
    (fully tainted : List String)
    (hscan : taintScan tainted [] (ws.revset b.commit_id) = none) :
    traverse_and_discover_segments ws b fully tainted
      = { segments := (segmentLoop fully [] none (ws.revset b.commit_id)).1,
          already_seen_change_id :=
            (segmentLoop fully [] none (ws.revset b.commit_id)).2,
          excluded_bookmark_count := 0, newly_tainted_change_ids := [] } := by
  rw [traverse_and_discover_segments]
  simp only [hscan]

theorem processBookmark_skip (ws : JjWorkspace) (st : BuildState) (b : Bookmark)
    (h : st.fully_collected_bookmarks.contains b.name = true) :
    processBookmark ws st b = st := by
  rw [processBookmark, if_pos h]

theorem processBookmark_excluded (ws : JjWorkspace) (st : BuildState)
    (b : Bookmark) (seen : List String)
    (hnc : st.fully_collected_bookmarks.contains b.name = false)
    (hscan : taintScan st.tainted_change_ids [] (ws.revset b.commit_id)
      = some seen) :
    processBookmark ws st b = { st with
      tainted_change_ids := seen.foldl setInsert st.tainted_change_ids,
      total_excluded_bookmark_count := st.total_excluded_bookmark_count + 1 } := by
  rw [processBookmark,
    if_neg (by rw [hnc]; exact fun h => Bool.noConfusion h)]
  rw [traverse_excluded ws b _ _ seen hscan]
  rfl

theorem processBookmark_store (ws : JjWorkspace) (st : BuildState) (b : Bookmark)
    (hnc : st.fully_collected_bookmarks.contains b.name = false)
    (hscan : taintScan st.tainted_change_ids [] (ws.revset b.commit_id)
      = none) :
    (processBookmark ws st b).fully_collected_bookmarks
      = (((segmentLoop st.fully_collected_bookmarks [] none
          (ws.revset b.commit_id)).1).foldl storeSegment
          st).fully_collected_bookmarks
    ∧ (processBookmark ws st b).bookmark_to_change_id
      = (((segmentLoop st.fully_collected_bookmarks [] none
          (ws.revset b.commit_id)).1).foldl storeSegment st).bookmark_to_change_id
    ∧ (processBookmark ws st b).bookmarked_change_id_to_segment
      = (((segmentLoop st.fully_collected_bookmarks [] none
          (ws.revset b.commit_id)).1).foldl storeSegment
          st).bookmarked_change_id_to_segment
    ∧ (processBookmark ws st b).tainted_change_ids = st.tainted_change_ids
    ∧ (processBookmark ws st b).total_excluded_bookmark_count
      = st.total_excluded_bookmark_count := by
  rw [processBookmark,
    if_neg (by rw [hnc]; exact fun h => Bool.noConfusion h)]
  rw [traverse_clean ws b _ _ hscan]
  obtain ⟨f1, f2, f3, f4⟩ := foldlStore_frame
    (segmentLoop st.fully_collected_bookmarks [] none (ws.revset b.commit_id)).1
    st
  rcases hseen : (segmentLoop st.fully_collected_bookmarks [] none
      (ws.revset b.commit_id)).2 with _ | seenId
  · simp only [hseen]
    rcases hlast : (segmentLoop st.fully_collected_bookmarks [] none
        (ws.revset b.commit_id)).1.getLast? with _ | rootSeg
    · simp only [hlast]
      exact ⟨rfl, rfl, rfl, f1, f2⟩
    · simp only [hlast]
      rcases hch : rootSeg.changes with _ | ⟨c, cs⟩
      · simp only [hch]
        exact ⟨rfl, rfl, rfl, f1, f2⟩
      · simp only [hch]
        exact ⟨rfl, rfl, rfl, f1, f2⟩
  · simp only [hseen]
    rcases hlast : (segmentLoop st.fully_collected_bookmarks [] none
        (ws.revset b.commit_id)).1.getLast? with _ | rootSeg
    · simp only [hlast]
      exact ⟨rfl, rfl, rfl, f1, f2⟩
    · simp only [hlast]
      rcases hch : rootSeg.changes with _ | ⟨c, cs⟩
      · simp only [hch]
        exact ⟨rfl, rfl, rfl, f1, f2⟩
      · simp only [hch]
        exact ⟨rfl, rfl, rfl, f1, f2⟩

theorem processBookmark_tainted_mono (ws : JjWorkspace) (st : BuildState)
    (b : Bookmark) (x : String) (hx : x ∈ st.tainted_change_ids) :
    x ∈ (processBookmark ws st b).tainted_change_ids := by
  by_cases hc : st.fully_collected_bookmarks.contains b.name = true
  · rw [processBookmark_skip ws st b hc]
    exact hx
  · have hnc : st.fully_collected_bookmarks.contains b.name = false :=
      Bool.eq_false_iff.mpr hc
    rcases hscan : taintScan st.tainted_change_ids [] (ws.revset b.commit_id)
      with _ | seen
    · rw [(processBookmark_store ws st b hnc hscan).2.2.2.1]
      exact hx
    · rw [processBookmark_excluded ws st b seen hnc hscan]
      exact (foldl_setInsert_mem_iff seen _ x).mpr (Or.inl hx)

theorem foldl_processBookmark_tainted_mono (ws : JjWorkspace) :
    ∀ (bs : List Bookmark) (st : BuildState) (x : String),
    x ∈ st.tainted_change_ids →
    x ∈ (bs.foldl (processBookmark ws) st).tainted_change_ids
  | [], st, x, hx => hx
  | b :: t, st, x, hx => by
    rw [List.foldl_cons]
    exact foldl_processBookmark_tainted_mono ws t _ x
      (processBookmark_tainted_mono ws st b x hx)

/-- Claim C2: merge/taint exclusion.  (1) When the query result is a clean
prefix followed by a change with more than one parent or an already-tainted
change id, the traversal yields zero segments, an excluded count of one, and
exactly the change ids seen up to and including the offender as newly tainted.
(2) The builder step for such a bookmark adds those ids to the tainted set and
increments the total excluded count by exactly one, leaving every other
accumulator unchanged.  (3) The tainted set only grows over the whole builder
fold.  (4) Consequently a later-traversed bookmark whose query contains an
already-tainted change is itself excluded: its step increments the count by
one and contributes to no segment or bookmark map. -/
theorem C2_merge_taint :
    (∀ (ws : JjWorkspace) (b : Bookmark) (fully tainted : List String)
      (pre : List LogEntry) (c : LogEntry) (post : List LogEntry),
      ws.revset b.commit_id = pre ++ c :: post →
      (∀ x ∈ pre,
        (1 < x.parents.length || tainted.contains x.change_id) = false) →
      (1 < c.parents.length || tainted.contains c.change_id) = true →
      traverse_and_discover_segments ws b fully tainted
        = { segments := [], already_seen_change_id := none,
            excluded_bookmark_count := 1,
            newly_tainted_change_ids :=
              (pre ++ [c]).map (fun e => e.change_id) })
    ∧ (∀ (ws : JjWorkspace) (st : BuildState) (b : Bookmark)
        (pre : List LogEntry) (c : LogEntry) (post : List LogEntry),
      st.fully_collected_bookmarks.contains b.name = false →
      ws.revset b.commit_id = pre ++ c :: post →
      (∀ x ∈ pre, (1 < x.parents.length
        || st.tainted_change_ids.contains x.change_id) = false) →
      (1 < c.parents.length
        || st.tainted_change_ids.contains c.change_id) = true →
      processBookmark ws st b = { st with
        tainted_change_ids :=
          (((pre ++ [c]).map (fun e => e.change_id)).foldl setInsert
            st.tainted_change_ids),
        total_excluded_bookmark_count :=
          st.total_excluded_bookmark_count + 1 })
    ∧ (∀ (ws : JjWorkspace) (bs : List Bookmark) (st : BuildState) (x : String),
      x ∈ st.tainted_change_ids →
      x ∈ (bs.foldl (processBookmark ws) st).tainted_change_ids)
    ∧ (∀ (ws : JjWorkspace) (st : BuildState) (b : Bookmark),
      st.fully_collected_bookmarks.contains b.name = false →
      (∃ x ∈ ws.revset b.commit_id, x.change_id ∈ st.tainted_change_ids) →
      (processBookmark ws st b).total_excluded_bookmark_count
          = st.total_excluded_bookmark_count + 1
      ∧ (processBookmark ws st b).bookmark_to_change_id
          = st.bookmark_to_change_id
      ∧ (processBookmark ws st b).bookmarked_change_id_to_segment
          = st.bookmarked_change_id_to_segment) := by
  have hchar : ∀ (ws : JjWorkspace) (st : BuildState) (b : Bookmark)
      (pre : List LogEntry) (c : LogEntry) (post : List LogEntry),
      st.fully_collected_bookmarks.contains b.name = false →
      ws.revset b.commit_id = pre ++ c :: post →
      (∀ x ∈ pre, (1 < x.parents.length
        || st.tainted_change_ids.contains x.change_id) = false) →
      (1 < c.parents.length
        || st.tainted_change_ids.contains c.change_id) = true →
      processBookmark ws st b = { st with
        tainted_change_ids :=
          (((pre ++ [c]).map (fun e => e.change_id)).foldl setInsert
            st.tainted_change_ids),
        total_excluded_bookmark_count :=
          st.total_excluded_bookmark_count + 1 } := by
    intro ws st b pre c post hnc hq hpre hoff
    have hscan := taintScan_some_spec st.tainted_change_ids c hoff pre [] post
      hpre
    rw [List.nil_append] at hscan
    rw [← hq] at hscan
    exact processBookmark_excluded ws st b _ hnc hscan
  refine ⟨?_, hchar, ?_, ?_⟩
  · intro ws b fully tainted pre c post hq hpre hoff
    have hscan := taintScan_some_spec tainted c hoff pre [] post hpre
    rw [List.nil_append] at hscan
    rw [← hq] at hscan
    exact traverse_excluded ws b fully tainted _ hscan
  · intro ws bs st x hx
    exact foldl_processBookmark_tainted_mono ws bs st x hx
  · intro ws st b hnc hex
    have hp : ∃ x ∈ ws.revset b.commit_id, (1 < x.parents.length
        || st.tainted_change_ids.contains x.change_id) = true := by
      rcases hex with ⟨x, hx, hmem⟩
      refine ⟨x, hx, ?_⟩
      rw [Bool.or_eq_true]
      exact Or.inr ((contains_iff_mem _ _).mpr hmem)
    obtain ⟨pre, c, post, hq, hpre, hoff⟩ := exists_first_split _ _ hp
    rw [hchar ws st b pre c post hnc hq hpre hoff]
    exact ⟨rfl, rfl, rfl⟩

theorem C2_witness :
    traverse_and_discover_segments wsC2 bmC2 [] []
      = { segments := [], already_seen_change_id := none,
          excluded_bookmark_count := 1,
          newly_tainted_change_ids := ["c0", "c1"] }
    ∧ processBookmark wsC2 BuildState.init bmC2
      = { fully_collected_bookmarks := [], bookmark_to_change_id := [],
          bookmarked_change_adjacency_list := [],
          bookmarked_change_id_to_segment := [], stack_roots := [],
          tainted_change_ids := ["c0", "c1"],
          total_excluded_bookmark_count := 1 }
    ∧ "t" ∈ (([bmC2] : List Bookmark).foldl (processBookmark wsC2)
        { BuildState.init with tainted_change_ids := ["t"] }).tainted_change_ids
    ∧ (processBookmark wsC2
        { BuildState.init with tainted_change_ids := ["c1"] }
        bmC2).total_excluded_bookmark_count = 1 := by
  have hrev : wsC2.revset bmC2.commit_id
      = [eW "c0" ["p"] ["m"], eW "c1" ["a", "b"] []] := by
    simp [wsC2, bmC2]
  refine ⟨?_, ?_, ?_, ?_⟩
  · exact C2_merge_taint.1 wsC2 bmC2 [] [] [eW "c0" ["p"] ["m"]]
      (eW "c1" ["a", "b"] []) [] (by rw [hrev]; rfl)
      (by intro x hx; rcases List.mem_singleton.mp hx with rfl; simp [eW])
      (by simp [eW])
  · exact C2_merge_taint.2.1 wsC2 BuildState.init bmC2
      [eW "c0" ["p"] ["m"]] (eW "c1" ["a", "b"] []) [] rfl
      (by rw [hrev]; rfl)
      (by intro x hx; rcases List.mem_singleton.mp hx with rfl
          simp [eW, BuildState.init])
      (by simp [eW, BuildState.init])
  · exact C2_merge_taint.2.2.1 wsC2 [bmC2]
      { BuildState.init with tainted_change_ids := ["t"] } "t" (by simp)
  · refine ((C2_merge_taint.2.2.2 wsC2
      { BuildState.init with tainted_change_ids := ["c1"] } bmC2 rfl
      ?_).1).trans rfl
    rw [hrev]
    exact ⟨eW "c1" ["a", "b"] [], by simp, by simp [eW]⟩

theorem storeSegment_fc_mono (st : BuildState) (seg : RawSegment) (n : String)
    (h : n ∈ st.fully_collected_bookmarks) :
    n ∈ (storeSegment st seg).fully_collected_bookmarks := by
  rcases hc : seg.changes with _ | ⟨c, cs⟩
  · rw [storeSegment_nil st seg hc]
    exact h
  · rw [storeSegment_cons st seg c cs hc]
    exact (foldl_setInsert_mem_iff _ _ _).mpr (Or.inl h)

theorem foldlStore_fc_mono : ∀ (segs : List RawSegment) (st : BuildState)
    (n : String), n ∈ st.fully_collected_bookmarks →
    n ∈ (segs.foldl storeSegment st).fully_collected_bookmarks
  | [], _, _, h => h
  | s :: t, st, n, h => by
    rw [List.foldl_cons]
    exact foldlStore_fc_mono t _ n (storeSegment_fc_mono st s n h)

theorem foldlStore_fc_iff : ∀ (segs : List RawSegment) (st : BuildState)
    (n : String),
    n ∈ (segs.foldl storeSegment st).fully_collected_bookmarks
      ↔ n ∈ st.fully_collected_bookmarks
        ∨ ∃ seg ∈ segs, seg.changes ≠ [] ∧ n ∈ seg.bookmark_names
  | [], st, n => by simp
  | s :: t, st, n => by
    rw [List.foldl_cons, foldlStore_fc_iff t _ n]
    rcases hc : s.changes with _ | ⟨c, cs⟩
    · rw [storeSegment_nil st s hc]
      constructor
      · rintro (h | h)
        · exact Or.inl h
        · rcases h with ⟨seg, hseg, hne, hn⟩
          exact Or.inr ⟨seg, List.mem_cons_of_mem _ hseg, hne, hn⟩
      · rintro (h | ⟨seg, hseg, hne, hn⟩)
        · exact Or.inl h
        · rcases List.mem_cons.mp hseg with rfl | hseg
          · exact absurd hc hne
          · exact Or.inr ⟨seg, hseg, hne, hn⟩
    · rw [storeSegment_cons st s c cs hc]
      rw [foldl_setInsert_mem_iff]
      constructor
      · rintro ((h | h) | h)
        · exact Or.inl h
        · exact Or.inr ⟨s, by simp, by simp [hc], h⟩
        · rcases h with ⟨seg, hseg, hne, hn⟩
          exact Or.inr ⟨seg, List.mem_cons_of_mem _ hseg, hne, hn⟩
      · rintro (h | ⟨seg, hseg, hne, hn⟩)
        · exact Or.inl (Or.inl h)
        · rcases List.mem_cons.mp hseg with rfl | hseg
          · exact Or.inl (Or.inr hn)
          · exact Or.inr ⟨seg, hseg, hne, hn⟩

theorem storeSegment_fckey (st : BuildState) (seg : RawSegment)
    (h : ∀ n, n ∈ st.fully_collected_bookmarks
      ↔ (mapFind st.bookmark_to_change_id n).isSome = true) :
    ∀ n, n ∈ (storeSegment st seg).fully_collected_bookmarks
      ↔ (mapFind (storeSegment st seg).bookmark_to_change_id n).isSome
          = true := by
  intro n
  rcases hc : seg.changes with _ | ⟨c, cs⟩
  · rw [storeSegment_nil st seg hc]
    exact h n
  · rw [storeSegment_cons st seg c cs hc]
    show n ∈ seg.bookmark_names.foldl setInsert st.fully_collected_bookmarks
      ↔ _
    rw [foldl_setInsert_mem_iff]
    rw [mapFind_foldl_insert_isSome (fun n' => n') (fun _ => c.change_id)
      seg.bookmark_names st.bookmark_to_change_id n]
    rw [List.map_id']
    rw [h n]

theorem foldlStore_fckey : ∀ (segs : List RawSegment) (st : BuildState),
    (∀ n, n ∈ st.fully_collected_bookmarks
      ↔ (mapFind st.bookmark_to_change_id n).isSome = true) →
    ∀ n, n ∈ (segs.foldl storeSegment st).fully_collected_bookmarks
      ↔ (mapFind (segs.foldl storeSegment st).bookmark_to_change_id n).isSome
          = true
  | [], st, h => h
  | s :: t, st, h => by
    rw [List.foldl_cons]
    exact foldlStore_fckey t _ (storeSegment_fckey st s h)

theorem foldlStore_names_mem : ∀ (segs : List RawSegment) (st : BuildState)
    (seg : RawSegment), seg ∈ segs → seg.changes ≠ [] →
    ∀ n ∈ seg.bookmark_names,
    n ∈ (segs.foldl storeSegment st).fully_collected_bookmarks := by
  intro segs st seg hseg hne n hn
  exact (foldlStore_fc_iff segs st n).mpr (Or.inr ⟨seg, hseg, hne, hn⟩)

theorem taintScan_seen_mono : ∀ (tainted seen : List String)
    (l : List LogEntry) (out : List String),
    taintScan tainted seen l = some out → ∀ x ∈ seen, x ∈ out
  | tainted, seen, [], out, h, x, hx => by cases h
  | tainted, seen, c :: rest, out, h, x, hx => by
    rw [taintScan] at h
    by_cases hoff : (1 < c.parents.length || tainted.contains c.change_id)
      = true
    · rw [if_pos hoff] at h
      cases h
      exact List.mem_append.mpr (Or.inl hx)
    · rw [if_neg hoff] at h
      exact taintScan_seen_mono tainted _ rest out h x
        (List.mem_append.mpr (Or.inl hx))

theorem taintScan_head_mem (tainted : List String) (c : LogEntry)
    (rest : List LogEntry) (out : List String)
    (h : taintScan tainted [] (c :: rest) = some out) :
    c.change_id ∈ out := by
  rw [taintScan] at h
  by_cases hoff : (1 < c.parents.length || tainted.contains c.change_id) = true
  · rw [if_pos hoff] at h
    cases h
    simp
  · rw [if_neg hoff] at h
    exact taintScan_seen_mono tainted _ rest out h c.change_id (by simp)

theorem segmentLoop_result_heads (ws : JjWorkspace) (b : Bookmark)
    (fully : List String) :
    ∀ s ∈ (segmentLoop fully [] none (ws.revset b.commit_id)).1,
      SegHead (ws.revset b.commit_id) fully s := by
  refine segmentLoop_heads (ws.revset b.commit_id) fully
    (ws.revset b.commit_id) [] none (fun x hx => hx) ?_ ?_
  · intro s hs
    cases hs
  · intro cur hcur
    cases hcur

theorem processBookmark_step (ws : JjWorkspace) (hShare : WfShare ws)
    (st : BuildState) (b : Bookmark) (hb : b ∈ ws.local_bookmarks)
    (hfck : ∀ n, n ∈ st.fully_collected_bookmarks
      ↔ (mapFind st.bookmark_to_change_id n).isSome = true)
    (hcw : ∀ n ∈ st.fully_collected_bookmarks, ∃ e ∈ entriesOf ws,
      n ∈ e.local_bookmarks ∧ ∀ m ∈ e.local_bookmarks,
        m ∈ st.fully_collected_bookmarks) :
    (∀ n, n ∈ (processBookmark ws st b).fully_collected_bookmarks
      ↔ (mapFind (processBookmark ws st b).bookmark_to_change_id n).isSome
        = true)
    ∧ (∀ n ∈ (processBookmark ws st b).fully_collected_bookmarks,
        ∃ e ∈ entriesOf ws, n ∈ e.local_bookmarks
          ∧ ∀ m ∈ e.local_bookmarks,
            m ∈ (processBookmark ws st b).fully_collected_bookmarks)
    ∧ (∀ n ∈ st.fully_collected_bookmarks,
        n ∈ (processBookmark ws st b).fully_collected_bookmarks)
    ∧ (∀ n, (∃ e ∈ entriesOf ws, n ∈ e.local_bookmarks
          ∧ e.change_id ∈ st.tainted_change_ids) →
        n ∉ st.fully_collected_bookmarks →
        n ∉ (processBookmark ws st b).fully_collected_bookmarks) := by
  by_cases hc : st.fully_collected_bookmarks.contains b.name = true
  · rw [processBookmark_skip ws st b hc]
    exact ⟨hfck, hcw, fun n h => h, fun n _ h => h⟩
  · have hnc : st.fully_collected_bookmarks.contains b.name = false :=
      Bool.eq_false_iff.mpr hc
    rcases hscan : taintScan st.tainted_change_ids [] (ws.revset b.commit_id)
      with _ | seen
    · obtain ⟨hfc, hkeys, _, _, _⟩ := processBookmark_store ws st b hnc hscan
      have hclean := taintScan_none st.tainted_change_ids []
        (ws.revset b.commit_id) hscan
      have hheads := segmentLoop_result_heads ws b
        st.fully_collected_bookmarks
      refine ⟨?_, ?_, ?_, ?_⟩
      · intro n
        rw [hfc, hkeys]
        exact foldlStore_fckey _ st hfck n
      · intro n hn
        rw [hfc] at hn
        rcases (foldlStore_fc_iff _ st n).mp hn with h | ⟨seg, hseg, hne, hnm⟩
        · obtain ⟨e, he, hne2, hcl⟩ := hcw n h
          refine ⟨e, he, hne2, ?_⟩
          intro m hm
          rw [hfc]
          exact foldlStore_fc_mono _ st m (hcl m hm)
        · obtain ⟨c, cs, hch, hnames, hcl2, _, _⟩ := hheads seg hseg
          refine ⟨c, mem_entriesOf ws b c hb hcl2, ?_, ?_⟩
          · rw [← hnames]
            exact hnm
          · intro m hm
            rw [hfc]
            exact foldlStore_names_mem _ st seg hseg hne m
              (by rw [hnames]; exact hm)
      · intro n hn
        rw [hfc]
        exact foldlStore_fc_mono _ st n hn
      · intro n hexists hnotin hmem
        rw [hfc] at hmem
        rcases (foldlStore_fc_iff _ st n).mp hmem with h | ⟨seg, hseg, hne, hnm⟩
        · exact hnotin h
        · obtain ⟨c, cs, hch, hnames, hcl2, _, _⟩ := hheads seg hseg
          obtain ⟨e, he, hne2, htaint⟩ := hexists
          have hid : e.change_id = c.change_id :=
            hShare e he c (mem_entriesOf ws b c hb hcl2)
              ⟨n, hne2, by rw [← hnames]; exact hnm⟩
          have := hclean c hcl2
          rw [Bool.or_eq_false_iff] at this
          have hcont := this.2
          rw [← hid] at hcont
          exact absurd ((contains_iff_mem _ _).mpr htaint)
            (by rw [hcont]; exact fun hh => Bool.noConfusion hh)
    · rw [processBookmark_excluded ws st b seen hnc hscan]
      refine ⟨hfck, ?_, fun n h => h, fun n _ h => h⟩
      intro n hn
      exact hcw n hn

theorem processBookmark_store_key (ws : JjWorkspace) (hShare : WfShare ws)
    (hEq : WfEq ws) (st : BuildState) (b : Bookmark)
    (hb : b ∈ ws.local_bookmarks)
    (hcw : ∀ n ∈ st.fully_collected_bookmarks, ∃ e ∈ entriesOf ws,
      n ∈ e.local_bookmarks ∧ ∀ m ∈ e.local_bookmarks,
        m ∈ st.fully_collected_bookmarks)
    (e0 : LogEntry) (rest : List LogEntry)
    (hq : ws.revset b.commit_id = e0 :: rest)
    (hself : b.name ∈ e0.local_bookmarks)
    (hnc : st.fully_collected_bookmarks.contains b.name = false)
    (hscan : taintScan st.tainted_change_ids [] (ws.revset b.commit_id)
      = none) :
    b.name ∈ (processBookmark ws st b).fully_collected_bookmarks := by
  have hanyF : e0.local_bookmarks.any
      st.fully_collected_bookmarks.contains = false := by
    by_contra hany
    rw [Bool.not_eq_false, List.any_eq_true] at hany
    obtain ⟨n, hn, hcont⟩ := hany
    have hnfc : n ∈ st.fully_collected_bookmarks :=
      (contains_iff_mem _ _).mp hcont
    obtain ⟨e', he', hne', hcl⟩ := hcw n hnfc
    have he0 : e0 ∈ entriesOf ws := by
      refine mem_entriesOf ws b e0 hb ?_
      rw [hq]
      simp
    have hid : e'.change_id = e0.change_id :=
      hShare e' he' e0 he0 ⟨n, hne', hn⟩
    have hnames : e'.local_bookmarks = e0.local_bookmarks :=
      hEq e' he' e0 he0 hid
    have : b.name ∈ st.fully_collected_bookmarks := by
      apply hcl
      rw [hnames]
      exact hself
    rw [← contains_iff_mem] at this
    rw [hnc] at this
    exact Bool.noConfusion this
  have hempF : e0.local_bookmarks.isEmpty = false := by
    rcases hlb : e0.local_bookmarks with _ | ⟨x, xs⟩
    · rw [hlb] at hself
      cases hself
    · rfl
  obtain ⟨hfc, _, _, _, _⟩ := processBookmark_store ws st b hnc hscan
  rw [hfc]
  have hstep : (segmentLoop st.fully_collected_bookmarks [] none
      (ws.revset b.commit_id)).1
      = (segmentLoop st.fully_collected_bookmarks []
          (some { bookmark_names := e0.local_bookmarks, changes := [e0] })
          rest).1 := by
    rw [hq, segmentLoop]
    rw [if_neg (by rw [hempF]; exact fun hh => Bool.noConfusion hh)]
    rw [if_neg (by rw [hanyF]; exact fun hh => Bool.noConfusion hh)]
    rfl
  obtain ⟨ext, rest2, hfirst⟩ := segmentLoop_first
    st.fully_collected_bookmarks rest
    { bookmark_names := e0.local_bookmarks, changes := [e0] }
  rw [hstep, hfirst]
  exact foldlStore_names_mem _ st
    ({ bookmark_names := e0.local_bookmarks, changes := [e0] ++ ext })
    (List.mem_cons_self _ _) (by simp) b.name hself

theorem builder_fold_main (ws : JjWorkspace) (hShare : WfShare ws)
    (hEq : WfEq ws) (hSelf : SelfCarrying ws) :
    ∀ (bs : List Bookmark) (st : BuildState),
    (∀ b ∈ bs, b ∈ ws.local_bookmarks) →
    (∀ n, n ∈ st.fully_collected_bookmarks
      ↔ (mapFind st.bookmark_to_change_id n).isSome = true) →
    (∀ n ∈ st.fully_collected_bookmarks, ∃ e ∈ entriesOf ws,
      n ∈ e.local_bookmarks ∧ ∀ m ∈ e.local_bookmarks,
        m ∈ st.fully_collected_bookmarks) →
    (∀ n, n ∈ (bs.foldl (processBookmark ws) st).fully_collected_bookmarks
      ↔ (mapFind (bs.foldl (processBookmark ws) st).bookmark_to_change_id
          n).isSome = true)
    ∧ (∀ n ∈ st.fully_collected_bookmarks,
        n ∈ (bs.foldl (processBookmark ws) st).fully_collected_bookmarks)
    ∧ (∀ n, (∃ e ∈ entriesOf ws, n ∈ e.local_bookmarks
          ∧ e.change_id ∈ st.tainted_change_ids) →
        n ∉ st.fully_collected_bookmarks →
        n ∉ (bs.foldl (processBookmark ws) st).fully_collected_bookmarks)
    ∧ (bs.foldl (processBookmark ws) st).total_excluded_bookmark_count
        = st.total_excluded_bookmark_count
          + (bs.filter (fun b => !(mapFind (bs.foldl (processBookmark ws)
              st).bookmark_to_change_id b.name).isSome)).length
  | [], st, hbs, hfck, hcw => ⟨hfck, fun n h => h, fun n _ h => h, by simp⟩
  | b :: t, st, hbs, hfck, hcw => by
    have hb : b ∈ ws.local_bookmarks := hbs b (by simp)
    obtain ⟨sfck, scw, smono, sk⟩ :=
      processBookmark_step ws hShare st b hb hfck hcw
    obtain ⟨ifck, imono, ik, icnt⟩ := builder_fold_main ws hShare hEq hSelf t
      (processBookmark ws st b)
      (fun b' hb' => hbs b' (List.mem_cons_of_mem _ hb')) sfck scw
    rw [List.foldl_cons]
    refine ⟨ifck, ?_, ?_, ?_⟩
    · intro n hn
      exact imono n (smono n hn)
    · intro n hex hnot
      refine ik n ?_ (sk n hex hnot)
      rcases hex with ⟨e, he, hne, ht⟩
      exact ⟨e, he, hne, processBookmark_tainted_mono ws st b _ ht⟩
    · rw [icnt]
      by_cases hc : st.fully_collected_bookmarks.contains b.name = true
      · have hkey : b.name ∈ (t.foldl (processBookmark ws)
            (processBookmark ws st b)).fully_collected_bookmarks :=
          imono b.name (smono b.name ((contains_iff_mem _ _).mp hc))
        have hsome := (ifck b.name).mp hkey
        rw [List.filter_cons]
        rw [show (!(mapFind (t.foldl (processBookmark ws)
            (processBookmark ws st b)).bookmark_to_change_id
            b.name).isSome) = false from by rw [hsome]; rfl]
        rw [if_neg (by exact fun hh => Bool.noConfusion hh)]
        rw [processBookmark_skip ws st b hc]
      · have hnc : st.fully_collected_bookmarks.contains b.name = false :=
          Bool.eq_false_iff.mpr hc
        obtain ⟨e0, rest, hq, hself⟩ := hSelf b hb
        rcases hscan : taintScan st.tainted_change_ids []
            (ws.revset b.commit_id) with _ | seen
        · have hkeyb := processBookmark_store_key ws hShare hEq st b hb hcw
            e0 rest hq hself hnc hscan
          have hkey := imono b.name hkeyb
          have hsome := (ifck b.name).mp hkey
          rw [List.filter_cons]
          rw [show (!(mapFind (t.foldl (processBookmark ws)
              (processBookmark ws st b)).bookmark_to_change_id
              b.name).isSome) = false from by rw [hsome]; rfl]
          rw [if_neg (by exact fun hh => Bool.noConfusion hh)]
          rw [(processBookmark_store ws st b hnc hscan).2.2.2.2]
        · have hscan2 : taintScan st.tainted_change_ids [] (e0 :: rest)
              = some seen := by rw [← hq]; exact hscan
          have he0t : e0.change_id ∈ (processBookmark ws st
              b).tainted_change_ids := by
            rw [processBookmark_excluded ws st b seen hnc hscan]
            exact (foldl_setInsert_mem_iff _ _ _).mpr
              (Or.inr (taintScan_head_mem _ e0 rest seen hscan2))
          have hbnot : b.name ∉ (processBookmark ws st
              b).fully_collected_bookmarks := by
            rw [processBookmark_excluded ws st b seen hnc hscan]
            show b.name ∉ st.fully_collected_bookmarks
            intro hmem
            rw [← contains_iff_mem, hnc] at hmem
            exact Bool.noConfusion hmem
          have he0m : e0 ∈ entriesOf ws := by
            refine mem_entriesOf ws b e0 hb ?_
            rw [hq]
            simp
          have hnotfin := ik b.name ⟨e0, he0m, hself, he0t⟩ hbnot
          have hnotsome : (mapFind (t.foldl (processBookmark ws)
              (processBookmark ws st b)).bookmark_to_change_id
              b.name).isSome = false := by
            rcases hi : (mapFind (t.foldl (processBookmark ws)
                (processBookmark ws st b)).bookmark_to_change_id
                b.name).isSome with _ | _
            · rfl
            · exact absurd ((ifck b.name).mpr hi) hnotfin
          have htot : (processBookmark ws st b).total_excluded_bookmark_count
              = st.total_excluded_bookmark_count + 1 := by
            rw [processBookmark_excluded ws st b seen hnc hscan]
          rw [List.filter_cons]
          rw [show (!(mapFind (t.foldl (processBookmark ws)
              (processBookmark ws st b)).bookmark_to_change_id
              b.name).isSome) = true from by rw [hnotsome]; rfl]
          rw [if_pos rfl, htot, List.length_cons]
          omega

theorem build_change_graph_fields (ws : JjWorkspace) :
    (build_change_graph ws).bookmark_to_change_id
      = (ws.local_bookmarks.foldl (processBookmark ws)
          BuildState.init).bookmark_to_change_id
    ∧ (build_change_graph ws).excluded_bookmark_count
      = (ws.local_bookmarks.foldl (processBookmark ws)
          BuildState.init).total_excluded_bookmark_count :=
  ⟨rfl, rfl⟩

theorem C1_counterexample :
    (build_change_graph wsC1).bookmark_to_change_id = []
    ∧ (build_change_graph wsC1).excluded_bookmark_count = 0
    ∧ wsC1.local_bookmarks
        = [{ name := "e", commit_id := "c0", change_id := "c0",
             has_remote := true, is_synced := true }] :=
  ⟨rfl, rfl, rfl⟩

/-- Claim C1 (amended): under workspace coherence — entries sharing a bookmark
name describe the same change (`WfShare`), entries with the same change id
carry the same bookmarks (`WfEq`), and every bookmark's query is non-empty
with its newest entry carrying the bookmark (`SelfCarrying`, which excludes
the empty-query bookmarks the code silently drops) — the graph partitions the
bookmarks: `excluded_bookmark_count` is exactly the number of local bookmarks
that are not keys of `bookmark_to_change_id`. -/
theorem C1_bookmark_partition (ws : JjWorkspace) (hShare : WfShare ws)
    (hEq : WfEq ws) (hSelf : SelfCarrying ws) :
    (build_change_graph ws).excluded_bookmark_count
      = (ws.local_bookmarks.filter (fun b =>
          !(mapFind (build_change_graph ws).bookmark_to_change_id
            b.name).isSome)).length := by
  obtain ⟨hbk, hex⟩ := build_change_graph_fields ws
  rw [hbk, hex]
  have := (builder_fold_main ws hShare hEq hSelf ws.local_bookmarks
    BuildState.init (fun b hb => hb)
    (by intro n; constructor
        · intro h; cases h
        · intro h; exact Bool.noConfusion h)
    (by intro n h; cases h)).2.2.2
  rw [this]
  simp [BuildState.init]

theorem wsC2_entries :
    entriesOf wsC2 = [eW "c0" ["p"] ["m"], eW "c1" ["a", "b"] []] := by
  simp [entriesOf, wsC2]

theorem wsC2_share : WfShare wsC2 := by
  intro e1 he1 e2 he2 hex
  rw [wsC2_entries] at he1 he2
  rcases hex with ⟨n, hn1, hn2⟩
  rcases List.mem_cons.mp he1 with rfl | he1
  · rcases List.mem_cons.mp he2 with rfl | he2
    · rfl
    · rcases List.mem_singleton.mp he2 with rfl
      simp [eW] at hn2
  · rcases List.mem_singleton.mp he1 with rfl
    simp [eW] at hn1

theorem wsC2_eq : WfEq wsC2 := by
  intro e1 he1 e2 he2 hid
  rw [wsC2_entries] at he1 he2
  rcases List.mem_cons.mp he1 with rfl | he1
  · rcases List.mem_cons.mp he2 with rfl | he2
    · rfl
    · rcases List.mem_singleton.mp he2 with rfl
      simp [eW] at hid
  · rcases List.mem_singleton.mp he1 with rfl
    rcases List.mem_cons.mp he2 with rfl | he2
    · simp [eW] at hid
    · rcases List.mem_singleton.mp he2 with rfl
      rfl

theorem wsC2_self : SelfCarrying wsC2 := by
  intro b hb
  rcases List.mem_singleton.mp hb with rfl
  exact ⟨eW "c0" ["p"] ["m"], [eW "c1" ["a", "b"] []], by simp [wsC2],
    by simp [eW]⟩

theorem C1_witness :
    (build_change_graph wsC2).excluded_bookmark_count
      = (wsC2.local_bookmarks.filter (fun b =>
          !(mapFind (build_change_graph wsC2).bookmark_to_change_id
            b.name).isSome)).length :=
  C1_bookmark_partition wsC2 wsC2_share wsC2_eq wsC2_self

theorem countP_le_of_imp {α : Type} (p q : α → Bool) :
    ∀ (l : List α), (∀ x ∈ l, p x = true → q x = true) →
    l.countP p ≤ l.countP q
  | [], _ => le_refl _
  | a :: t, h => by
    rw [List.countP_cons, List.countP_cons]
    have ht := countP_le_of_imp p q t (fun x hx => h x (List.mem_cons_of_mem _ hx))
    by_cases hp : p a = true
    · rw [hp, h a (by simp) hp]
      omega
    · rw [Bool.eq_false_iff.mpr hp]
      simp only [Bool.false_eq_true, if_false]
      omega

theorem countP_lt_of_imp {α : Type} (p q : α → Bool) :
    ∀ (l : List α), (∀ x ∈ l, p x = true → q x = true) →
    ∀ x ∈ l, p x = false → q x = true → l.countP p < l.countP q
  | [], _, x, hx, _, _ => by cases hx
  | a :: t, h, x, hx, hpx, hqx => by
    rw [List.countP_cons, List.countP_cons]
    rcases List.mem_cons.mp hx with rfl | hx
    · rw [hpx, hqx]
      have := countP_le_of_imp p q t
        (fun y hy => h y (List.mem_cons_of_mem _ hy))
      simp only [Bool.false_eq_true, if_false, if_true]
      omega
    · have ht := countP_lt_of_imp p q t
        (fun y hy => h y (List.mem_cons_of_mem _ hy)) x hx hpx hqx
      have hifs : (if p a = true then 1 else 0)
          ≤ (if q a = true then 1 else 0) := by
        by_cases hp : p a = true
        · rw [if_pos hp, if_pos (h a (by simp) hp)]
        · rw [if_neg hp]
          omega
      omega

theorem path_measure_lt (adj : List (String × String)) (order : List String)
    (hcert : ∀ p ∈ adj, p.1 ∈ order ∧ p.2 ∈ order
      ∧ order.indexOf p.2 < order.indexOf p.1)
    (current parent : String)
    (hfind : mapFind adj current = some parent) :
    adj.countP (fun p => order.indexOf p.1 ≤ order.indexOf parent)
      < adj.countP (fun p => order.indexOf p.1 ≤ order.indexOf current) := by
  have hmem := mapFind_mem adj current parent hfind
  have hlt : List.indexOf parent order < List.indexOf current order :=
    (hcert (current, parent) hmem).2.2
  refine countP_lt_of_imp _ _ adj ?_ (current, parent) hmem ?_ ?_
  · intro x hx hp
    rw [decide_eq_true_eq] at hp
    rw [decide_eq_true_eq]
    omega
  · show decide (List.indexOf current order ≤ List.indexOf parent order)
      = false
    rw [decide_eq_false_iff_not]
    omega
  · show decide (List.indexOf current order ≤ List.indexOf current order)
      = true
    exact decide_eq_true (le_refl _)

theorem path_measure_pos (adj : List (String × String)) (order : List String)
    (current parent : String) (hfind : mapFind adj current = some parent) :
    0 < adj.countP (fun p => order.indexOf p.1 ≤ order.indexOf current) := by
  rw [List.countP_pos_iff]
  refine ⟨(current, parent), mapFind_mem adj current parent hfind, ?_⟩
  show decide (List.indexOf current order ≤ List.indexOf current order) = true
  exact decide_eq_true (le_refl _)

theorem path_fuel_stable (adj : List (String × String)) (order : List String)
    (hcert : ∀ p ∈ adj, p.1 ∈ order ∧ p.2 ∈ order
      ∧ order.indexOf p.2 < order.indexOf p.1) :
    ∀ (fuel1 fuel2 : Nat) (current : String),
    adj.countP (fun p => order.indexOf p.1 ≤ order.indexOf current) ≤ fuel1 →
    adj.countP (fun p => order.indexOf p.1 ≤ order.indexOf current) ≤ fuel2 →
    pathToRootAux adj fuel1 current = pathToRootAux adj fuel2 current
  | 0, fuel2, current, h1, h2 => by
    rcases hfind : mapFind adj current with _ | parent
    · rcases fuel2 with _ | f2
      · rfl
      · rw [pathToRootAux, pathToRootAux]
        simp only [hfind]
    · exact absurd (path_measure_pos adj order current parent hfind) (by omega)
  | f1 + 1, fuel2, current, h1, h2 => by
    rcases hfind : mapFind adj current with _ | parent
    · rcases fuel2 with _ | f2
      · rw [pathToRootAux, pathToRootAux]
        simp only [hfind]
      · rw [pathToRootAux, pathToRootAux]
        simp only [hfind]
    · have hpos := path_measure_pos adj order current parent hfind
      rcases fuel2 with _ | f2
      · exact absurd hpos (by omega)
      · rw [pathToRootAux, pathToRootAux]
        simp only [hfind]
        have hlt := path_measure_lt adj order hcert current parent hfind
        rw [path_fuel_stable adj order hcert f1 f2 parent (by omega) (by omega)]

theorem pathToRootAux_chain (adj : List (String × String)) :
    ∀ (fuel : Nat) (current : String),
    List.Chain (fun a b => mapFind adj a = some b) current
      (pathToRootAux adj fuel current)
  | 0, current => by
    rw [pathToRootAux]
    exact List.Chain.nil
  | fuel + 1, current => by
    rw [pathToRootAux]
    rcases hfind : mapFind adj current with _ | parent
    · exact List.Chain.nil
    · exact List.Chain.cons hfind (pathToRootAux_chain adj fuel parent)

theorem build_path_chain (leaf : String) (adj : List (String × String))
    (fuel : Nat) :
    List.Chain' (fun a b => mapFind adj b = some a)
      (build_path_to_root leaf adj fuel) := by
  rw [build_path_to_root]
  rw [List.chain'_reverse]
  exact pathToRootAux_chain adj fuel leaf

theorem path_head_root (adj : List (String × String)) (order : List String)
    (hcert : ∀ p ∈ adj, p.1 ∈ order ∧ p.2 ∈ order
      ∧ order.indexOf p.2 < order.indexOf p.1) :
    ∀ (fuel : Nat) (leaf : String),
    adj.countP (fun p => order.indexOf p.1 ≤ order.indexOf leaf) ≤ fuel →
    ∃ r, (leaf :: pathToRootAux adj fuel leaf).getLast? = some r
      ∧ mapFind adj r = none
  | 0, leaf, h => by
    rcases hfind : mapFind adj leaf with _ | parent
    · exact ⟨leaf, by rw [pathToRootAux]; rfl, hfind⟩
    · exact absurd (path_measure_pos adj order leaf parent hfind) (by omega)
  | fuel + 1, leaf, h => by
    rcases hfind : mapFind adj leaf with _ | parent
    · exact ⟨leaf, by rw [pathToRootAux]; simp only [hfind]; rfl, hfind⟩
    · have hlt := path_measure_lt adj order hcert leaf parent hfind
      obtain ⟨r, hr, hnone⟩ := path_head_root adj order hcert fuel parent
        (by omega)
      refine ⟨r, ?_, hnone⟩
      rw [pathToRootAux]
      simp only [hfind]
      rw [List.getLast?_cons_cons]
      rcases hp : pathToRootAux adj fuel parent with _ | ⟨x, xs⟩
      · rw [hp] at hr
        rw [List.getLast?_singleton] at hr
        cases hr
        rfl
      · rw [hp] at hr
        rw [List.getLast?_cons_cons] at hr
        exact hr

/-- The head id of a segment with a non-empty change list. -/
theorem segHeadId_cons (s : RawSegment) (c : LogEntry) (cs : List LogEntry)
    (h : s.changes = c :: cs) : segHeadId s = c.change_id := by
  rw [segHeadId, h]
  rfl

theorem segmentLoop_flat : ∀ (l : List LogEntry) (fully : List String)
    (segments : List RawSegment) (current : Option RawSegment),
    ∃ l', l'.Sublist l
      ∧ (((segmentLoop fully segments current l).1.map
          (fun s => s.changes)).flatten
        = ((segments.map (fun s => s.changes)).flatten
            ++ (match current with
                | none => []
                | some cur => cur.changes) ++ l'))
  | [], fully, segments, current => by
    refine ⟨[], List.nil_sublist [], ?_⟩
    rw [segmentLoop]
    rcases current with _ | cur
    · simp [pushCurrent]
    · simp [pushCurrent]
  | c :: rest, fully, segments, current => by
    rw [segmentLoop]
    by_cases hemp : c.local_bookmarks.isEmpty = true
    · rw [if_pos hemp]
      rcases current with _ | cur
      · obtain ⟨l', hsub, hflat⟩ := segmentLoop_flat rest fully segments none
        refine ⟨l', hsub.cons c, ?_⟩
        rw [show extendCurrent c none = none from rfl]
        exact hflat
      · obtain ⟨l', hsub, hflat⟩ := segmentLoop_flat rest fully segments
          (some { cur with changes := cur.changes ++ [c] })
        refine ⟨c :: l', hsub.cons₂ c, ?_⟩
        rw [show extendCurrent c (some cur)
          = some { cur with changes := cur.changes ++ [c] } from rfl]
        rw [hflat]
        simp
    · rw [if_neg hemp]
      by_cases hany : c.local_bookmarks.any fully.contains = true
      · rw [if_pos hany]
        refine ⟨[], List.nil_sublist _, ?_⟩
        rcases current with _ | cur
        · simp [pushCurrent]
        · simp [pushCurrent]
      · rw [if_neg hany]
        obtain ⟨l', hsub, hflat⟩ := segmentLoop_flat rest fully
          (pushCurrent segments current)
          (some { bookmark_names := c.local_bookmarks, changes := [c] })
        refine ⟨c :: l', hsub.cons₂ c, ?_⟩
        rw [hflat]
        rcases current with _ | cur
        · simp [pushCurrent]
        · simp [pushCurrent]

theorem seg_head_mem_flat (segs : List RawSegment) (s : RawSegment)
    (hs : s ∈ segs) (c : LogEntry) (cs : List LogEntry)
    (hch : s.changes = c :: cs) :
    c.change_id ∈ ((segs.map (fun s' => s'.changes)).flatten.map
      (fun e => e.change_id)) := by
  rw [List.mem_map]
  refine ⟨c, ?_, rfl⟩
  rw [List.mem_flatten]
  exact ⟨s.changes, List.mem_map.mpr ⟨s, hs, rfl⟩, by rw [hch]; simp⟩

theorem segs_head_nodup : ∀ (segs : List RawSegment),
    (∀ s ∈ segs, s.changes ≠ []) →
    (((segs.map (fun s => s.changes)).flatten.map
        (fun e => e.change_id)).Nodup) →
    (segs.map segHeadId).Nodup
  | [], _, _ => List.nodup_nil
  | s :: t, hne, hnodup => by
    rw [List.map_cons, List.nodup_cons]
    have hids : ((s.changes ++ (t.map (fun s' => s'.changes)).flatten).map
        (fun e => e.change_id)).Nodup := by
      simpa using hnodup
    rw [List.map_append, List.nodup_append] at hids
    rcases hch : s.changes with _ | ⟨c, cs⟩
    · exact absurd hch (hne s (by simp))
    constructor
    · intro hmem
      rcases List.mem_map.mp hmem with ⟨s', hs', heq⟩
      have hc' : segHeadId s' ∈ ((t.map (fun s'' => s''.changes)).flatten.map
          (fun e => e.change_id)) := by
        rcases hch' : s'.changes with _ | ⟨c', cs'⟩
        · exact absurd hch' (hne s' (List.mem_cons_of_mem _ hs'))
        · rw [segHeadId_cons s' c' cs' hch']
          exact seg_head_mem_flat t s' hs' c' cs' hch'
      rw [heq] at hc'
      have hcid : segHeadId s ∈ (s.changes.map (fun e => e.change_id)) := by
        rw [segHeadId_cons s c cs hch, hch]
        simp
      exact hids.2.2 hcid hc'
    · exact segs_head_nodup t (fun s' hs' => hne s' (List.mem_cons_of_mem _ hs'))
        (by
          have := hids.2.1
          simpa using this)

theorem segmentLoop_seen : ∀ (l : List LogEntry) (fully : List String)
    (segments : List RawSegment) (current : Option RawSegment)
    (seenId : String),
    (segmentLoop fully segments current l).2 = some seenId →
    ∃ e ∈ l, e.change_id = seenId
      ∧ e.local_bookmarks.any fully.contains = true
  | [], fully, segments, current, seenId, h => by
    rw [segmentLoop] at h
    cases h
  | c :: rest, fully, segments, current, seenId, h => by
    rw [segmentLoop] at h
    by_cases hemp : c.local_bookmarks.isEmpty = true
    · rw [if_pos hemp] at h
      obtain ⟨e, he, hid, hany⟩ := segmentLoop_seen rest fully segments _
        seenId h
      exact ⟨e, List.mem_cons_of_mem _ he, hid, hany⟩
    · rw [if_neg hemp] at h
      by_cases hany : c.local_bookmarks.any fully.contains = true
      · rw [if_pos hany] at h
        cases h
        exact ⟨c, by simp, rfl, hany⟩
      · rw [if_neg hany] at h
        obtain ⟨e, he, hid, hany2⟩ := segmentLoop_seen rest fully _ _ seenId h
        exact ⟨e, List.mem_cons_of_mem _ he, hid, hany2⟩

theorem mem_mapInsert {α : Type} (m : List (String × α)) (k : String) (v : α)
    (p : String × α) (hp : p ∈ mapInsert m k v) : p = (k, v) ∨ p ∈ m := by
  rw [mapInsert] at hp
  by_cases hany : m.any (fun q => q.1 == k) = true
  · rw [if_pos hany] at hp
    rcases List.mem_map.mp hp with ⟨q, hq, heq⟩
    by_cases hqk : q.1 == k
    · rw [if_pos hqk] at heq
      exact Or.inl heq.symm
    · rw [if_neg hqk] at heq
      exact Or.inr (heq ▸ hq)
  · rw [if_neg hany] at hp
    rcases List.mem_append.mp hp with h | h
    · exact Or.inr h
    · exact Or.inl (List.mem_singleton.mp h)

theorem addAdjacencies_mem : ∀ (segs : List RawSegment)
    (adj : List (String × String)) (p : String × String),
    p ∈ addAdjacencies adj segs →
    p ∈ adj ∨ ∃ pre s1 s2 post c1 cs1 c2 cs2,
      segs = pre ++ s1 :: s2 :: post ∧ s1.changes = c1 :: cs1
      ∧ s2.changes = c2 :: cs2 ∧ p = (c1.change_id, c2.change_id)
  | [], adj, p, hp => Or.inl hp
  | [s], adj, p, hp => Or.inl hp
  | s1 :: s2 :: rest, adj, p, hp => by
    rw [addAdjacencies] at hp
    rcases addAdjacencies_mem (s2 :: rest) _ p hp with h | h
    · rcases hc1 : s1.changes with _ | ⟨c1, cs1⟩
      · rw [hc1] at h
        exact Or.inl h
      · rcases hc2 : s2.changes with _ | ⟨c2, cs2⟩
        · rw [hc1, hc2] at h
          exact Or.inl h
        · rw [hc1, hc2] at h
          rcases mem_mapInsert adj _ _ p h with heq | hmem
          · exact Or.inr ⟨[], s1, s2, rest, c1, cs1, c2, cs2, rfl, hc1, hc2,
              heq⟩
          · exact Or.inl hmem
    · rcases h with ⟨pre, t1, t2, post, c1, cs1, c2, cs2, hsegs, h1, h2, hpz⟩
      exact Or.inr ⟨s1 :: pre, t1, t2, post, c1, cs1, c2, cs2,
        by rw [hsegs]; rfl, h1, h2, hpz⟩

theorem indexOf_mid_lt (A B : List String) (h1 h2 : String)
    (hnd : (A ++ h2 :: h1 :: B).Nodup) :
    List.indexOf h2 (A ++ h2 :: h1 :: B)
      < List.indexOf h1 (A ++ h2 :: h1 :: B) := by
  rw [List.nodup_append] at hnd
  have h2A : h2 ∉ A := fun hmem => hnd.2.2 hmem (by simp)
  have h1A : h1 ∉ A := fun hmem => hnd.2.2 hmem (by simp)
  have hne : h2 ≠ h1 := by
    have hx := hnd.2.1
    rw [List.nodup_cons] at hx
    intro he
    exact hx.1 (by rw [he]; simp)
  rw [List.indexOf_append_of_not_mem h2A,
    List.indexOf_append_of_not_mem h1A]
  rw [List.indexOf_cons_self]
  rw [List.indexOf_cons_ne _ hne]
  rw [List.indexOf_cons_self]
  omega

theorem indexOf_append_inner_lt (order new : List String) (x y : String)
    (hx : x ∉ order) (hy : y ∉ order)
    (h : List.indexOf y new < List.indexOf x new) :
    List.indexOf y (order ++ new) < List.indexOf x (order ++ new) := by
  rw [List.indexOf_append_of_not_mem hx, List.indexOf_append_of_not_mem hy]
  omega

theorem indexOf_append_old_new_lt (order new : List String) (x y : String)
    (hx : x ∉ order) (hy : y ∈ order) :
    List.indexOf y (order ++ new) < List.indexOf x (order ++ new) := by
  rw [List.indexOf_append_of_not_mem hx, List.indexOf_append_of_mem hy]
  have := List.indexOf_lt_length.mpr hy
  omega

theorem segmentLoop_store_flat (L : List LogEntry) (fully : List String) :
    ∃ l', l'.Sublist L
      ∧ ((segmentLoop fully [] none L).1.map
          (fun s => s.changes)).flatten = l' := by
  obtain ⟨l', hsub, hflat⟩ := segmentLoop_flat L fully [] none
  refine ⟨l', hsub, ?_⟩
  rw [hflat]
  simp

theorem store_heads_nodup (L : List LogEntry) (fully : List String)
    (hq : (L.map (fun e => e.change_id)).Nodup) :
    ((segmentLoop fully [] none L).1.map segHeadId).Nodup := by
  obtain ⟨l', hsub, hflat⟩ := segmentLoop_store_flat L fully
  refine segs_head_nodup _ ?_ ?_
  · intro s hs
    obtain ⟨c, cs, hch, _, _, _, _⟩ := segmentLoop_heads L fully L [] none
      (fun x hx => hx) (fun s' hs' => by cases hs') (fun cur hcur => by cases hcur)
      s hs
    rw [hch]
    exact List.cons_ne_nil c cs
  · rw [hflat]
    exact hq.sublist (hsub.map (fun e => e.change_id))

theorem store_head_fresh (ws : JjWorkspace) (hEq : WfEq ws) (b : Bookmark)
    (hb : b ∈ ws.local_bookmarks) (fully order : List String)
    (hord : ∀ x ∈ order, ∃ e ∈ entriesOf ws, e.change_id = x
      ∧ ∃ n ∈ e.local_bookmarks, fully.contains n = true)
    (s : RawSegment)
    (hs : s ∈ (segmentLoop fully [] none (ws.revset b.commit_id)).1) :
    segHeadId s ∉ order := by
  obtain ⟨c, cs, hch, hnames, hcm, hne, hany⟩ := segmentLoop_heads
    (ws.revset b.commit_id) fully (ws.revset b.commit_id) [] none
    (fun x hx => hx) (fun s' hs' => by cases hs') (fun cur hcur => by cases hcur)
    s hs
  rw [segHeadId_cons s c cs hch]
  intro hmem
  obtain ⟨e, he, hid, n, hn, hcont⟩ := hord c.change_id hmem
  have hce : c ∈ entriesOf ws := mem_entriesOf ws b c hb hcm
  have hbeq : e.local_bookmarks = c.local_bookmarks := hEq e he c hce hid
  have htrue : c.local_bookmarks.any fully.contains = true :=
    List.any_eq_true.mpr ⟨n, by rw [← hbeq]; exact hn, hcont⟩
  rw [hany] at htrue
  exact Bool.noConfusion htrue

theorem store_seen_in_order (ws : JjWorkspace) (hShare : WfShare ws)
    (b : Bookmark) (hb : b ∈ ws.local_bookmarks) (fully order : List String)
    (hfo : ∀ n, fully.contains n = true → ∃ x ∈ order, ∃ e ∈ entriesOf ws,
      e.change_id = x ∧ n ∈ e.local_bookmarks)
    (seenId : String)
    (hseen : (segmentLoop fully [] none (ws.revset b.commit_id)).2
      = some seenId) :
    seenId ∈ order := by
  obtain ⟨e, he, hid, hany⟩ := segmentLoop_seen (ws.revset b.commit_id) fully
    [] none seenId hseen
  rw [List.any_eq_true] at hany
  obtain ⟨n, hn, hcont⟩ := hany
  obtain ⟨x, hx, e', he', hid', hn'⟩ := hfo n hcont
  have hee : e ∈ entriesOf ws := mem_entriesOf ws b e hb he
  have heq : e.change_id = e'.change_id := hShare e hee e' he' ⟨n, hn, hn'⟩
  rw [hid, hid'] at heq
  rw [← heq] at hx
  exact hx

theorem processBookmark_store_adj (ws : JjWorkspace) (st : BuildState)
    (b : Bookmark)
    (hnc : st.fully_collected_bookmarks.contains b.name = false)
    (hscan : taintScan st.tainted_change_ids [] (ws.revset b.commit_id)
      = none) :
    (processBookmark ws st b).bookmarked_change_adjacency_list
      = addAdjacencies st.bookmarked_change_adjacency_list
          (segmentLoop st.fully_collected_bookmarks [] none
            (ws.revset b.commit_id)).1
    ∨ ∃ seenId rootSeg c cs,
        (segmentLoop st.fully_collected_bookmarks [] none
          (ws.revset b.commit_id)).2 = some seenId
        ∧ (segmentLoop st.fully_collected_bookmarks [] none
            (ws.revset b.commit_id)).1.getLast? = some rootSeg
        ∧ rootSeg.changes = c :: cs
        ∧ (processBookmark ws st b).bookmarked_change_adjacency_list
          = mapInsert (addAdjacencies st.bookmarked_change_adjacency_list
              (segmentLoop st.fully_collected_bookmarks [] none
                (ws.revset b.commit_id)).1) c.change_id seenId := by
  rw [processBookmark,
    if_neg (by rw [hnc]; exact fun h => Bool.noConfusion h)]
  rw [traverse_clean ws b _ _ hscan]
  rw [if_neg (show ¬((0:Nat) < 0) from by omega)]
  obtain ⟨f1, f2, f3, f4⟩ := foldlStore_frame
    (segmentLoop st.fully_collected_bookmarks [] none
      (ws.revset b.commit_id)).1 st
  rcases hseen : (segmentLoop st.fully_collected_bookmarks [] none
      (ws.revset b.commit_id)).2 with _ | seenId
  · simp only [hseen]
    rcases hlast : (segmentLoop st.fully_collected_bookmarks [] none
        (ws.revset b.commit_id)).1.getLast? with _ | rootSeg
    · simp only [hlast]
      exact Or.inl (by rw [f3])
    · simp only [hlast]
      rcases hch : rootSeg.changes with _ | ⟨c, cs⟩
      · simp only [hch]
        exact Or.inl (by rw [f3])
      · simp only [hch]
        exact Or.inl (by rw [f3])
  · simp only [hseen]
    rcases hlast : (segmentLoop st.fully_collected_bookmarks [] none
        (ws.revset b.commit_id)).1.getLast? with _ | rootSeg
    · simp only [hlast]
      exact Or.inl (by rw [f3])
    · simp only [hlast]
      rcases hch : rootSeg.changes with _ | ⟨c, cs⟩
      · simp only [hch]
        exact Or.inl (by rw [f3])
      · simp only [hch]
        exact Or.inr ⟨seenId, rootSeg, c, cs, rfl, rfl, hch, by rw [f3]⟩

theorem processBookmark_fc_contains_mono (ws : JjWorkspace) (st : BuildState)
    (b : Bookmark) (n : String)
    (h : st.fully_collected_bookmarks.contains n = true) :
    (processBookmark ws st b).fully_collected_bookmarks.contains n = true := by
  by_cases hc : st.fully_collected_bookmarks.contains b.name = true
  · rw [processBookmark_skip ws st b hc]
    exact h
  · have hnc : st.fully_collected_bookmarks.contains b.name = false :=
      Bool.eq_false_iff.mpr hc
    rcases hscan : taintScan st.tainted_change_ids [] (ws.revset b.commit_id)
      with _ | seen
    · rw [(processBookmark_store ws st b hnc hscan).1]
      rw [contains_iff_mem]
      exact foldlStore_fc_mono _ st n ((contains_iff_mem _ _).mp h)
    · rw [processBookmark_excluded ws st b seen hnc hscan]
      exact h

theorem subst_keys {α : Type} (k : String) (v : α) :
    ∀ (m : List (String × α)),
    ((m.map (fun q => if q.1 == k then (k, v) else q)).map (fun p => p.1))
      = m.map (fun p => p.1)
  | [] => rfl
  | q :: t => by
    simp only [List.map_cons]
    rw [subst_keys k v t]
    by_cases hqk : (q.1 == k) = true
    · rw [if_pos hqk]
      have hq : q.1 = k := by simpa using hqk
      rw [hq]
    · rw [if_neg hqk]

theorem mapInsert_keys {α : Type} (m : List (String × α)) (k : String)
    (v : α) :
    (mapInsert m k v).map (fun p => p.1) = m.map (fun p => p.1)
    ∨ ((mapInsert m k v).map (fun p => p.1) = m.map (fun p => p.1) ++ [k]
        ∧ k ∉ m.map (fun p => p.1)) := by
  rw [mapInsert]
  by_cases hany : m.any (fun q => q.1 == k) = true
  · rw [if_pos hany]
    exact Or.inl (subst_keys k v m)
  · rw [if_neg hany]
    refine Or.inr ⟨by simp, ?_⟩
    intro hmem
    rcases List.mem_map.mp hmem with ⟨q, hq, hq1⟩
    exact hany (List.any_eq_true.mpr ⟨q, hq, by simp [hq1]⟩)

theorem mapInsert_keys_nodup {α : Type} (m : List (String × α)) (k : String)
    (v : α) (h : (m.map (fun p => p.1)).Nodup) :
    ((mapInsert m k v).map (fun p => p.1)).Nodup := by
  rcases mapInsert_keys m k v with he | ⟨he, hk⟩
  · rw [he]
    exact h
  · rw [he, List.nodup_append]
    refine ⟨h, List.nodup_singleton k, ?_⟩
    intro x hx hmem
    rcases List.mem_singleton.mp hmem with rfl
    exact hk hx

theorem addAdjacencies_keys_nodup : ∀ (segs : List RawSegment)
    (adj : List (String × String)),
    (adj.map (fun p => p.1)).Nodup →
    ((addAdjacencies adj segs).map (fun p => p.1)).Nodup
  | [], _, h => h
  | [_], _, h => h
  | s1 :: s2 :: rest, adj, h => by
    rw [addAdjacencies]
    apply addAdjacencies_keys_nodup (s2 :: rest)
    rcases hc1 : s1.changes with _ | ⟨c1, cs1⟩
    · rcases hc2 : s2.changes with _ | ⟨c2, cs2⟩
      · simp only [hc1, hc2]
        exact h
      · simp only [hc1, hc2]
        exact h
    · rcases hc2 : s2.changes with _ | ⟨c2, cs2⟩
      · simp only [hc1, hc2]
        exact h
      · simp only [hc1, hc2]
        exact mapInsert_keys_nodup adj c1.change_id c2.change_id h

theorem mapFind_isSome_keys {α : Type} (m : List (String × α)) (x : String)
    (h : (mapFind m x).isSome = true) : x ∈ m.map (fun p => p.1) := by
  rw [mapFind] at h
  rcases hf : m.find? (fun p => p.1 == x) with _ | p
  · rw [hf] at h
    exact Bool.noConfusion h
  · have hm := List.mem_of_find?_eq_some hf
    have hp := List.find?_some hf
    simp only [beq_iff_eq] at hp
    exact List.mem_map.mpr ⟨p, hm, hp⟩

theorem storeSegment_segmap_isSome (st : BuildState) (seg : RawSegment)
    (x : String)
    (h : (mapFind st.bookmarked_change_id_to_segment x).isSome = true) :
    (mapFind (storeSegment st seg).bookmarked_change_id_to_segment x).isSome
      = true := by
  rcases hc : seg.changes with _ | ⟨c, cs⟩
  · rw [storeSegment_nil st seg hc]
    exact h
  · rw [storeSegment_cons st seg c cs hc]
    exact mapFind_isSome_insert st.bookmarked_change_id_to_segment
      c.change_id x seg.changes h

theorem foldlStore_segmap_isSome : ∀ (segs : List RawSegment)
    (st : BuildState) (x : String),
    (mapFind st.bookmarked_change_id_to_segment x).isSome = true →
    (mapFind (segs.foldl storeSegment st).bookmarked_change_id_to_segment
      x).isSome = true
  | [], _, _, h => h
  | s :: t, st, x, h => by
    rw [List.foldl_cons]
    exact foldlStore_segmap_isSome t _ x (storeSegment_segmap_isSome st s x h)

theorem foldlStore_segmap_head : ∀ (segs : List RawSegment) (st : BuildState)
    (s : RawSegment), s ∈ segs → ∀ (c : LogEntry) (cs : List LogEntry),
    s.changes = c :: cs →
    (mapFind (segs.foldl storeSegment st).bookmarked_change_id_to_segment
      c.change_id).isSome = true
  | [], _, s, hs, _, _, _ => by cases hs
  | s0 :: t, st, s, hs, c, cs, hch => by
    rw [List.foldl_cons]
    rcases List.mem_cons.mp hs with rfl | hs
    · apply foldlStore_segmap_isSome t _
      rw [storeSegment_cons st s c cs hch]
      show (mapFind (mapInsert st.bookmarked_change_id_to_segment c.change_id
        s.changes) c.change_id).isSome = true
      rw [mapFind_insert_self]
      rfl
    · exact foldlStore_segmap_head t _ s hs c cs hch

theorem path_length_le (adj : List (String × String)) (order : List String)
    (hcert : ∀ p ∈ adj, p.1 ∈ order ∧ p.2 ∈ order
      ∧ order.indexOf p.2 < order.indexOf p.1) :
    ∀ (fuel : Nat) (current : String),
    (pathToRootAux adj fuel current).length
      ≤ adj.countP (fun p => order.indexOf p.1 ≤ order.indexOf current)
  | 0, current => by
    rw [pathToRootAux]
    exact Nat.zero_le _
  | fuel + 1, current => by
    rw [pathToRootAux]
    rcases hfind : mapFind adj current with _ | parent
    · simp only [hfind]
      exact Nat.zero_le _
    · simp only [hfind, List.length_cons]
      have hlt := path_measure_lt adj order hcert current parent hfind
      have hrec := path_length_le adj order hcert fuel parent
      omega

theorem order_append_nodup (order : List String) (segs : List RawSegment)
    (hno : order.Nodup) (hheads : (segs.map segHeadId).Nodup)
    (hfresh : ∀ s ∈ segs, segHeadId s ∉ order) :
    (order ++ (segs.map segHeadId).reverse).Nodup := by
  rw [List.nodup_append]
  refine ⟨hno, List.nodup_reverse.mpr hheads, ?_⟩
  intro x hx hmem
  rw [List.mem_reverse] at hmem
  rcases List.mem_map.mp hmem with ⟨s, hs, rfl⟩
  exact hfresh s hs hx

theorem store_cert_new (order : List String) (segs : List RawSegment)
    (hnodup : (order ++ (segs.map segHeadId).reverse).Nodup)
    (hfresh : ∀ s ∈ segs, segHeadId s ∉ order)
    (pre post : List RawSegment) (s1 s2 : RawSegment)
    (hsegs : segs = pre ++ s1 :: s2 :: post) :
    segHeadId s1 ∈ order ++ (segs.map segHeadId).reverse
    ∧ segHeadId s2 ∈ order ++ (segs.map segHeadId).reverse
    ∧ List.indexOf (segHeadId s2) (order ++ (segs.map segHeadId).reverse)
      < List.indexOf (segHeadId s1) (order ++ (segs.map segHeadId).reverse) := by
  have hrev : (segs.map segHeadId).reverse
      = ((post.map segHeadId).reverse) ++ segHeadId s2 :: segHeadId s1
        :: ((pre.map segHeadId).reverse) := by
    rw [hsegs]
    simp
  have hs1 : s1 ∈ segs := by
    rw [hsegs]
    simp
  have hs2 : s2 ∈ segs := by
    rw [hsegs]
    simp
  have hm1 : segHeadId s1 ∈ (segs.map segHeadId).reverse := by
    rw [List.mem_reverse]
    exact List.mem_map.mpr ⟨s1, hs1, rfl⟩
  have hm2 : segHeadId s2 ∈ (segs.map segHeadId).reverse := by
    rw [List.mem_reverse]
    exact List.mem_map.mpr ⟨s2, hs2, rfl⟩
  refine ⟨List.mem_append.mpr (Or.inr hm1), List.mem_append.mpr (Or.inr hm2),
    ?_⟩
  refine indexOf_append_inner_lt order _ _ _ (hfresh s1 hs1) (hfresh s2 hs2)
    ?_
  rw [hrev]
  apply indexOf_mid_lt
  rw [← hrev]
  rw [List.nodup_append] at hnodup
  exact hnodup.2.1

theorem addAdj_cert (adj : List (String × String)) (order : List String)
    (segs : List RawSegment)
    (hedges : ∀ p ∈ adj, p.1 ∈ order ∧ p.2 ∈ order
      ∧ order.indexOf p.2 < order.indexOf p.1)
    (hnodup : (order ++ (segs.map segHeadId).reverse).Nodup)
    (hfresh : ∀ s ∈ segs, segHeadId s ∉ order)
    (p : String × String) (hp : p ∈ addAdjacencies adj segs) :
    p.1 ∈ order ++ (segs.map segHeadId).reverse
    ∧ p.2 ∈ order ++ (segs.map segHeadId).reverse
    ∧ List.indexOf p.2 (order ++ (segs.map segHeadId).reverse)
      < List.indexOf p.1 (order ++ (segs.map segHeadId).reverse) := by
  rcases addAdjacencies_mem segs adj p hp with hmem
    | ⟨pre, s1, s2, post, c1, cs1, c2, cs2, hsegs, h1, h2, hpz⟩
  · obtain ⟨m1, m2, hlt⟩ := hedges p hmem
    refine ⟨List.mem_append.mpr (Or.inl m1),
      List.mem_append.mpr (Or.inl m2), ?_⟩
    rw [List.indexOf_append_of_mem m1, List.indexOf_append_of_mem m2]
    exact hlt
  · subst hpz
    obtain ⟨g1, g2, glt⟩ := store_cert_new order segs hnodup hfresh pre post
      s1 s2 hsegs
    rw [segHeadId_cons s1 c1 cs1 h1] at g1 glt
    rw [segHeadId_cons s2 c2 cs2 h2] at g2 glt
    exact ⟨g1, g2, glt⟩

theorem processBookmark_order_store (ws : JjWorkspace) (hShare : WfShare ws)
    (hEq : WfEq ws) (hNq : WfNodupQuery ws) (st : BuildState) (b : Bookmark)
    (hb : b ∈ ws.local_bookmarks) (order : List String)
    (hinv : OrderInv ws st order)
    (hnc : st.fully_collected_bookmarks.contains b.name = false)
    (hscan : taintScan st.tainted_change_ids [] (ws.revset b.commit_id)
      = none) :
    OrderInv ws (processBookmark ws st b)
      (order ++ (((segmentLoop st.fully_collected_bookmarks [] none
        (ws.revset b.commit_id)).1).map segHeadId).reverse) := by
  obtain ⟨⟨hno, hedges⟩, hbInv, hcInv, hdInv, heInv⟩ := hinv
  obtain ⟨hfc, hkeys, hsegmap, htaint, htot⟩ :=
    processBookmark_store ws st b hnc hscan
  have hSH := segmentLoop_result_heads ws b st.fully_collected_bookmarks
  have hfresh : ∀ s ∈ (segmentLoop st.fully_collected_bookmarks [] none
      (ws.revset b.commit_id)).1, segHeadId s ∉ order :=
    fun s hs => store_head_fresh ws hEq b hb _ order hcInv s hs
  have hheads : (((segmentLoop st.fully_collected_bookmarks [] none
      (ws.revset b.commit_id)).1).map segHeadId).Nodup :=
    store_heads_nodup (ws.revset b.commit_id) _ (hNq b hb)
  have hnodup2 := order_append_nodup order _ hno hheads hfresh
  have hne : ∀ s ∈ (segmentLoop st.fully_collected_bookmarks [] none
      (ws.revset b.commit_id)).1, s.changes ≠ [] := by
    intro s hs
    obtain ⟨c, cs, hch, _, _, _, _⟩ := hSH s hs
    rw [hch]
    exact List.cons_ne_nil c cs
  refine ⟨⟨hnodup2, ?_⟩, ?_, ?_, ?_, ?_⟩
  · intro p hp
    rcases processBookmark_store_adj ws st b hnc hscan with hA
      | ⟨seenId, rootSeg, c, cs, hseen, hlast, hch, hA⟩
    · rw [hA] at hp
      exact addAdj_cert st.bookmarked_change_adjacency_list order _ hedges
        hnodup2 hfresh p hp
    · rw [hA] at hp
      rcases mem_mapInsert _ _ _ p hp with hpe | hp2
      · have hrm : rootSeg ∈ (segmentLoop st.fully_collected_bookmarks []
            none (ws.revset b.commit_id)).1 :=
          List.mem_of_mem_getLast? hlast
        have hfr := hfresh rootSeg hrm
        rw [segHeadId_cons rootSeg c cs hch] at hfr
        have hso : seenId ∈ order := store_seen_in_order ws hShare b hb _
          order hbInv seenId hseen
        subst hpe
        refine ⟨?_, List.mem_append.mpr (Or.inl hso),
          indexOf_append_old_new_lt order _ c.change_id seenId hfr hso⟩
        refine List.mem_append.mpr (Or.inr ?_)
        rw [List.mem_reverse]
        exact List.mem_map.mpr ⟨rootSeg, hrm, segHeadId_cons rootSeg c cs hch⟩
      · exact addAdj_cert st.bookmarked_change_adjacency_list order _ hedges
          hnodup2 hfresh p hp2
  · intro n hn
    rw [hfc, contains_iff_mem] at hn
    rcases (foldlStore_fc_iff _ st n).mp hn with hold
      | ⟨seg, hseg, hnil, hnm⟩
    · obtain ⟨x, hx, e, he, hid, hnb⟩ :=
        hbInv n ((contains_iff_mem _ _).mpr hold)
      exact ⟨x, List.mem_append.mpr (Or.inl hx), e, he, hid, hnb⟩
    · obtain ⟨c, cs, hch, hnames, hcm, _, _⟩ := hSH seg hseg
      refine ⟨c.change_id, ?_, c, mem_entriesOf ws b c hb hcm, rfl, ?_⟩
      · refine List.mem_append.mpr (Or.inr ?_)
        rw [List.mem_reverse]
        exact List.mem_map.mpr ⟨seg, hseg, segHeadId_cons seg c cs hch⟩
      · rw [← hnames]
        exact hnm
  · intro x hx
    rcases List.mem_append.mp hx with hxo | hxn
    · obtain ⟨e, he, hid, n, hn, hcont⟩ := hcInv x hxo
      refine ⟨e, he, hid, n, hn, ?_⟩
      rw [hfc, contains_iff_mem]
      exact foldlStore_fc_mono _ st n ((contains_iff_mem _ _).mp hcont)
    · rw [List.mem_reverse] at hxn
      rcases List.mem_map.mp hxn with ⟨seg, hseg, hxid⟩
      obtain ⟨c, cs, hch, hnames, hcm, hnem, _⟩ := hSH seg hseg
      refine ⟨c, mem_entriesOf ws b c hb hcm,
        by rw [← hxid, segHeadId_cons seg c cs hch], ?_⟩
      rcases hlb : c.local_bookmarks with _ | ⟨n0, ns⟩
      · exact absurd hnem (by simp [hlb])
      · refine ⟨n0, by simp, ?_⟩
        rw [hfc, contains_iff_mem]
        refine foldlStore_names_mem _ st seg hseg (hne seg hseg) n0 ?_
        rw [hnames, hlb]
        simp
  · intro x hx
    rw [hsegmap]
    rcases List.mem_append.mp hx with hxo | hxn
    · exact foldlStore_segmap_isSome _ st x (hdInv x hxo)
    · rw [List.mem_reverse] at hxn
      rcases List.mem_map.mp hxn with ⟨seg, hseg, hxid⟩
      obtain ⟨c, cs, hch, _, _, _, _⟩ := hSH seg hseg
      rw [← hxid, segHeadId_cons seg c cs hch]
      exact foldlStore_segmap_head _ st seg hseg c cs hch
  · rcases processBookmark_store_adj ws st b hnc hscan with hA
      | ⟨seenId, rootSeg, c, cs, hseen, hlast, hch, hA⟩
    · rw [hA]
      exact addAdjacencies_keys_nodup _ _ heInv
    · rw [hA]
      exact mapInsert_keys_nodup _ _ _ (addAdjacencies_keys_nodup _ _ heInv)

theorem processBookmark_order (ws : JjWorkspace) (hShare : WfShare ws)
    (hEq : WfEq ws) (hNq : WfNodupQuery ws) (st : BuildState) (b : Bookmark)
    (hb : b ∈ ws.local_bookmarks) (order : List String)
    (hinv : OrderInv ws st order) :
    ∃ order2, OrderInv ws (processBookmark ws st b) order2 := by
  by_cases hc : st.fully_collected_bookmarks.contains b.name = true
  · exact ⟨order, by rw [processBookmark_skip ws st b hc]; exact hinv⟩
  · have hnc : st.fully_collected_bookmarks.contains b.name = false :=
      Bool.eq_false_iff.mpr hc
    rcases hscan : taintScan st.tainted_change_ids [] (ws.revset b.commit_id)
      with _ | seen
    · exact ⟨_, processBookmark_order_store ws hShare hEq hNq st b hb order
        hinv hnc hscan⟩
    · refine ⟨order, ?_⟩
      rw [processBookmark_excluded ws st b seen hnc hscan]
      exact hinv

theorem OrderInv_init (ws : JjWorkspace) : OrderInv ws BuildState.init [] := by
  refine ⟨⟨List.nodup_nil, ?_⟩, ?_, ?_, ?_, ?_⟩
  · intro p hp
    cases hp
  · intro n h
    exact Bool.noConfusion h
  · intro x hx
    cases hx
  · intro x hx
    cases hx
  · exact List.nodup_nil

theorem foldl_processBookmark_order (ws : JjWorkspace) (hShare : WfShare ws)
    (hEq : WfEq ws) (hNq : WfNodupQuery ws) :
    ∀ (bs : List Bookmark) (st : BuildState) (order : List String),
    (∀ b ∈ bs, b ∈ ws.local_bookmarks) → OrderInv ws st order →
    ∃ order2, OrderInv ws (bs.foldl (processBookmark ws) st) order2
  | [], _, order, _, hinv => ⟨order, hinv⟩
  | b :: t, st, order, hbs, hinv => by
    obtain ⟨order1, hinv1⟩ := processBookmark_order ws hShare hEq hNq st b
      (hbs b (by simp)) order hinv
    rw [List.foldl_cons]
    exact foldl_processBookmark_order ws hShare hEq hNq t _ order1
      (fun b2 hb2 => hbs b2 (List.mem_cons_of_mem _ hb2)) hinv1

theorem build_change_graph_adj_fields (ws : JjWorkspace) :
    (build_change_graph ws).bookmarked_change_adjacency_list
      = (ws.local_bookmarks.foldl (processBookmark ws)
          BuildState.init).bookmarked_change_adjacency_list
    ∧ (build_change_graph ws).bookmarked_change_id_to_segment
      = (ws.local_bookmarks.foldl (processBookmark ws)
          BuildState.init).bookmarked_change_id_to_segment :=
  ⟨rfl, rfl⟩

theorem cert_length_le (adj : List (String × String)) (order : List String)
    (hcert : OrderCert adj order)
    (hkn : (adj.map (fun p => p.1)).Nodup)
    (segmap : List (String × List LogEntry))
    (hd : ∀ x ∈ order, (mapFind segmap x).isSome = true) :
    adj.length ≤ segmap.length := by
  have h1 : (adj.map (fun p => p.1)).length = adj.length :=
    List.length_map adj _
  have hsub1 : (adj.map (fun p => p.1)) ⊆ order := by
    intro k hk
    rcases List.mem_map.mp hk with ⟨p, hp, hpk⟩
    rw [← hpk]
    exact (hcert.2 p hp).1
  have h2 : (adj.map (fun p => p.1)).length ≤ order.length :=
    (List.Nodup.subperm hkn hsub1).length_le
  have hsub2 : order ⊆ segmap.map (fun p => p.1) := by
    intro x hx
    exact mapFind_isSome_keys segmap x (hd x hx)
  have h3 : order.length ≤ (segmap.map (fun p => p.1)).length :=
    (List.Nodup.subperm hcert.1 hsub2).length_le
  have h4 : (segmap.map (fun p => p.1)).length = segmap.length :=
    List.length_map segmap _
  omega

theorem build_path_fuel_stable (adj : List (String × String))
    (order : List String)
    (hcert : ∀ p ∈ adj, p.1 ∈ order ∧ p.2 ∈ order
      ∧ order.indexOf p.2 < order.indexOf p.1)
    (leaf : String) (fuel : Nat) (hfuel : adj.length ≤ fuel) :
    build_path_to_root leaf adj fuel
      = build_path_to_root leaf adj adj.length := by
  rw [build_path_to_root, build_path_to_root]
  rw [path_fuel_stable adj order hcert fuel adj.length leaf
    (le_trans (List.countP_le_length _) hfuel) (List.countP_le_length _)]

theorem build_path_length_le (adj : List (String × String))
    (order : List String)
    (hcert : ∀ p ∈ adj, p.1 ∈ order ∧ p.2 ∈ order
      ∧ order.indexOf p.2 < order.indexOf p.1)
    (leaf : String) (fuel : Nat) :
    (build_path_to_root leaf adj fuel).length ≤ adj.length + 1 := by
  rw [build_path_to_root, List.length_reverse, List.length_cons]
  have h1 := path_length_le adj order hcert fuel leaf
  have h2 : adj.countP
      (fun p => order.indexOf p.1 ≤ order.indexOf leaf) ≤ adj.length :=
    List.countP_le_length _
  omega

theorem build_path_head_root (adj : List (String × String))
    (order : List String)
    (hcert : ∀ p ∈ adj, p.1 ∈ order ∧ p.2 ∈ order
      ∧ order.indexOf p.2 < order.indexOf p.1)
    (leaf : String) (fuel : Nat) (hfuel : adj.length ≤ fuel) :
    ∃ r, (build_path_to_root leaf adj fuel).head? = some r
      ∧ mapFind adj r = none := by
  obtain ⟨r, hr, hnone⟩ := path_head_root adj order hcert fuel leaf
    (le_trans (List.countP_le_length _) hfuel)
  refine ⟨r, ?_, hnone⟩
  rw [build_path_to_root, List.head?_reverse]
  exact hr

/-- Claim C3: for every graph `build_change_graph` produces — under workspace
coherence (`WfShare`, `WfEq`) and duplicate-free queries (`WfNodupQuery`) —
the parent adjacency list is acyclic: there is an order certificate (a
duplicate-free list of change ids in which every edge strictly decreases the
index).  Consequently `build_path_to_root` terminates from any leaf: the
adjacency list is no longer than the segment map, the path is stable for any
fuel of at least the adjacency-list length (the source's unfuelled `while`
loop halts within that many steps, at most `|segments|`), the path has at
most `|adjacency| + 1` entries, is ordered root first (each entry is the
recorded parent of its successor), and starts at a root with no parent. -/
theorem C3_adjacency_acyclic (ws : JjWorkspace) (hShare : WfShare ws)
    (hEq : WfEq ws) (hNq : WfNodupQuery ws) :
    ∃ order : List String,
      OrderCert (build_change_graph ws).bookmarked_change_adjacency_list order
    ∧ (build_change_graph ws).bookmarked_change_adjacency_list.length
        ≤ (build_change_graph ws).bookmarked_change_id_to_segment.length
    ∧ (∀ (leaf : String) (fuel : Nat),
        (build_change_graph ws).bookmarked_change_adjacency_list.length
          ≤ fuel →
        build_path_to_root leaf
            (build_change_graph ws).bookmarked_change_adjacency_list fuel
          = build_path_to_root leaf
              (build_change_graph ws).bookmarked_change_adjacency_list
              (build_change_graph ws).bookmarked_change_adjacency_list.length)
    ∧ (∀ (leaf : String) (fuel : Nat),
        (build_path_to_root leaf
          (build_change_graph ws).bookmarked_change_adjacency_list
          fuel).length
          ≤ (build_change_graph ws).bookmarked_change_adjacency_list.length
            + 1)
    ∧ (∀ (leaf : String) (fuel : Nat),
        List.Chain' (fun a c => mapFind
            (build_change_graph ws).bookmarked_change_adjacency_list c
            = some a)
          (build_path_to_root leaf
            (build_change_graph ws).bookmarked_change_adjacency_list fuel))
    ∧ (∀ (leaf : String) (fuel : Nat),
        (build_change_graph ws).bookmarked_change_adjacency_list.length
          ≤ fuel →
        ∃ r, (build_path_to_root leaf
            (build_change_graph ws).bookmarked_change_adjacency_list
            fuel).head? = some r
          ∧ mapFind (build_change_graph ws).bookmarked_change_adjacency_list
              r = none) := by
  obtain ⟨hadj, hseg⟩ := build_change_graph_adj_fields ws
  obtain ⟨order, hinv⟩ := foldl_processBookmark_order ws hShare hEq hNq
    ws.local_bookmarks BuildState.init [] (fun b hb => hb) (OrderInv_init ws)
  obtain ⟨hcert, hbInv, hcInv, hdInv, heInv⟩ := hinv
  refine ⟨order, ?_, ?_, ?_, ?_, ?_, ?_⟩
  · rw [hadj]
    exact hcert
  · rw [hadj, hseg]
    exact cert_length_le _ order hcert heInv _ hdInv
  · intro leaf fuel hfuel
    rw [hadj] at hfuel ⊢
    exact build_path_fuel_stable _ order hcert.2 leaf fuel hfuel
  · intro leaf fuel
    rw [hadj]
    exact build_path_length_le _ order hcert.2 leaf fuel
  · intro leaf fuel
    rw [hadj]
    exact build_path_chain leaf _ fuel
  · intro leaf fuel hfuel
    rw [hadj] at hfuel ⊢
    exact build_path_head_root _ order hcert.2 leaf fuel hfuel

theorem wsC2_nodupq : WfNodupQuery wsC2 := by
  intro b hb
  rcases List.mem_singleton.mp hb with rfl
  simp [wsC2, eW]

theorem C3_witness :
    ∃ order : List String,
      OrderCert (build_change_graph wsC2).bookmarked_change_adjacency_list
        order
    ∧ (build_change_graph wsC2).bookmarked_change_adjacency_list.length
        ≤ (build_change_graph wsC2).bookmarked_change_id_to_segment.length
    ∧ (∀ (leaf : String) (fuel : Nat),
        (build_change_graph wsC2).bookmarked_change_adjacency_list.length
          ≤ fuel →
        build_path_to_root leaf
            (build_change_graph wsC2).bookmarked_change_adjacency_list fuel
          = build_path_to_root leaf
              (build_change_graph wsC2).bookmarked_change_adjacency_list
              (build_change_graph
                wsC2).bookmarked_change_adjacency_list.length)
    ∧ (∀ (leaf : String) (fuel : Nat),
        (build_path_to_root leaf
          (build_change_graph wsC2).bookmarked_change_adjacency_list
          fuel).length
          ≤ (build_change_graph wsC2).bookmarked_change_adjacency_list.length
            + 1)
    ∧ (∀ (leaf : String) (fuel : Nat),
        List.Chain' (fun a c => mapFind
            (build_change_graph wsC2).bookmarked_change_adjacency_list c
            = some a)
          (build_path_to_root leaf
            (build_change_graph wsC2).bookmarked_change_adjacency_list fuel))
    ∧ (∀ (leaf : String) (fuel : Nat),
        (build_change_graph wsC2).bookmarked_change_adjacency_list.length
          ≤ fuel →
        ∃ r, (build_path_to_root leaf
            (build_change_graph wsC2).bookmarked_change_adjacency_list
            fuel).head? = some r
          ∧ mapFind
              (build_change_graph wsC2).bookmarked_change_adjacency_list r
              = none) :=
  C3_adjacency_acyclic wsC2 wsC2_share wsC2_eq wsC2_nodupq

end JjRyu
